import Mathlib

/-!
# Shamir secret sharing over GF(2^8): embedding of `split.go`, `combine.go`, `utils.go`

Bytes are natural numbers below 256; every byte-typed computation of the source is
written with an explicit `% 256`.  Go maps are association lists with pairwise distinct
keys, and every `range` over a map takes its enumeration order as an input.  The loops
on a `byte` counter take fuel: a result `none` is a run that has not returned yet.  The
entropy source is an `io.Reader` given by its `Read` function on an explicit state.

The field arithmetic is not among the sources; it is modelled from the specification
(tables built from a modulus and a generator, multiply and divide by table look-up,
Horner evaluation, Lagrange interpolation).
-/

namespace Shamir

/-- TagLength of `utils.go`: the number of zero bytes shared as a prefix by the tagged variant. -/
def TagLength : Nat := 8

/-! ## The field (absent from the sources, modelled from the specification) -/

/-- Modelled from the spec: the `GF256` value is missing from the sources; the spec says it
"internally holds two lookup tables of 256 entries each (logarithm and exponential/antilog
tables)". -/
structure GF256 where
  exp : List Nat
  log : List Nat
deriving DecidableEq, Repr

/-- Modelled from the spec: one doubling step of "polynomial multiplication modulo `modulus`
in GF(2)[x]" on a byte, where "the reduction step must correctly fold the 9th bit back into
the 8-bit result". The helper is missing from the sources. -/
def xtime (poly a : Nat) : Nat :=
  if 2 * a < 256 then 2 * a else (2 * a ^^^ poly) % 256

/-- Modelled from the spec: "polynomial multiplication modulo `modulus` in GF(2)[x]" of the
byte `a` by the `bits` low bits of `b` (shift and add). The helper is missing from the
sources. -/
def mulSlow (poly : Nat) : Nat → Nat → Nat → Nat
  | 0, _, _ => 0
  | bits + 1, a, b => (if b % 2 = 1 then a else 0) ^^^ mulSlow poly bits (xtime poly a) (b / 2)

/-- Modelled from the spec: the successive powers of the generator, "repeatedly multiplying
the generator under polynomial multiplication modulo `modulus`", starting from `x`. -/
def orbit (poly gen : Nat) : Nat → Nat → List Nat
  | 0, _ => []
  | n + 1, x => x :: orbit poly gen n (mulSlow poly 8 x gen)

/-- Modelled from the spec: the exponential table of `construct(modulus, generator)`,
256 entries, entry `k` being the `k`-th power of the generator. -/
def expTable (poly gen : Nat) : List Nat := orbit poly gen 256 1

/-- Modelled from the spec: the logarithm table of `construct(modulus, generator)`,
256 entries, entry `a` being the first exponent below 255 whose power is `a`. -/
def logTable (poly gen : Nat) : List Nat :=
  (List.range 256).map (fun a => ((expTable poly gen).take 255).indexOf a)

/-- Modelled from the spec: the check of `construct`, which "fails (ConfigurationError) if
the generator does not cycle through all 255 nonzero elements": the 255th power is 1 again
and every nonzero byte is among the first 255 powers. -/
def cyclesThroughAll (poly gen : Nat) : Bool :=
  ((expTable poly gen).getD 255 0 == 1) &&
    (List.range' 1 255).all (fun a => ((expTable poly gen).take 255).contains a)

/-- Modelled from the spec: `construct(modulus, generator)` (`New256` in `split.go`, whose
body is missing from the sources); `none` is the failed construction (a nil field). -/
def New256 (poly gen : Nat) : Option GF256 :=
  if cyclesThroughAll poly gen then some ⟨expTable poly gen, logTable poly gen⟩ else none

/-- PolyAES, the AES reduction polynomial named by `split.go` (value from the spec). -/
def PolyAES : Nat := 0x11B

/-- GenAES, the AES generator named by `split.go` (value from the spec). -/
def GenAES : Nat := 0x03

/-- ShamirGaloisField of `split.go`: `New256(PolyAES, GenAES)`. -/
def ShamirGaloisField : Option GF256 := New256 PolyAES GenAES

/-- Modelled from the spec: `multiply(a, b)`: "returns 0 if either operand is 0; otherwise
`antilog[(log[a] + log[b]) mod 255]`". The method is missing from the sources. -/
def GF256.Mul (gf : GF256) (a b : Nat) : Nat :=
  if a = 0 ∨ b = 0 then 0
  else gf.exp.getD ((gf.log.getD a 0 + gf.log.getD b 0) % 255) 0

/-- Modelled from the spec: `divide(a, b)`: "fails (DivisionByZero) if `b == 0`; otherwise
`antilog[(log[a] - log[b] + 255) mod 255]`, or 0 if `a == 0`". `none` is the failure.
The method is missing from the sources. -/
def GF256.Div (gf : GF256) (a b : Nat) : Option Nat :=
  if b = 0 then none
  else if a = 0 then some 0
  else some (gf.exp.getD ((gf.log.getD a 0 + 255 - gf.log.getD b 0) % 255) 0)

/-- Modelled from the spec: `evaluate(coefficients, x)`: "Horner's-method evaluation of the
polynomial at `x` in the field". The method is missing from the sources. -/
def GF256.Evaluate (gf : GF256) (coefficients : List Nat) (x : Nat) : Nat :=
  coefficients.foldr (fun c acc => gf.Mul acc x ^^^ c) 0

/-- Point of the field package: one sample `(X, Y)` of a polynomial. -/
structure Point where
  X : Nat
  Y : Nat
deriving DecidableEq, Repr

/-- Modelled from the spec: the Lagrange weight of sample number `i` (abscissa `xi`):
"weight = Π_{j≠i} (x − x_j)/(x_i − x_j) computed with field subtract/divide"; `j` is the
number of the first sample of the list. `none` is a division by zero. -/
def GF256.weightFrom (gf : GF256) (x xi i : Nat) : Nat → List Point → Option Nat
  | _, [] => some 1
  | j, p :: ps =>
    if j = i then gf.weightFrom x xi i (j + 1) ps
    else
      match gf.Div (x ^^^ p.X) (xi ^^^ p.X), gf.weightFrom x xi i (j + 1) ps with
      | some q, some w => some (gf.Mul q w)
      | _, _ => none

/-- Modelled from the spec: the sum "Σ y_i·weight_i" over the samples from number `i` on. -/
def GF256.interpolateFrom (gf : GF256) (all : List Point) (x : Nat) : Nat → List Point → Option Nat
  | _, [] => some 0
  | i, p :: ps =>
    match gf.weightFrom x p.X i 0 all, gf.interpolateFrom all x (i + 1) ps with
    | some w, some rest => some (gf.Mul p.Y w ^^^ rest)
    | _, _ => none

/-- Modelled from the spec: `interpolate(points, x)`: "Lagrange interpolation evaluated at
`x`"; `none` is the DivisionByZero failure. The method is missing from the sources. -/
def GF256.Interpolate (gf : GF256) (samples : List Point) (x : Nat) : Option Nat :=
  gf.interpolateFrom samples x 0 samples


/-! ## The program: `utils.go`, `split.go`, `combine.go` -/

/-- The ways a call can fail: the two errors and two panics of the split, the error of the
tagged combine, and the run-time panics of Go (index out of range, `make` with a negative
length) and of the field (division by zero). -/
inductive Failure where
  /-- The error "galois field is nil". -/
  | fieldNil
  /-- The error "secret is empty". -/
  | secretEmpty
  /-- The panic "k must be at least 2". -/
  | panicK
  /-- The panic "n must not be less than k". -/
  | panicN
  /-- The error "generating polynomial: reading random bytes: ...". -/
  | entropy
  /-- The error "tag mismatch". -/
  | tagMismatch
  /-- The run-time panic of an index out of range. -/
  | indexOutOfRange
  /-- The run-time panic of `make` with a negative length. -/
  | makeNegative
  /-- The failure of the field's divide on a zero divisor. -/
  | divisionByZero
deriving DecidableEq, Repr

/-- Whether the failure is a panic (and not an error value returned to the caller). -/
def Failure.isPanic : Failure → Bool
  | .fieldNil | .secretEmpty | .entropy | .tagMismatch => false
  | .panicK | .panicN | .indexOutOfRange | .makeNegative | .divisionByZero => true

/-- The result of one `Read(p)` of an `io.Reader`: the bytes written to the front of `p`
(`n` is their number) and whether `err` is non-nil. -/
structure ReadResult where
  data : List Nat
  err : Bool
deriving DecidableEq, Repr

/-- An `io.Reader` (`rand.Reader` in `split.go`): `Read` takes the state of the source and
the length of the buffer, and returns the result and the next state. -/
structure Reader (σ : Type) where
  Read : σ → Nat → ReadResult × σ

/-- The buffer of `len` zero bytes after a `Read` wrote `data` to its front. -/
def fillBuffer (len : Nat) (data : List Nat) : List Nat :=
  (data.take len).map (· % 256) ++ List.replicate (len - data.length) 0

/-- makePolynomial of `utils.go`. `degree + 1` is computed on `uint8`; `coefficients[0]`
panics on an empty slice; the count returned by `Read` is discarded and only `err` is
tested. -/
def makePolynomial {σ : Type} (rng : Reader σ) (s : σ) (intercept degree : Nat) :
    Except Failure (List Nat) × σ :=
  let len := (degree + 1) % 256
  if len = 0 then (.error .indexOutOfRange, s)
  else
    let r := rng.Read s (len - 1)
    if r.1.err then (.error .entropy, r.2)
    else (.ok (intercept :: fillBuffer (len - 1) r.1.data), r.2)

/-- A Go `map[byte][]byte`: its entries, with pairwise distinct keys. -/
abbrev Shares := List (Nat × List Nat)

/-- `shares[x] = v`: overwrite the entry of key `x`, or add it. -/
def Shares.insert : Shares → Nat → List Nat → Shares
  | [], x, v => [(x, v)]
  | (x', v') :: m, x, v => if x' = x then (x, v) :: m else (x', v') :: Shares.insert m x v

/-- `shares[x][i] = y`: panics when `i` is not an index of `shares[x]` (a missing key reads
as the nil slice). -/
def Shares.setByte (m : Shares) (x i y : Nat) : Except Failure Shares :=
  match m.lookup x with
  | none => .error .indexOutOfRange
  | some v => if i < v.length then .ok (Shares.insert m x (v.set i y)) else .error .indexOutOfRange

/-- `shares[x][i]` as a value: panics when `i` is not an index of `shares[x]`. -/
def Shares.index (m : Shares) (x i : Nat) : Except Failure Nat :=
  match m.lookup x with
  | none => .error .indexOutOfRange
  | some v =>
    match v[i]? with
    | some b => .ok b
    | none => .error .indexOutOfRange

/-- The loop `for i := byte(start); i <= n; i++ { body }` on a `byte` counter: `i++` wraps
at 256. `none` means the loop is still running when the fuel is used up. -/
def byteLoop {α : Type} (n : Nat) (body : Nat → α → Except Failure α) :
    Nat → Nat → α → Option (Except Failure α)
  | 0, _, _ => none
  | fuel + 1, i, acc =>
    if i ≤ n then
      match body i acc with
      | .ok acc' => byteLoop n body fuel ((i + 1) % 256) acc'
      | .error e => some (.error e)
    else some (.ok acc)

/-- The body of the loops over the byte positions of `split.go`: build the polynomial of
position `i` with the given intercept, then store its value at `x` in `shares[x][i]` for
`x` from 1 to `n`. -/
def encodeByte {σ : Type} (fuel : Nat) (rng : Reader σ) (gf : GF256) (n degree intercept i : Nat)
    (shares : Shares) (s : σ) : Option (Except Failure Shares × σ) :=
  match makePolynomial rng s intercept degree with
  | (.error e, s') => some (.error e, s')
  | (.ok coefficients, s') =>
    match byteLoop n (fun x sh => Shares.setByte sh x i (gf.Evaluate coefficients x)) fuel 1 shares with
    | none => none
    | some (.error e) => some (.error e, s')
    | some (.ok sh) => some (.ok sh, s')

/-- The loops `for i := 0; i < len; i++` of `split.go` over the byte positions: the
intercepts still to encode, the position (in the share) of the first of them. -/
def encode {σ : Type} (fuel : Nat) (rng : Reader σ) (gf : GF256) (n degree : Nat) :
    List Nat → Nat → Shares → σ → Option (Except Failure Shares × σ)
  | [], _, shares, s => some (.ok shares, s)
  | b :: bs, i, shares, s =>
    match encodeByte fuel rng gf n degree b i shares s with
    | some (.ok sh, s') => encode fuel rng gf n degree bs (i + 1) sh s'
    | other => other

/-- The common start of `SplitWithField` and `SplitTaggedWithField`: the four checks, then
the loop that creates the `n` shares of `len` zero bytes. -/
def allocate {σ : Type} (fuel : Nat) (gf : Option GF256) (secret : List Nat) (k n len : Nat)
    (s : σ) : Option (Except Failure (GF256 × Shares) × σ) :=
  match gf with
  | none => some (.error .fieldNil, s)
  | some g =>
    if secret.length = 0 then some (.error .secretEmpty, s)
    else if k < 2 then some (.error .panicK, s)
    else if n < k then some (.error .panicN, s)
    else
      match byteLoop n (fun i sh => .ok (Shares.insert sh i (List.replicate len 0))) fuel 1 [] with
      | none => none
      | some (.error e) => some (.error e, s)
      | some (.ok shares) => some (.ok (g, shares), s)

/-- SplitWithField of `split.go`. The secret and `k`, `n` are bytes; `degree := k - 1` on
`byte`. The result is `none` while the call is still running, and otherwise the returned
share map or the failure, with the state in which the entropy source is left. -/
def SplitWithField {σ : Type} (fuel : Nat) (rng : Reader σ) (gf : Option GF256)
    (secret : List Nat) (k n : Nat) (s : σ) : Option (Except Failure Shares × σ) :=
  match allocate fuel gf secret k n secret.length s with
  | none => none
  | some (.error e, s') => some (.error e, s')
  | some (.ok (g, shares), s') =>
    encode fuel rng g n ((k + 255) % 256) secret 0 shares s'

/-- SplitTaggedWithField of `split.go`: the shares have `len(secret)+TagLength` bytes; the
tag loop encodes the intercept 0 at the positions below `TagLength`, the secret loop
encodes `secret[i]` at position `i+TagLength`. -/
def SplitTaggedWithField {σ : Type} (fuel : Nat) (rng : Reader σ) (gf : Option GF256)
    (secret : List Nat) (k n : Nat) (s : σ) : Option (Except Failure Shares × σ) :=
  match allocate fuel gf secret k n (secret.length + TagLength) s with
  | none => none
  | some (.error e, s') => some (.error e, s')
  | some (.ok (g, shares), s') =>
    match encode fuel rng g n ((k + 255) % 256) (List.replicate TagLength 0) 0 shares s' with
    | some (.ok sh, s'') => encode fuel rng g n ((k + 255) % 256) secret TagLength sh s''
    | other => other

/-- Split of `split.go`. -/
def Split {σ : Type} (fuel : Nat) (rng : Reader σ) (secret : List Nat) (k n : Nat) (s : σ) :
    Option (Except Failure Shares × σ) :=
  SplitWithField fuel rng ShamirGaloisField secret k n s

/-- SplitTagged of `split.go`. -/
def SplitTagged {σ : Type} (fuel : Nat) (rng : Reader σ) (secret : List Nat) (k n : Nat)
    (s : σ) : Option (Except Failure Shares × σ) :=
  SplitTaggedWithField fuel rng ShamirGaloisField secret k n s

/-- The loop `for x := range shares { samples[sampleIndex] = Point{x, shares[x][i+off]} }`:
`keys` is the order in which this `range` enumerates the keys of the map. -/
def collect (shares : Shares) (i : Nat) : List Nat → Except Failure (List Point)
  | [] => .ok []
  | x :: keys =>
    match Shares.index shares x i, collect shares i keys with
    | .ok y, .ok ps => .ok (⟨x, y⟩ :: ps)
    | .error e, _ => .error e
    | .ok _, .error e => .error e

/-- The call `gf.Interpolate(samples, 0)` on the samples of position `i` taken in the order
`keys`. -/
def interpolateAt (gf : GF256) (shares : Shares) (i : Nat) (keys : List Nat) : Except Failure Nat :=
  match collect shares i keys with
  | .error e => .error e
  | .ok samples =>
    match gf.Interpolate samples 0 with
    | some b => .ok b
    | none => .error .divisionByZero

/-- The loop `for i := 0; i < secretLength; i++ { ...; secret[i] = gf.Interpolate(samples, 0) }`
from position `i` on, for `count` more positions; `off` is 0 or `TagLength`, and `ord j` is
the order of the `range` of position `j`. -/
def unlock (gf : GF256) (shares : Shares) (off : Nat) (ord : Nat → List Nat) :
    Nat → Nat → Except Failure (List Nat)
  | 0, _ => .ok []
  | count + 1, i =>
    match interpolateAt gf shares (i + off) (ord i) with
    | .error e => .error e
    | .ok b =>
      match unlock gf shares off ord count (i + 1) with
      | .error e => .error e
      | .ok bs => .ok (b :: bs)

/-- The length probe `for _, share := range shares { ...len(share)...; break }`: the length
of the share met first, if any. -/
def probe (shares : Shares) (keys : List Nat) : Option Nat :=
  match keys with
  | [] => none
  | x :: _ => some ((shares.lookup x).getD []).length

/-- CombineWithField of `combine.go` (`Combine` is this function at the default field).
`gf` is a non-nil field. `ord 0` is the order in which the length probe enumerates the
map, `ord (i+1)` the order of the `range` at byte position `i`. A nil result is the empty
sequence. -/
def CombineWithField (gf : GF256) (shares : Shares) (ord : Nat → List Nat) :
    Except Failure (List Nat) :=
  let secretLength := (probe shares (ord 0)).getD 0
  if secretLength = 0 then .ok []
  else unlock gf shares 0 (fun i => ord (i + 1)) secretLength 0

/-- The tag loop `for i := 0; i < TagLength; i++` of `CombineTaggedWithField` from position
`i` on, for `count` more positions: `true` when every tag byte interpolates to 0. -/
def verifyTag (gf : GF256) (shares : Shares) (ord : Nat → List Nat) :
    Nat → Nat → Except Failure Bool
  | 0, _ => .ok true
  | count + 1, i =>
    match interpolateAt gf shares i (ord i) with
    | .error e => .error e
    | .ok b => if b ≠ 0 then .ok false else verifyTag gf shares ord count (i + 1)

/-- CombineTaggedWithField of `combine.go` (`CombineTagged` is this function at the
default field). `gf` is a non-nil field. `secretLength` is a Go `int` and may be
negative. `ord 0` is the order of the length probe, `ord (1+i)` that of tag position `i`,
`ord (1+TagLength+i)` that of secret position `i`. -/
def CombineTaggedWithField (gf : GF256) (shares : Shares) (ord : Nat → List Nat) :
    Except Failure (List Nat) :=
  let secretLength : Int :=
    match probe shares (ord 0) with
    | none => 0
    | some len => (len : Int) - (TagLength : Int)
  if secretLength = 0 then .ok []
  else
    match verifyTag gf shares (fun i => ord (1 + i)) TagLength 0 with
    | .error e => .error e
    | .ok false => .error .tagMismatch
    | .ok true =>
      if secretLength < 0 then .error .makeNegative
      else unlock gf shares TagLength (fun i => ord (1 + TagLength + i)) secretLength.toNat 0

/-- A source that delivers the bytes of a fixed list, in order, and reads short when the
list runs out (state: the bytes left). -/
def listReader : Reader (List Nat) where
  Read := fun s len => (⟨s.take len, false⟩, s.drop len)

/-- The coefficient lists of the successive `makePolynomial` calls for the given
intercepts, each call starting in the state the previous one left; the first failure
stops the sequence. -/
def genPolys {σ : Type} (rng : Reader σ) (degree : Nat) :
    List Nat → σ → Except Failure (List (List Nat)) × σ
  | [], s => (.ok [], s)
  | b :: bs, s =>
    match makePolynomial rng s b degree with
    | (.error e, s') => (.error e, s')
    | (.ok cs, s') =>
      match genPolys rng degree bs s' with
      | (.error e, s'') => (.error e, s'')
      | (.ok ps, s'') => (.ok (cs :: ps), s'')

/-- The run of a loop body over the given counter values, in order, up to the first
failure. -/
def runBody {α : Type} (body : Nat → α → Except Failure α) : List Nat → α → Except Failure α
  | [], acc => .ok acc
  | x :: xs, acc =>
    match body x acc with
    | .ok a => runBody body xs a
    | .error e => .error e

/-- The slice `v` after the bytes `ys` were stored from position `i` on. -/
def writeAt (v : List Nat) (i : Nat) (ys : List Nat) : List Nat :=
  v.take i ++ ys ++ v.drop (i + ys.length)

/-! ## Definitions used to state the properties -/

/-- The share map that the byte-position loops produce from the polynomials `polys`, when
they start at position `i` on the map with value `f x` at each key `x` of `ks`. -/
def encoded {σ : Type} (gf : GF256) (ks : List Nat) (f : Nat → List Nat) (i : Nat) :
    Except Failure (List (List Nat)) × σ → Except Failure Shares × σ
  | (.error e, s') => (.error e, s')
  | (.ok polys, s') =>
    (.ok (ks.map (fun x => (x, writeAt (f x) i (polys.map (fun cs => gf.Evaluate cs x))))), s')

/-- The share map returned by a split whose polynomials are `polys`: the keys 1 to `n`,
and at key `x` the values at `x` of the polynomials, in order. -/
def splitResult {σ : Type} (gf : GF256) (n : Nat) :
    Except Failure (List (List Nat)) × σ → Except Failure Shares × σ
  | (.error e, s') => (.error e, s')
  | (.ok polys, s') =>
    (.ok ((List.range' 1 n).map (fun x => (x, polys.map (fun cs => gf.Evaluate cs x)))), s')

/-- A polynomial as `makePolynomial` returns it for the intercept `b`: `b` followed by
`degree` bytes. -/
def IsPoly (degree b : Nat) (cs : List Nat) : Prop :=
  ∃ rest, cs = b :: rest ∧ rest.length = degree ∧ ∀ c ∈ rest, c < 256

/-- The entries of `T` are shares of the split with polynomials `polys`: the key is a
nonzero byte and the value lists the values of the polynomials at the key. -/
def ConsistentWith (gf : GF256) (polys : List (List Nat)) (T : Shares) : Prop :=
  ∀ e ∈ T, 0 < e.1 ∧ e.1 < 256 ∧ e.2 = polys.map (fun cs => gf.Evaluate cs e.1)

/-- A share map as the combine functions expect it: the keys are pairwise distinct bytes
and the values are byte sequences of the same length `L`. -/
def WellFormed (T : Shares) (L : Nat) : Prop :=
  (T.map Prod.fst).Nodup ∧ ∀ e ∈ T, e.1 < 256 ∧ e.2.length = L ∧ ∀ b ∈ e.2, b < 256

/-- The points `(x, shares[x][i])` of byte position `i`, in the order of the entries. -/
def samplesAt (T : Shares) (i : Nat) : List Point :=
  T.map (fun e => ⟨e.1, e.2.getD i 0⟩)

/-- The byte `shares[x][i]`, and 0 where it does not exist. -/
def col (T : Shares) (i x : Nat) : Nat := ((List.lookup x T).getD []).getD i 0

/-- The share map `T` after the byte at position `p` of the share of key `x0` was replaced
by `b'`. -/
def corrupt (T : Shares) (x0 p b' : Nat) : Shares :=
  T.map (fun e => if e.1 = x0 then (e.1, e.2.set p b') else e)

/-- The state of the entropy source after `i` successive reads of `len` bytes each. -/
def readState {σ : Type} (rng : Reader σ) (len : Nat) : Nat → σ → σ
  | 0, s => s
  | i + 1, s => readState rng len i (rng.Read s len).2

/-- The result of the read number `i` (counted from 0) in a sequence of reads of `len`
bytes each that starts in state `s`. -/
def nthRead {σ : Type} (rng : Reader σ) (len i : Nat) (s : σ) : ReadResult :=
  (rng.Read (readState rng len i s) len).1

/-- The share map with the first `TagLength` bytes of every share removed, under the same
keys. -/
def payload (T : Shares) : Shares := T.map (fun e => (e.1, e.2.drop TagLength))

/-- A source that serves as many reads as its state counts, each filled with the byte 7,
and reports an error on every read after that. -/
def failAfter : Reader Nat where
  Read := fun s len => if s = 0 then (⟨[], true⟩, 0) else (⟨List.replicate len 7, false⟩, s - 1)

/-- The default field as a value: the tables built from `PolyAES` and `GenAES`. -/
def aesField : GF256 := ⟨expTable PolyAES GenAES, logTable PolyAES GenAES⟩

instance instDecidableEqExcept {ε α : Type} [DecidableEq ε] [DecidableEq α] :
    DecidableEq (Except ε α)
  | .ok a, .ok b => decidable_of_iff (a = b) (by simp)
  | .error a, .error b => decidable_of_iff (a = b) (by simp)
  | .ok _, .error _ => isFalse (by simp)
  | .error _, .ok _ => isFalse (by simp)

instance instDecidableWellFormed (T : Shares) (L : Nat) : Decidable (WellFormed T L) :=
  inferInstanceAs (Decidable (_ ∧ _))

/-! ## The tables of a constructed field -/

theorem testBit_seven (a : Nat) (ha : a < 256) : a.testBit 7 = decide (128 ≤ a) := by
  rw [Nat.testBit_to_div_mod]
  congr 1
  apply propext
  constructor <;> intro h <;> omega

theorem xtime_eq (poly a : Nat) (ha : a < 256) :
    xtime poly a = ((a <<< 1) ^^^ (if 128 ≤ a then poly else 0)) % 256 := by
  have e : a <<< 1 = 2 * a := by rw [Nat.shiftLeft_eq]; omega
  unfold xtime
  rw [e]
  by_cases h : 128 ≤ a
  · have : ¬ 2 * a < 256 := by omega
    rw [if_neg this, if_pos h]
  · have h2 : 2 * a < 256 := by omega
    rw [if_pos h2, if_neg h, Nat.xor_zero, Nat.mod_eq_of_lt h2]

theorem xtime_lt (poly a : Nat) : xtime poly a < 256 := by
  unfold xtime
  split <;> omega

theorem xtime_xor (poly a b : Nat) (ha : a < 256) (hb : b < 256) :
    xtime poly (a ^^^ b) = xtime poly a ^^^ xtime poly b := by
  have hab : a ^^^ b < 256 := Nat.xor_lt_two_pow (n := 8) ha hb
  rw [xtime_eq _ _ ha, xtime_eq _ _ hb, xtime_eq _ _ hab]
  apply Nat.eq_of_testBit_eq
  intro i
  have h7 := testBit_seven _ hab
  rw [Nat.testBit_xor, testBit_seven a ha, testBit_seven b hb] at h7
  simp only [show (256:Nat) = 2 ^ 8 from rfl, Nat.testBit_mod_two_pow, Nat.testBit_xor,
    Nat.testBit_shiftLeft]
  by_cases h1 : 128 ≤ a <;> by_cases h2 : 128 ≤ b <;> by_cases h3 : 128 ≤ a ^^^ b <;>
    simp [h1, h2, h3] at h7 ⊢ <;>
    cases Nat.testBit a (i - 1) <;> cases Nat.testBit b (i - 1) <;> cases Nat.testBit poly i <;>
    cases decide (i < 8) <;> cases decide (1 ≤ i) <;> rfl

theorem mulSlow_lt (poly : Nat) (bits a b : Nat) (ha : a < 256) : mulSlow poly bits a b < 256 := by
  induction bits generalizing a b with
  | zero => simp [mulSlow]
  | succ n ih =>
    unfold mulSlow
    apply Nat.xor_lt_two_pow (n := 8)
    · split <;> omega
    · exact ih _ _ (xtime_lt _ _)

theorem mulSlow_xor (poly : Nat) (bits a a2 b : Nat) (ha : a < 256) (ha2 : a2 < 256) :
    mulSlow poly bits (a ^^^ a2) b = mulSlow poly bits a b ^^^ mulSlow poly bits a2 b := by
  induction bits generalizing a a2 b with
  | zero => simp [mulSlow]
  | succ n ih =>
    simp only [mulSlow]
    rw [xtime_xor _ _ _ ha ha2, ih _ _ _ (xtime_lt _ _) (xtime_lt _ _)]
    split
    · simp only [Nat.xor_assoc]
      congr 1
      rw [← Nat.xor_assoc, Nat.xor_comm a2, Nat.xor_assoc]
    · simp

/-- The facts about the two tables on which the field laws rest. -/
structure GF256.Valid (gf : GF256) : Prop where
  exp_pos : ∀ k, k < 255 → 0 < gf.exp.getD k 0
  exp_lt : ∀ k, k < 255 → gf.exp.getD k 0 < 256
  log_lt : ∀ a, 0 < a → a < 256 → gf.log.getD a 0 < 255
  exp_log : ∀ a, 0 < a → a < 256 → gf.exp.getD (gf.log.getD a 0) 0 = a
  log_exp : ∀ k, k < 255 → gf.log.getD (gf.exp.getD k 0) 0 = k
  exp_zero : gf.exp.getD 0 0 = 1
  lin : ∃ L : Nat → Nat, (∀ a b, a < 256 → b < 256 → L (a ^^^ b) = L a ^^^ L b) ∧
    (∀ a, a < 256 → L a < 256) ∧
    ∀ k, k < 255 → gf.exp.getD ((k + 1) % 255) 0 = L (gf.exp.getD k 0)

theorem orbit_length (poly gen n x : Nat) : (orbit poly gen n x).length = n := by
  induction n generalizing x with
  | zero => rfl
  | succ n ih => simp [orbit, ih]

theorem orbit_getD (poly gen n x k : Nat) (hk : k < n) :
    (orbit poly gen n x).getD k 0 = (fun a => mulSlow poly 8 a gen)^[k] x := by
  induction n generalizing x k with
  | zero => omega
  | succ n ih =>
    cases k with
    | zero => simp [orbit]
    | succ k =>
      rw [orbit, List.getD_cons_succ, ih _ _ (by omega), Function.iterate_succ_apply]

theorem iterate_mulSlow_lt (poly gen k x : Nat) (hx : x < 256) :
    (fun a => mulSlow poly 8 a gen)^[k] x < 256 := by
  induction k generalizing x with
  | zero => simpa using hx
  | succ k ih =>
    rw [Function.iterate_succ_apply]
    exact ih _ (mulSlow_lt _ _ _ _ hx)

theorem take_getD (l : List Nat) (n k : Nat) (hk : k < n) : (l.take n).getD k 0 = l.getD k 0 := by
  simp [List.getD_eq_getElem?_getD, List.getElem?_take_of_lt hk]

theorem getD_indexOf (l : List Nat) (a : Nat) (h : a ∈ l) : l.getD (l.indexOf a) 0 = a := by
  have hlt : l.indexOf a < l.length := List.indexOf_lt_length.mpr h
  rw [List.getD_eq_getElem _ _ hlt]
  exact List.getElem_indexOf hlt

theorem indexOf_getD (l : List Nat) (hl : l.Nodup) (k : Nat) (hk : k < l.length) :
    l.indexOf (l.getD k 0) = k := by
  rw [List.getD_eq_getElem _ _ hk]
  exact List.indexOf_getElem hl k hk

theorem New256_valid (poly gen : Nat) (gf : GF256) (h : New256 poly gen = some gf) : gf.Valid := by
  unfold New256 at h
  split at h
  case isFalse => exact absurd h (by simp)
  case isTrue hc =>
  injection h with h
  subst h
  simp only [cyclesThroughAll, Bool.and_eq_true, beq_iff_eq, List.all_eq_true,
    List.contains_iff_exists_mem_beq] at hc
  obtain ⟨h255, hall⟩ := hc
  -- the first 255 powers
  have hTlen : ((expTable poly gen).take 255).length = 255 := by
    simp [expTable, orbit_length]
  have hsub : List.range' 1 255 ⊆ (expTable poly gen).take 255 := by
    intro a ha
    obtain ⟨b, hb, hab⟩ := hall a ha
    have : a = b := by simpa using hab
    exact this ▸ hb
  have hperm : (List.range' 1 255).Perm ((expTable poly gen).take 255) :=
    List.Subperm.perm_of_length_le (List.subperm_of_subset (List.nodup_range' 1 255) hsub)
      (by simp [hTlen])
  have hnodup : ((expTable poly gen).take 255).Nodup := hperm.nodup_iff.mp (List.nodup_range' 1 255)
  have hmemT : ∀ a, a ∈ (expTable poly gen).take 255 ↔ 1 ≤ a ∧ a < 256 := by
    intro a
    rw [← hperm.mem_iff, List.mem_range'_1]
  have hTk : ∀ k, k < 255 → ((expTable poly gen).take 255).getD k 0 = (expTable poly gen).getD k 0 :=
    fun k hk => take_getD _ _ _ hk
  have hmemk : ∀ k, k < 255 → (expTable poly gen).getD k 0 ∈ (expTable poly gen).take 255 := by
    intro k hk
    rw [← hTk k hk, List.getD_eq_getElem _ _ (by omega)]
    exact List.getElem_mem _
  have hlog : ∀ a, a < 256 →
      (logTable poly gen).getD a 0 = ((expTable poly gen).take 255).indexOf a := by
    intro a ha
    unfold logTable
    rw [List.getD_eq_getElem _ _ (by simpa using ha)]
    simp
  refine ⟨?_, ?_, ?_, ?_, ?_, ?_, ?_⟩
  · intro k hk
    exact ((hmemT _).mp (hmemk k hk)).1
  · intro k hk
    exact ((hmemT _).mp (hmemk k hk)).2
  · intro a h0 ha
    show (logTable poly gen).getD a 0 < 255
    have hi := List.indexOf_lt_length.mpr ((hmemT a).mpr ⟨h0, ha⟩)
    rw [hTlen] at hi
    rw [hlog a ha]
    exact hi
  · intro a h0 ha
    show (expTable poly gen).getD ((logTable poly gen).getD a 0) 0 = a
    have hm := (hmemT a).mpr ⟨h0, ha⟩
    have hlt : ((expTable poly gen).take 255).indexOf a < 255 := by
      have hi := List.indexOf_lt_length.mpr hm
      rw [hTlen] at hi
      exact hi
    rw [hlog a ha, ← hTk _ hlt]
    exact getD_indexOf _ _ hm
  · intro k hk
    show (logTable poly gen).getD ((expTable poly gen).getD k 0) 0 = k
    rw [hlog _ ((hmemT _).mp (hmemk k hk)).2, ← hTk k hk]
    exact indexOf_getD _ hnodup k (by omega)
  · show (expTable poly gen).getD 0 0 = 1
    exact orbit_getD _ _ _ _ 0 (by omega)
  · refine ⟨fun a => mulSlow poly 8 a gen, fun a b ha hb => mulSlow_xor _ _ _ _ _ ha hb,
      fun a ha => mulSlow_lt _ _ _ _ ha, ?_⟩
    intro k hk
    show (expTable poly gen).getD ((k + 1) % 255) 0 = mulSlow poly 8 ((expTable poly gen).getD k 0) gen
    have e1 : (expTable poly gen).getD k 0 = (fun a => mulSlow poly 8 a gen)^[k] 1 :=
      orbit_getD _ _ _ _ _ (by omega)
    have e2 : (expTable poly gen).getD (k + 1) 0 = (fun a => mulSlow poly 8 a gen)^[k + 1] 1 :=
      orbit_getD _ _ _ _ _ (by omega)
    rw [Function.iterate_succ_apply'] at e2
    by_cases hk2 : k + 1 < 255
    · rw [Nat.mod_eq_of_lt hk2, e2, e1]
    · have hk3 : k = 254 := by omega
      subst hk3
      have e0 : (expTable poly gen).getD 0 0 = 1 := orbit_getD _ _ _ _ 0 (by omega)
      rw [show (254 + 1) % 255 = 0 from rfl, e0, e1, ← e2]
      exact h255.symm

/-! ## Laws of the byte operations of a valid field -/

theorem GF256.Mul_of_ne (gf : GF256) (a b : Nat) (ha : a ≠ 0) (hb : b ≠ 0) :
    gf.Mul a b = gf.exp.getD ((gf.log.getD a 0 + gf.log.getD b 0) % 255) 0 := by
  unfold GF256.Mul
  rw [if_neg (not_or.mpr ⟨ha, hb⟩)]

theorem GF256.Mul_zero_left (gf : GF256) (b : Nat) : gf.Mul 0 b = 0 := by
  simp [GF256.Mul]

theorem GF256.Mul_zero_right (gf : GF256) (a : Nat) : gf.Mul a 0 = 0 := by
  simp [GF256.Mul]

theorem GF256.Mul_comm (gf : GF256) (a b : Nat) : gf.Mul a b = gf.Mul b a := by
  unfold GF256.Mul
  rw [Nat.add_comm (gf.log.getD a 0)]
  simp only [or_comm]

namespace GF256.Valid

variable {gf : GF256} (hv : gf.Valid)
include hv

theorem Mul_lt (a b : Nat) : gf.Mul a b < 256 := by
  unfold GF256.Mul
  split
  · omega
  · exact hv.exp_lt _ (Nat.mod_lt _ (by omega))

theorem Mul_eq_zero (a b : Nat) : gf.Mul a b = 0 ↔ a = 0 ∨ b = 0 := by
  unfold GF256.Mul
  split
  · rename_i h; simp [h]
  · rename_i h
    have := hv.exp_pos ((gf.log.getD a 0 + gf.log.getD b 0) % 255) (Nat.mod_lt _ (by omega))
    constructor
    · intro h0; omega
    · intro h0; exact absurd h0 h

theorem log_Mul (a b : Nat) (ha : a ≠ 0) (hb : b ≠ 0) :
    gf.log.getD (gf.Mul a b) 0 = (gf.log.getD a 0 + gf.log.getD b 0) % 255 := by
  rw [gf.Mul_of_ne a b ha hb]
  exact hv.log_exp _ (Nat.mod_lt _ (by omega))

theorem Mul_assoc (a b c : Nat) : gf.Mul (gf.Mul a b) c = gf.Mul a (gf.Mul b c) := by
  by_cases ha : a = 0
  · simp [GF256.Mul, ha]
  by_cases hb : b = 0
  · simp [GF256.Mul, hb]
  by_cases hc : c = 0
  · simp [GF256.Mul, hc]
  have hab : gf.Mul a b ≠ 0 := by rw [Ne, hv.Mul_eq_zero]; simp [ha, hb]
  have hbc : gf.Mul b c ≠ 0 := by rw [Ne, hv.Mul_eq_zero]; simp [hb, hc]
  rw [gf.Mul_of_ne _ c hab hc, gf.Mul_of_ne a _ ha hbc, hv.log_Mul a b ha hb,
    hv.log_Mul b c hb hc]
  congr 1
  omega

theorem log_one : gf.log.getD 1 0 = 0 := by
  have := hv.log_exp 0 (by omega)
  rwa [hv.exp_zero] at this

theorem one_Mul (a : Nat) (ha : a < 256) : gf.Mul 1 a = a := by
  unfold GF256.Mul
  by_cases h : a = 0
  · simp [h]
  · rw [if_neg (by simp [h]), hv.log_one, Nat.zero_add,
      Nat.mod_eq_of_lt (hv.log_lt a (by omega) ha)]
    exact hv.exp_log a (by omega) ha

theorem Mul_xor (a b c : Nat) (hb : b < 256) (hc : c < 256) :
    gf.Mul a (b ^^^ c) = gf.Mul a b ^^^ gf.Mul a c := by
  obtain ⟨L, hlin, hlt, hstep⟩ := hv.lin
  have hL0 : L 0 = 0 := by
    have := hlin 0 0 (by omega) (by omega)
    simp only [Nat.xor_self] at this
    have h2 : L 0 ^^^ L 0 = 0 := Nat.xor_self _
    omega
  have hiter_lt : ∀ i x, x < 256 → L^[i] x < 256 := by
    intro i
    induction i with
    | zero => intro x hx; simpa using hx
    | succ i ih => intro x hx; rw [Function.iterate_succ_apply]; exact ih _ (hlt _ hx)
  have hiter_lin : ∀ i x y, x < 256 → y < 256 → L^[i] (x ^^^ y) = L^[i] x ^^^ L^[i] y := by
    intro i
    induction i with
    | zero => intro x y _ _; rfl
    | succ i ih =>
      intro x y hx hy
      rw [Function.iterate_succ_apply, Function.iterate_succ_apply, Function.iterate_succ_apply,
        hlin x y hx hy, ih _ _ (hlt _ hx) (hlt _ hy)]
  have hiter0 : ∀ i, L^[i] 0 = 0 := by
    intro i
    induction i with
    | zero => rfl
    | succ i ih => rw [Function.iterate_succ_apply, hL0, ih]
  have hiter_exp : ∀ i j, j < 255 → L^[i] (gf.exp.getD j 0) = gf.exp.getD ((i + j) % 255) 0 := by
    intro i
    induction i with
    | zero => intro j hj; simp [Nat.mod_eq_of_lt hj]
    | succ i ih =>
      intro j hj
      rw [Function.iterate_succ_apply', ih j hj, ← hstep _ (Nat.mod_lt _ (by omega))]
      congr 1
      omega
  have hmul : ∀ x, x < 256 → a ≠ 0 → gf.Mul a x = L^[gf.log.getD a 0] x := by
    intro x hx ha
    by_cases hx0 : x = 0
    · subst hx0; rw [hiter0]; simp [GF256.Mul]
    · rw [gf.Mul_of_ne _ _ ha hx0]
      have := hiter_exp (gf.log.getD a 0) (gf.log.getD x 0) (hv.log_lt x (by omega) hx)
      rw [hv.exp_log x (by omega) hx] at this
      exact this.symm
  by_cases ha : a = 0
  · simp [GF256.Mul, ha]
  · rw [hmul _ (Nat.xor_lt_two_pow (n := 8) hb hc) ha, hmul _ hb ha, hmul _ hc ha,
      hiter_lin _ _ _ hb hc]

/-- The inverse of a nonzero byte, read off the tables. -/
theorem Mul_inv (a : Nat) (ha0 : a ≠ 0) (ha : a < 256) :
    gf.Mul a (gf.exp.getD ((255 - gf.log.getD a 0) % 255) 0) = 1 := by
  have hl := hv.log_lt a (by omega) ha
  have hpos := hv.exp_pos ((255 - gf.log.getD a 0) % 255) (Nat.mod_lt _ (by omega))
  rw [gf.Mul_of_ne _ _ ha0 (by omega), hv.log_exp _ (Nat.mod_lt _ (by omega))]
  have : (gf.log.getD a 0 + (255 - gf.log.getD a 0) % 255) % 255 = 0 := by omega
  rw [this, hv.exp_zero]

theorem Div_eq (a b : Nat) (hb0 : b ≠ 0) (hb : b < 256) (ha : a < 256) :
    gf.Div a b = some (gf.Mul a (gf.exp.getD ((255 - gf.log.getD b 0) % 255) 0)) := by
  have hlb := hv.log_lt b (by omega) hb
  have hpos := hv.exp_pos ((255 - gf.log.getD b 0) % 255) (Nat.mod_lt _ (by omega))
  unfold GF256.Div
  rw [if_neg hb0]
  by_cases ha0 : a = 0
  · simp [ha0, GF256.Mul]
  · have hla := hv.log_lt a (by omega) ha
    rw [if_neg ha0, gf.Mul_of_ne _ _ ha0 (by omega), hv.log_exp _ (Nat.mod_lt _ (by omega))]
    congr 2
    omega

end GF256.Valid

/-! ## The bytes of a valid field as a Mathlib field -/

/-- A field value together with the facts about its tables. -/
structure VField where
  gf : GF256
  valid : gf.Valid

/-- The bytes, carrying the arithmetic of the field `F`. -/
def Elt (_F : VField) : Type := Fin 256

namespace Elt

variable {F : VField}

instance : DecidableEq (Elt F) := inferInstanceAs (DecidableEq (Fin 256))

/-- The byte below 256 as an element. -/
def ofNat (F : VField) (a : Nat) : Elt F := (⟨a % 256, Nat.mod_lt _ (by omega)⟩ : Fin 256)

/-- The byte of an element. -/
def toNat (a : Elt F) : Nat := Fin.val (show Fin 256 from a)

theorem toNat_lt (a : Elt F) : a.toNat < 256 := Fin.isLt (show Fin 256 from a)

theorem toNat_ofNat (a : Nat) (ha : a < 256) : (ofNat F a).toNat = a := Nat.mod_eq_of_lt ha

theorem ofNat_toNat (a : Elt F) : ofNat F a.toNat = a :=
  Fin.ext (Nat.mod_eq_of_lt (toNat_lt a))

theorem toNat_inj {a b : Elt F} (h : a.toNat = b.toNat) : a = b := Fin.ext h

/-- The inverse byte: `exp[(255 - log a) mod 255]`, and 0 for 0. -/
def invNat (F : VField) (a : Nat) : Nat :=
  if a = 0 then 0 else F.gf.exp.getD ((255 - F.gf.log.getD a 0) % 255) 0

theorem invNat_lt (a : Nat) : invNat F a < 256 := by
  unfold invNat
  split
  · omega
  · exact F.valid.exp_lt _ (Nat.mod_lt _ (by omega))

instance : Zero (Elt F) := ⟨ofNat F 0⟩
instance : One (Elt F) := ⟨ofNat F 1⟩
instance : Add (Elt F) := ⟨fun a b => ofNat F (a.toNat ^^^ b.toNat)⟩
instance : Neg (Elt F) := ⟨fun a => a⟩
instance : Mul (Elt F) := ⟨fun a b => ofNat F (F.gf.Mul a.toNat b.toNat)⟩
instance : Inv (Elt F) := ⟨fun a => ofNat F (invNat F a.toNat)⟩

theorem toNat_zero : (0 : Elt F).toNat = 0 := rfl
theorem toNat_one : (1 : Elt F).toNat = 1 := rfl
theorem toNat_add (a b : Elt F) : (a + b).toNat = a.toNat ^^^ b.toNat :=
  Nat.mod_eq_of_lt (Nat.xor_lt_two_pow (n := 8) a.toNat_lt b.toNat_lt)
theorem toNat_neg (a : Elt F) : (-a).toNat = a.toNat := rfl
theorem toNat_mul (a b : Elt F) : (a * b).toNat = F.gf.Mul a.toNat b.toNat :=
  Nat.mod_eq_of_lt (F.valid.Mul_lt _ _)
theorem toNat_inv (a : Elt F) : (a⁻¹).toNat = invNat F a.toNat :=
  Nat.mod_eq_of_lt (invNat_lt _)

theorem eq_zero_iff (a : Elt F) : a = 0 ↔ a.toNat = 0 :=
  ⟨fun h => h ▸ rfl, fun h => toNat_inj h⟩

instance : CommRing (Elt F) where
  add_assoc a b c := toNat_inj (by simp only [toNat_add, Nat.xor_assoc])
  zero_add a := toNat_inj (by simp only [toNat_add, toNat_zero, Nat.zero_xor])
  add_zero a := toNat_inj (by simp only [toNat_add, toNat_zero, Nat.xor_zero])
  add_comm a b := toNat_inj (by simp only [toNat_add, Nat.xor_comm])
  neg_add_cancel a := toNat_inj (by simp only [toNat_add, toNat_neg, toNat_zero, Nat.xor_self])
  nsmul := nsmulRec
  zsmul := zsmulRec
  left_distrib a b c := toNat_inj (by
    simp only [toNat_add, toNat_mul]
    exact F.valid.Mul_xor _ _ _ b.toNat_lt c.toNat_lt)
  right_distrib a b c := toNat_inj (by
    simp only [toNat_add, toNat_mul]
    rw [F.gf.Mul_comm, F.gf.Mul_comm a.toNat, F.gf.Mul_comm b.toNat]
    exact F.valid.Mul_xor _ _ _ a.toNat_lt b.toNat_lt)
  zero_mul a := toNat_inj (by simp only [toNat_mul, toNat_zero, GF256.Mul_zero_left])
  mul_zero a := toNat_inj (by simp only [toNat_mul, toNat_zero, GF256.Mul_zero_right])
  mul_assoc a b c := toNat_inj (by simp only [toNat_mul, F.valid.Mul_assoc])
  one_mul a := toNat_inj (by simp only [toNat_mul, toNat_one, F.valid.one_Mul _ a.toNat_lt])
  mul_one a := toNat_inj (by
    simp only [toNat_mul, toNat_one]
    rw [F.gf.Mul_comm, F.valid.one_Mul _ a.toNat_lt])
  mul_comm a b := toNat_inj (by simp only [toNat_mul, F.gf.Mul_comm a.toNat])

instance : Field (Elt F) where
  exists_pair_ne := ⟨0, 1, fun h => by
    have := congrArg toNat h
    simp [toNat_zero, toNat_one] at this⟩
  mul_inv_cancel a ha := toNat_inj (by
    have h0 : a.toNat ≠ 0 := fun h => ha ((eq_zero_iff a).mpr h)
    simp only [toNat_mul, toNat_inv, toNat_one, invNat, if_neg h0]
    exact F.valid.Mul_inv _ h0 a.toNat_lt)
  inv_zero := toNat_inj (by simp [toNat_inv, toNat_zero, invNat])
  nnqsmul := _
  qsmul := _

theorem toNat_sub (a b : Elt F) : (a - b).toNat = a.toNat ^^^ b.toNat := by
  rw [sub_eq_add_neg, toNat_add, toNat_neg]

theorem toNat_div (a b : Elt F) (hb : b ≠ 0) : F.gf.Div a.toNat b.toNat = some (a / b).toNat := by
  have h0 : b.toNat ≠ 0 := fun h => hb ((eq_zero_iff b).mpr h)
  rw [F.valid.Div_eq _ _ h0 b.toNat_lt a.toNat_lt, div_eq_mul_inv, toNat_mul, toNat_inv, invNat,
    if_neg h0]

end Elt

/-! ## Horner evaluation and Lagrange interpolation in the field -/

open Polynomial

namespace Elt

variable {F : VField}

theorem ofNat_inj {a b : Nat} (ha : a < 256) (hb : b < 256) (h : ofNat F a = ofNat F b) : a = b := by
  have := congrArg toNat h
  rwa [toNat_ofNat _ ha, toNat_ofNat _ hb] at this

theorem ofNat_xor (a b : Nat) (ha : a < 256) (hb : b < 256) :
    ofNat F (a ^^^ b) = ofNat F a + ofNat F b :=
  toNat_inj (by
    rw [toNat_add, toNat_ofNat _ ha, toNat_ofNat _ hb,
      toNat_ofNat _ (Nat.xor_lt_two_pow (n := 8) ha hb)])

theorem ofNat_Mul (a b : Nat) (ha : a < 256) (hb : b < 256) :
    ofNat F (F.gf.Mul a b) = ofNat F a * ofNat F b :=
  toNat_inj (by
    rw [toNat_mul, toNat_ofNat _ ha, toNat_ofNat _ hb, toNat_ofNat _ (F.valid.Mul_lt _ _)])

theorem sub_eq_add (a b : Elt F) : a - b = a + b := by
  rw [sub_eq_add_neg]; rfl

theorem Div_ofNat (a b : Nat) (ha : a < 256) (hb : b < 256) (hb0 : ofNat F b ≠ 0) :
    F.gf.Div a b = some (ofNat F a / ofNat F b).toNat := by
  have := toNat_div (ofNat F a) (ofNat F b) hb0
  rwa [toNat_ofNat _ ha, toNat_ofNat _ hb] at this

end Elt

/-- Horner evaluation computes the value of a polynomial over the field: the polynomial has
degree below the number of coefficients and its `k`-th coefficient is the `k`-th byte. -/
theorem Evaluate_poly (F : VField) (cs : List Nat) (hcs : ∀ c ∈ cs, c < 256) :
    ∃ f : (Elt F)[X], f.degree < (cs.length : WithBot ℕ) ∧
      (∀ k, f.coeff k = Elt.ofNat F (cs.getD k 0)) ∧
      ∀ x, x < 256 → F.gf.Evaluate cs x < 256 ∧
        Elt.ofNat F (F.gf.Evaluate cs x) = f.eval (Elt.ofNat F x) := by
  induction cs with
  | nil =>
    refine ⟨0, by simp, fun k => by simp; rfl, fun x _ => ⟨by simp [GF256.Evaluate], ?_⟩⟩
    simp [GF256.Evaluate]; rfl
  | cons c cs ih =>
    have hc : c < 256 := hcs c (List.mem_cons_self _ _)
    obtain ⟨f, hdeg, hcoeff, heval⟩ := ih (fun d hd => hcs d (List.mem_cons_of_mem _ hd))
    refine ⟨C (Elt.ofNat F c) + X * f, ?_, ?_, ?_⟩
    · refine lt_of_le_of_lt (degree_add_le _ _) (max_lt ?_ ?_)
      · refine lt_of_le_of_lt degree_C_le ?_
        simp only [List.length_cons]
        exact_mod_cast Nat.succ_pos _
      · by_cases h0 : f = 0
        · rw [h0, mul_zero, degree_zero]
          exact WithBot.bot_lt_coe _
        · rw [degree_mul, degree_X, add_comm]
          simp only [List.length_cons, Nat.cast_add, Nat.cast_one]
          exact WithBot.add_lt_add_right (by simp) hdeg
    · intro k
      cases k with
      | zero => simp
      | succ k => simp [coeff_C, hcoeff k]
    · intro x hx
      obtain ⟨hlt, he⟩ := heval x hx
      have hE : F.gf.Evaluate (c :: cs) x = F.gf.Mul (F.gf.Evaluate cs x) x ^^^ c := rfl
      refine ⟨?_, ?_⟩
      · rw [hE]; exact Nat.xor_lt_two_pow (n := 8) (F.valid.Mul_lt _ _) hc
      · rw [hE, Elt.ofNat_xor _ _ (F.valid.Mul_lt _ _) hc, Elt.ofNat_Mul _ _ hlt hx, he]
        simp [add_comm, mul_comm]

/-- The Lagrange weight computed by `weightFrom`, as a product in the field. -/
theorem weightFrom_eq (F : VField) (x xi i : Nat) (hx : x < 256) (hxi : xi < 256)
    (l : List Point) (j : Nat) (hl : ∀ q ∈ l, q.X < 256)
    (hpos : ∀ k (hk : k < l.length), (j + k = i ↔ l[k].X = xi)) :
    F.gf.weightFrom x xi i j l = some (Elt.toNat
      ((l.filter (fun q => decide (q.X ≠ xi))).map (fun q =>
        (Elt.ofNat F x - Elt.ofNat F q.X) / (Elt.ofNat F xi - Elt.ofNat F q.X))).prod) := by
  induction l generalizing j with
  | nil => simp [GF256.weightFrom]; rfl
  | cons p ps ih =>
    have hps : ∀ q ∈ ps, q.X < 256 := fun q hq => hl q (List.mem_cons_of_mem _ hq)
    have hp : p.X < 256 := hl p (List.mem_cons_self _ _)
    have hpos2 : ∀ k (hk : k < ps.length), (j + 1 + k = i ↔ ps[k].X = xi) := by
      intro k hk
      have := hpos (k + 1) (by simp; omega)
      simp only [List.getElem_cons_succ] at this
      rw [← this]
      omega
    have h0 := hpos 0 (by simp)
    simp only [List.getElem_cons_zero, Nat.add_zero] at h0
    have ih2 := ih (j + 1) hps hpos2
    unfold GF256.weightFrom
    by_cases hji : j = i
    · have hpx : p.X = xi := h0.mp hji
      rw [if_pos hji, ih2, List.filter_cons_of_neg (by simp [hpx])]
    · have hpx : p.X ≠ xi := fun h => hji (h0.mpr h)
      have hne : Elt.ofNat F xi - Elt.ofNat F p.X ≠ 0 := by
        intro h
        exact hpx (Elt.ofNat_inj hp hxi (sub_eq_zero.mp h).symm)
      have hd : F.gf.Div (x ^^^ p.X) (xi ^^^ p.X) = some (Elt.toNat
          ((Elt.ofNat F x - Elt.ofNat F p.X) / (Elt.ofNat F xi - Elt.ofNat F p.X))) := by
        have h1 := Elt.Div_ofNat (F := F) (x ^^^ p.X) (xi ^^^ p.X)
          (Nat.xor_lt_two_pow (n := 8) hx hp) (Nat.xor_lt_two_pow (n := 8) hxi hp)
        rw [Elt.ofNat_xor _ _ hx hp, Elt.ofNat_xor _ _ hxi hp, ← Elt.sub_eq_add,
          ← Elt.sub_eq_add] at h1
        exact h1 hne
      rw [if_neg hji, ih2, hd, List.filter_cons_of_pos (by simp [hpx])]
      simp only [List.map_cons, List.prod_cons, Elt.toNat_mul]

/-- The sum computed by `interpolateFrom`, as a sum in the field. -/
theorem interpolateFrom_eq (F : VField) (all : List Point) (x : Nat) (hx : x < 256)
    (hX : ∀ q ∈ all, q.X < 256) (hY : ∀ q ∈ all, q.Y < 256) (hnd : (all.map Point.X).Nodup)
    (l : List Point) (i : Nat) (hl : ∀ k (hk : k < l.length), all[i + k]? = some l[k]) :
    F.gf.interpolateFrom all x i l = some (Elt.toNat
      (l.map (fun p => Elt.ofNat F p.Y *
        ((all.filter (fun q => decide (q.X ≠ p.X))).map (fun q =>
          (Elt.ofNat F x - Elt.ofNat F q.X) / (Elt.ofNat F p.X - Elt.ofNat F q.X))).prod)).sum) := by
  induction l generalizing i with
  | nil => simp [GF256.interpolateFrom]; rfl
  | cons p ps ih =>
    have h0 := hl 0 (by simp)
    simp only [Nat.add_zero, List.getElem_cons_zero] at h0
    obtain ⟨hi, hpi⟩ := List.getElem?_eq_some_iff.mp h0
    have hpmem : p ∈ all := hpi ▸ List.getElem_mem _
    have hl2 : ∀ k (hk : k < ps.length), all[i + 1 + k]? = some ps[k] := by
      intro k hk
      have := hl (k + 1) (by simp; omega)
      simp only [List.getElem_cons_succ] at this
      rw [← this]
      congr 1
      omega
    have hpos : ∀ k (hk : k < all.length), (0 + k = i ↔ all[k].X = p.X) := by
      intro k hk
      have hk2 : k < (all.map Point.X).length := by simpa using hk
      have hi2 : i < (all.map Point.X).length := by simpa using hi
      have := @List.Nodup.getElem_inj_iff _ _ hnd k hk2 i hi2
      simp only [List.getElem_map, hpi] at this
      rw [this]
      omega
    unfold GF256.interpolateFrom
    rw [weightFrom_eq F x p.X i hx (hX p hpmem) all 0 hX hpos, ih (i + 1) hl2]
    simp only [List.map_cons, List.sum_cons, Elt.toNat_add, Elt.toNat_mul]
    rw [Elt.toNat_ofNat _ (hY p hpmem)]

/-- The model of `interpolate` computes the value at `x` of the Lagrange interpolant of the
samples, provided their abscissas are pairwise distinct bytes. -/
theorem Interpolate_eq (F : VField) (ps : List Point) (x : Nat) (hx : x < 256)
    (hX : ∀ q ∈ ps, q.X < 256) (hY : ∀ q ∈ ps, q.Y < 256) (hnd : (ps.map Point.X).Nodup) :
    F.gf.Interpolate ps x = some (Elt.toNat
      ((Lagrange.interpolate ps.toFinset (fun p => Elt.ofNat F p.X)
        (fun p => Elt.ofNat F p.Y)).eval (Elt.ofNat F x))) := by
  have hndp : ps.Nodup := List.Nodup.of_map _ hnd
  unfold GF256.Interpolate
  rw [interpolateFrom_eq F ps x hx hX hY hnd ps 0 (by intro k hk; simp [hk])]
  congr 2
  rw [Lagrange.interpolate_apply, eval_finset_sum, List.sum_toFinset _ hndp]
  congr 1
  apply List.map_congr_left
  intro p hp
  rw [eval_mul, eval_C, Lagrange.basis, eval_prod]
  congr 1
  have hfe : ps.toFinset.erase p = (ps.filter (fun q => decide (q.X ≠ p.X))).toFinset := by
    ext q
    simp only [Finset.mem_erase, List.mem_toFinset, List.mem_filter, decide_eq_true_eq]
    constructor
    · rintro ⟨hne, hq⟩
      exact ⟨hq, fun h => hne (List.inj_on_of_nodup_map hnd hq hp h)⟩
    · rintro ⟨hq, hne⟩
      exact ⟨fun h => hne (h ▸ rfl), hq⟩
  rw [hfe, List.prod_toFinset _ (hndp.filter _)]
  congr 1
  apply List.map_congr_left
  intro q _
  simp only [Lagrange.basisDivisor, eval_mul, eval_C, eval_sub, eval_X]
  rw [div_eq_mul_inv, mul_comm]

/-! ## The loops of the split -/

theorem byteLoop_spec {α : Type} (n : Nat) (body : Nat → α → Except Failure α) (hn : n ≤ 254)
    (fuel i : Nat) (acc : α) (hi : i ≤ n + 1) :
    (byteLoop n body fuel i acc = none ∨
      byteLoop n body fuel i acc = some (runBody body (List.range' i (n + 1 - i)) acc)) ∧
    (n + 1 - i < fuel →
      byteLoop n body fuel i acc = some (runBody body (List.range' i (n + 1 - i)) acc)) := by
  induction fuel generalizing i acc with
  | zero => exact ⟨Or.inl rfl, fun h => absurd h (by omega)⟩
  | succ fuel ih =>
    unfold byteLoop
    by_cases hin : i ≤ n
    · rw [if_pos hin]
      have hr : List.range' i (n + 1 - i) = i :: List.range' (i + 1) (n + 1 - (i + 1)) := by
        rw [show n + 1 - i = (n + 1 - (i + 1)) + 1 by omega, List.range'_succ]
      have hmod : (i + 1) % 256 = i + 1 := Nat.mod_eq_of_lt (by omega)
      rw [hr, hmod]
      simp only [runBody]
      cases hb : body i acc with
      | error e => exact ⟨Or.inr rfl, fun _ => rfl⟩
      | ok a =>
        obtain ⟨h1, h2⟩ := ih (i + 1) a (by omega)
        exact ⟨h1, fun hf => h2 (by omega)⟩
    · rw [if_neg hin]
      have : n + 1 - i = 0 := by omega
      rw [this]
      exact ⟨Or.inr rfl, fun _ => rfl⟩

theorem byteLoop_diverges {α : Type} (body : Nat → α → Except Failure α)
    (hbody : ∀ x a, ∃ a', body x a = .ok a') (fuel i : Nat) (acc : α) (hi : i < 256) :
    byteLoop 255 body fuel i acc = none := by
  induction fuel generalizing i acc with
  | zero => rfl
  | succ fuel ih =>
    unfold byteLoop
    rw [if_pos (by omega)]
    obtain ⟨a', ha'⟩ := hbody i acc
    rw [ha']
    exact ih _ _ (Nat.mod_lt _ (by omega))

theorem insert_fresh (m : Shares) (x : Nat) (v : List Nat) (hx : x ∉ m.map Prod.fst) :
    Shares.insert m x v = m ++ [(x, v)] := by
  induction m with
  | nil => rfl
  | cons e m ih =>
    obtain ⟨x', v'⟩ := e
    simp only [List.map_cons, List.mem_cons, not_or] at hx
    simp only [Shares.insert]
    rw [if_neg (fun h => hx.1 h.symm), ih hx.2]
    rfl

theorem runBody_insert (len : Nat) (l l0 : List Nat) (hnd : (l0 ++ l).Nodup) :
    runBody (fun i sh => .ok (Shares.insert sh i (List.replicate len 0))) l
      (l0.map (fun x => (x, List.replicate len 0))) =
    .ok ((l0 ++ l).map (fun x => (x, List.replicate len 0))) := by
  induction l generalizing l0 with
  | nil => simp [runBody]
  | cons x l ih =>
    simp only [runBody]
    have hx : x ∉ l0 := by
      intro h
      have := List.nodup_append.mp hnd
      exact this.2.2 h (List.mem_cons_self _ _)
    rw [insert_fresh _ _ _ (by simpa [List.map_map] using hx)]
    have := ih (l0 ++ [x]) (by simpa using hnd)
    simpa using this

theorem allocate_spec {σ : Type} (fuel : Nat) (g : GF256) (secret : List Nat) (k n len : Nat)
    (s : σ) (hs : secret ≠ []) (hk : 2 ≤ k) (hkn : k ≤ n) (hn : n ≤ 254) :
    (allocate fuel (some g) secret k n len s = none ∨
      allocate fuel (some g) secret k n len s =
        some (.ok (g, (List.range' 1 n).map (fun x => (x, List.replicate len 0))), s)) ∧
    (n < fuel → allocate fuel (some g) secret k n len s =
        some (.ok (g, (List.range' 1 n).map (fun x => (x, List.replicate len 0))), s)) := by
  have hlen : secret.length ≠ 0 := fun h => hs (List.length_eq_zero.mp h)
  obtain ⟨h1, h2⟩ := byteLoop_spec n
    (fun i sh => .ok (Shares.insert sh i (List.replicate len 0))) hn fuel 1 [] (by omega)
  have hrun := runBody_insert len (List.range' 1 n) [] (by simpa using List.nodup_range' 1 n)
  simp only [List.map_nil, List.nil_append, Nat.add_sub_cancel] at hrun h1 h2
  rw [hrun] at h1 h2
  unfold allocate
  simp only [hlen, if_false, show ¬ k < 2 by omega, show ¬ n < k by omega]
  refine ⟨?_, fun hf => ?_⟩
  · rcases h1 with h | h
    · left; rw [h]
    · right; rw [h]
  · rw [h2 (by omega)]

theorem allocate_diverges {σ : Type} (fuel : Nat) (g : GF256) (secret : List Nat) (k len : Nat)
    (s : σ) (hs : secret ≠ []) (hk : 2 ≤ k) (hk2 : k ≤ 255) :
    allocate fuel (some g) secret k 255 len s = none := by
  have hlen : secret.length ≠ 0 := fun h => hs (List.length_eq_zero.mp h)
  unfold allocate
  simp only [hlen, if_false, show ¬ k < 2 by omega, show ¬ 255 < k by omega]
  rw [byteLoop_diverges _ (fun x a => ⟨_, rfl⟩) fuel 1 [] (by omega)]

theorem lookup_keyed (ks : List Nat) (f : Nat → List Nat) (x : Nat) (hx : x ∈ ks) :
    List.lookup x (ks.map (fun x => (x, f x))) = some (f x) := by
  induction ks with
  | nil => cases hx
  | cons k ks ih =>
    simp only [List.map_cons, List.lookup_cons]
    by_cases hk : x = k
    · subst hk; simp
    · have : (x == k) = false := by simpa using hk
      rw [this]
      exact ih (by simpa [hk] using hx)

theorem insert_keyed (ks : List Nat) (f : Nat → List Nat) (x : Nat) (v : List Nat)
    (hnd : ks.Nodup) (hx : x ∈ ks) :
    Shares.insert (ks.map (fun x => (x, f x))) x v =
      ks.map (fun x' => (x', if x' = x then v else f x')) := by
  induction ks with
  | nil => cases hx
  | cons k ks ih =>
    obtain ⟨hk, hnd2⟩ := List.nodup_cons.mp hnd
    simp only [List.map_cons, Shares.insert]
    by_cases hkx : k = x
    · subst hkx
      rw [if_pos rfl, if_pos rfl]
      congr 1
      apply List.map_congr_left
      intro y hy
      rw [if_neg]
      intro h
      exact hk (h ▸ hy)
    · rw [if_neg hkx, if_neg hkx, ih hnd2 (by
        rcases List.mem_cons.mp hx with h | h
        · exact absurd h.symm hkx
        · exact h)]

theorem runBody_setByte (ks : List Nat) (hnd : ks.Nodup) (i : Nat) (E : Nat → Nat)
    (l : List Nat) (hl : l.Nodup) (hsub : ∀ x ∈ l, x ∈ ks) (f : Nat → List Nat)
    (hf : ∀ x ∈ ks, i < (f x).length) :
    runBody (fun x sh => Shares.setByte sh x i (E x)) l (ks.map (fun x => (x, f x))) =
      .ok (ks.map (fun x => (x, if x ∈ l then (f x).set i (E x) else f x))) := by
  induction l generalizing f with
  | nil => simp [runBody]
  | cons x l ih =>
    obtain ⟨hxl, hl2⟩ := List.nodup_cons.mp hl
    have hxk : x ∈ ks := hsub x (List.mem_cons_self _ _)
    have hstep : Shares.setByte (ks.map (fun x => (x, f x))) x i (E x) =
        .ok (ks.map (fun x' => (x', if x' = x then (f x).set i (E x) else f x'))) := by
      unfold Shares.setByte
      rw [lookup_keyed ks f x hxk]
      simp only [hf x hxk, if_true]
      rw [insert_keyed ks f x _ hnd hxk]
    simp only [runBody]
    rw [hstep]
    simp only []
    rw [ih hl2 (fun y hy => hsub y (List.mem_cons_of_mem _ hy))
      (fun x' => if x' = x then (f x).set i (E x) else f x')
      (by
        intro y hy
        by_cases hyx : y = x
        · subst hyx; simpa using hf y hy
        · simpa [hyx] using hf y hy)]
    congr 1
    apply List.map_congr_left
    intro y _
    by_cases hyx : y = x
    · subst hyx
      simp [hxl]
    · simp [hyx]

theorem writeAt_set (v : List Nat) (i y : Nat) (ys : List Nat) (hi : i < v.length) :
    writeAt (v.set i y) (i + 1) ys = writeAt v i (y :: ys) := by
  induction v generalizing i with
  | nil => simp at hi
  | cons a v ih =>
    cases i with
    | zero =>
      simp only [writeAt, List.set_cons_zero, List.take_succ_cons, List.take_zero,
        List.nil_append, List.cons_append, List.length_cons, Nat.zero_add]
      rw [show 1 + ys.length = ys.length + 1 by omega, List.drop_succ_cons,
        List.drop_succ_cons]
    | succ i =>
      have := ih i (by simpa using hi)
      simp only [writeAt, List.set_cons_succ, List.take_succ_cons, List.cons_append,
        List.length_cons] at this ⊢
      rw [show i + 1 + 1 + ys.length = (i + 1 + ys.length) + 1 by omega,
        show i + 1 + (ys.length + 1) = (i + (ys.length + 1)) + 1 by omega,
        List.drop_succ_cons, List.drop_succ_cons, this]

theorem writeAt_length (v : List Nat) (i : Nat) (ys : List Nat) (h : i + ys.length ≤ v.length) :
    (writeAt v i ys).length = v.length := by
  unfold writeAt
  simp
  omega

theorem encodeByte_spec {σ : Type} (fuel : Nat) (rng : Reader σ) (gf : GF256)
    (n degree b i : Nat) (hn : n ≤ 254) (f : Nat → List Nat) (s : σ)
    (hf : ∀ x ∈ List.range' 1 n, i < (f x).length) :
    (encodeByte fuel rng gf n degree b i ((List.range' 1 n).map (fun x => (x, f x))) s = none ∨
      encodeByte fuel rng gf n degree b i ((List.range' 1 n).map (fun x => (x, f x))) s =
        some (match makePolynomial rng s b degree with
          | (.error e, s') => (.error e, s')
          | (.ok cs, s') =>
            (.ok ((List.range' 1 n).map (fun x => (x, (f x).set i (gf.Evaluate cs x)))), s'))) ∧
    (n < fuel →
      encodeByte fuel rng gf n degree b i ((List.range' 1 n).map (fun x => (x, f x))) s =
        some (match makePolynomial rng s b degree with
          | (.error e, s') => (.error e, s')
          | (.ok cs, s') =>
            (.ok ((List.range' 1 n).map (fun x => (x, (f x).set i (gf.Evaluate cs x)))), s'))) := by
  unfold encodeByte
  rcases hmp : makePolynomial rng s b degree with ⟨r, s'⟩
  cases r with
  | error e => exact ⟨Or.inr rfl, fun _ => rfl⟩
  | ok cs =>
    simp only []
    obtain ⟨h1, h2⟩ := byteLoop_spec n
      (fun x sh => Shares.setByte sh x i (gf.Evaluate cs x)) hn fuel 1
      ((List.range' 1 n).map (fun x => (x, f x))) (by omega)
    have hrun := runBody_setByte (List.range' 1 n) (List.nodup_range' 1 n) i
      (fun x => gf.Evaluate cs x) (List.range' 1 n) (List.nodup_range' 1 n) (fun _ h => h) f hf
    have hmap : (List.range' 1 n).map (fun x =>
          (x, if x ∈ List.range' 1 n then (f x).set i (gf.Evaluate cs x) else f x)) =
        (List.range' 1 n).map (fun x => (x, (f x).set i (gf.Evaluate cs x))) := by
      apply List.map_congr_left
      intro x hx
      rw [if_pos hx]
    simp only [Nat.add_sub_cancel] at h1 h2
    rw [hrun, hmap] at h1 h2
    refine ⟨?_, fun hf => ?_⟩
    · rcases h1 with h | h
      · left; rw [h]
      · right; rw [h]
    · rw [h2 (by omega)]

theorem encode_spec {σ : Type} (fuel : Nat) (rng : Reader σ) (gf : GF256) (n degree : Nat)
    (hn : n ≤ 254) (bs : List Nat) (i : Nat) (f : Nat → List Nat) (s : σ)
    (hf : ∀ x ∈ List.range' 1 n, i + bs.length ≤ (f x).length) :
    (encode fuel rng gf n degree bs i ((List.range' 1 n).map (fun x => (x, f x))) s = none ∨
      encode fuel rng gf n degree bs i ((List.range' 1 n).map (fun x => (x, f x))) s =
        some (encoded gf (List.range' 1 n) f i (genPolys rng degree bs s))) ∧
    (n < fuel →
      encode fuel rng gf n degree bs i ((List.range' 1 n).map (fun x => (x, f x))) s =
        some (encoded gf (List.range' 1 n) f i (genPolys rng degree bs s))) := by
  induction bs generalizing i f s with
  | nil =>
    have : encode fuel rng gf n degree [] i ((List.range' 1 n).map (fun x => (x, f x))) s =
        some (encoded gf (List.range' 1 n) f i (genPolys rng degree [] s)) := by
      simp only [encode, genPolys, encoded, List.map_nil, writeAt, List.length_nil,
        Nat.add_zero, List.append_nil, List.take_append_drop]
    exact ⟨Or.inr this, fun _ => this⟩
  | cons b bs ih =>
    have hf1 : ∀ x ∈ List.range' 1 n, i < (f x).length := by
      intro x hx
      have := hf x hx
      simp only [List.length_cons] at this
      omega
    obtain ⟨h1, h2⟩ := encodeByte_spec fuel rng gf n degree b i hn f s hf1
    unfold encode
    simp only [genPolys]
    rcases hmp : makePolynomial rng s b degree with ⟨r, s'⟩
    rw [hmp] at h1 h2
    cases r with
    | error e =>
      simp only [encoded] at h1 h2 ⊢
      refine ⟨?_, fun hfu => ?_⟩
      · rcases h1 with h | h
        · left; rw [h]
        · right; rw [h]
      · rw [h2 hfu]
    | ok cs =>
      simp only [] at h1 h2 ⊢
      obtain ⟨g1, g2⟩ := ih (i + 1) (fun x => (f x).set i (gf.Evaluate cs x)) s' (by
        intro x hx
        have := hf x hx
        simp only [List.length_cons] at this
        simp only [List.length_set]
        omega)
      have hval : encoded gf (List.range' 1 n) (fun x => (f x).set i (gf.Evaluate cs x)) (i + 1)
            (genPolys rng degree bs s') =
          encoded gf (List.range' 1 n) f i
            (match genPolys rng degree bs s' with
              | (.error e, s'') => (.error e, s'')
              | (.ok ps, s'') => (.ok (cs :: ps), s'')) := by
        rcases genPolys rng degree bs s' with ⟨r2, s2⟩
        cases r2 with
        | error e => rfl
        | ok ps =>
          simp only [encoded]
          congr 2
          apply List.map_congr_left
          intro x hx
          rw [writeAt_set _ _ _ _ (hf1 x hx)]
          rfl
      rw [hval] at g1 g2
      refine ⟨?_, fun hfu => ?_⟩
      · rcases h1 with h | h
        · left; rw [h]
        · rw [h]; exact g1
      · rw [h2 hfu]; exact g2 hfu

theorem genPolys_length {σ : Type} (rng : Reader σ) (degree : Nat) (bs : List Nat) (s s' : σ)
    (polys : List (List Nat)) (h : genPolys rng degree bs s = (.ok polys, s')) :
    polys.length = bs.length := by
  induction bs generalizing s s' polys with
  | nil =>
    simp only [genPolys, Prod.mk.injEq, Except.ok.injEq] at h
    rw [← h.1]; rfl
  | cons b bs ih =>
    simp only [genPolys] at h
    rcases hmp : makePolynomial rng s b degree with ⟨r, s1⟩
    rw [hmp] at h
    cases r with
    | error e => simp at h
    | ok cs =>
      simp only [] at h
      rcases hg : genPolys rng degree bs s1 with ⟨r2, s2⟩
      rw [hg] at h
      cases r2 with
      | error e => simp at h
      | ok ps =>
        simp only [Prod.mk.injEq, Except.ok.injEq] at h
        rw [← h.1, List.length_cons, ih s1 s2 ps hg, List.length_cons]

theorem writeAt_full (len : Nat) (ys : List Nat) (h : ys.length = len) :
    writeAt (List.replicate len 0) 0 ys = ys := by
  unfold writeAt
  rw [List.take_zero, List.nil_append, Nat.zero_add, List.drop_eq_nil_of_le (by simp [h]),
    List.append_nil]

theorem SplitWithField_spec {σ : Type} (fuel : Nat) (rng : Reader σ) (gf : GF256)
    (secret : List Nat) (k n : Nat) (s : σ) (hs : secret ≠ []) (hk : 2 ≤ k) (hkn : k ≤ n)
    (hn : n ≤ 254) :
    (SplitWithField fuel rng (some gf) secret k n s = none ∨
      SplitWithField fuel rng (some gf) secret k n s =
        some (splitResult gf n (genPolys rng ((k + 255) % 256) secret s))) ∧
    (n < fuel → SplitWithField fuel rng (some gf) secret k n s =
        some (splitResult gf n (genPolys rng ((k + 255) % 256) secret s))) := by
  obtain ⟨a1, a2⟩ := allocate_spec fuel gf secret k n secret.length s hs hk hkn hn
  obtain ⟨e1, e2⟩ := encode_spec fuel rng gf n ((k + 255) % 256) hn secret 0
    (fun _ => List.replicate secret.length 0) s (by intro x _; simp)
  have hval : encoded gf (List.range' 1 n) (fun _ => List.replicate secret.length 0) 0
        (genPolys rng ((k + 255) % 256) secret s) =
      splitResult gf n (genPolys rng ((k + 255) % 256) secret s) := by
    rcases hg : genPolys rng ((k + 255) % 256) secret s with ⟨r, s'⟩
    cases r with
    | error e => rfl
    | ok polys =>
      simp only [encoded, splitResult]
      congr 2
      apply List.map_congr_left
      intro x _
      have hpl := genPolys_length rng _ secret s s' polys hg
      rw [writeAt_full secret.length (polys.map (fun cs => gf.Evaluate cs x))
        (by simp only [List.length_map]; exact hpl)]
  rw [hval] at e1 e2
  unfold SplitWithField
  refine ⟨?_, fun hfu => ?_⟩
  · rcases a1 with h | h
    · left; rw [h]
    · rw [h]; exact e1
  · rw [a2 hfu]; exact e2 hfu

theorem SplitWithField_diverges {σ : Type} (fuel : Nat) (rng : Reader σ) (gf : GF256)
    (secret : List Nat) (k : Nat) (s : σ) (hs : secret ≠ []) (hk : 2 ≤ k) (hk2 : k ≤ 255) :
    SplitWithField fuel rng (some gf) secret k 255 s = none := by
  unfold SplitWithField
  rw [allocate_diverges fuel gf secret k _ s hs hk hk2]

theorem encode_append {σ : Type} (fuel : Nat) (rng : Reader σ) (gf : GF256) (n degree : Nat)
    (bs1 bs2 : List Nat) (i : Nat) (sh : Shares) (s : σ) :
    encode fuel rng gf n degree (bs1 ++ bs2) i sh s =
      match encode fuel rng gf n degree bs1 i sh s with
      | some (.ok sh', s') => encode fuel rng gf n degree bs2 (i + bs1.length) sh' s'
      | other => other := by
  induction bs1 generalizing i sh s with
  | nil => simp [encode]
  | cons b bs ih =>
    simp only [List.cons_append, encode, List.length_cons, List.append_eq]
    rcases hb : encodeByte fuel rng gf n degree b i sh s with _ | ⟨r, s1⟩
    · rfl
    · cases r with
      | error e => rfl
      | ok sh1 =>
        simp only []
        rw [ih, show i + 1 + bs.length = i + (bs.length + 1) by omega]

theorem allocate_secret_irrelevant {σ : Type} (fuel : Nat) (gf : Option GF256)
    (secret secret2 : List Nat) (k n len : Nat) (s : σ) (h1 : secret ≠ []) (h2 : secret2 ≠ []) :
    allocate fuel gf secret k n len s = allocate fuel gf secret2 k n len s := by
  have l1 : secret.length ≠ 0 := fun h => h1 (List.length_eq_zero.mp h)
  have l2 : secret2.length ≠ 0 := fun h => h2 (List.length_eq_zero.mp h)
  unfold allocate
  simp only [l1, l2, if_false]

/-- The tagged split of a non-empty secret runs exactly as the untagged split of the
secret with `TagLength` zero bytes in front. -/
theorem SplitTagged_eq_Split {σ : Type} (fuel : Nat) (rng : Reader σ) (gf : Option GF256)
    (secret : List Nat) (k n : Nat) (s : σ) (hs : secret ≠ []) :
    SplitTaggedWithField fuel rng gf secret k n s =
      SplitWithField fuel rng gf (List.replicate TagLength 0 ++ secret) k n s := by
  unfold SplitTaggedWithField SplitWithField
  have hl : (List.replicate TagLength 0 ++ secret).length = secret.length + TagLength := by
    simp [Nat.add_comm]
  rw [allocate_secret_irrelevant fuel gf secret (List.replicate TagLength 0 ++ secret) k n _ s hs
    (by simp [TagLength]), hl]
  rcases allocate fuel gf (List.replicate TagLength 0 ++ secret) k n
      (secret.length + TagLength) s with _ | ⟨r, s1⟩
  · rfl
  · cases r with
    | error e => rfl
    | ok gsh =>
      obtain ⟨g, sh⟩ := gsh
      simp only []
      rw [encode_append]
      simp [TagLength]

/-! ## The polynomials of a split -/

theorem fillBuffer_length (len : Nat) (data : List Nat) : (fillBuffer len data).length = len := by
  unfold fillBuffer
  simp only [List.length_append, List.length_map, List.length_take, List.length_replicate]
  omega

theorem fillBuffer_lt (len : Nat) (data : List Nat) : ∀ c ∈ fillBuffer len data, c < 256 := by
  intro c hc
  unfold fillBuffer at hc
  rcases List.mem_append.mp hc with h | h
  · obtain ⟨d, _, hd⟩ := List.mem_map.mp h
    rw [← hd]
    exact Nat.mod_lt _ (by omega)
  · rw [(List.mem_replicate.mp h).2]
    omega

theorem makePolynomial_ok {σ : Type} (rng : Reader σ) (s s' : σ) (b degree : Nat)
    (cs : List Nat) (hd : degree < 255) (h : makePolynomial rng s b degree = (.ok cs, s')) :
    IsPoly degree b cs := by
  unfold makePolynomial at h
  have hlen : (degree + 1) % 256 = degree + 1 := Nat.mod_eq_of_lt (by omega)
  simp only [hlen, Nat.add_sub_cancel, Nat.succ_ne_zero, if_false] at h
  split at h
  · simp at h
  · simp only [Prod.mk.injEq, Except.ok.injEq] at h
    exact ⟨_, h.1.symm, fillBuffer_length _ _, fillBuffer_lt _ _⟩

theorem genPolys_ok {σ : Type} (rng : Reader σ) (degree : Nat) (hd : degree < 255)
    (bs : List Nat) (s s' : σ) (polys : List (List Nat))
    (h : genPolys rng degree bs s = (.ok polys, s')) :
    List.Forall₂ (IsPoly degree) bs polys := by
  induction bs generalizing s s' polys with
  | nil =>
    simp only [genPolys, Prod.mk.injEq, Except.ok.injEq] at h
    rw [← h.1]
    exact List.Forall₂.nil
  | cons b bs ih =>
    simp only [genPolys] at h
    rcases hmp : makePolynomial rng s b degree with ⟨r, s1⟩
    rw [hmp] at h
    cases r with
    | error e => simp at h
    | ok cs =>
      simp only [] at h
      rcases hg : genPolys rng degree bs s1 with ⟨r2, s2⟩
      rw [hg] at h
      cases r2 with
      | error e => simp at h
      | ok ps =>
        simp only [Prod.mk.injEq, Except.ok.injEq] at h
        rw [← h.1]
        exact List.Forall₂.cons (makePolynomial_ok rng s s1 b degree cs hd hmp) (ih s1 s2 ps hg)

/-! ## Interpolating the values of a polynomial -/

/-- Interpolating at 0 at least as many values of a polynomial as it has coefficients, at
pairwise distinct abscissas, gives back its constant coefficient. -/
theorem Interpolate_poly (F : VField) (c0 : Nat) (rest : List Nat) (hc0 : c0 < 256)
    (hrest : ∀ c ∈ rest, c < 256) (keys : List Nat) (hk : ∀ x ∈ keys, x < 256)
    (hnd : keys.Nodup) (hlen : rest.length + 1 ≤ keys.length) :
    F.gf.Interpolate (keys.map (fun x => (⟨x, F.gf.Evaluate (c0 :: rest) x⟩ : Point))) 0 =
      some c0 := by
  have hcs : ∀ c ∈ c0 :: rest, c < 256 := by
    intro c hc
    rcases List.mem_cons.mp hc with h | h
    · rw [h]; exact hc0
    · exact hrest c h
  obtain ⟨f, hdeg, hcoeff, heval⟩ := Evaluate_poly F (c0 :: rest) hcs
  have hX : (keys.map (fun x => (⟨x, F.gf.Evaluate (c0 :: rest) x⟩ : Point))).map Point.X = keys := by
    rw [List.map_map]
    exact List.map_id'' (fun _ => rfl) keys
  have hmem : ∀ q ∈ keys.map (fun x => (⟨x, F.gf.Evaluate (c0 :: rest) x⟩ : Point)),
      q.X < 256 ∧ q.Y = F.gf.Evaluate (c0 :: rest) q.X := by
    intro q hq
    obtain ⟨x, hx, rfl⟩ := List.mem_map.mp hq
    exact ⟨hk x hx, rfl⟩
  rw [Interpolate_eq F _ 0 (by omega) (fun q hq => (hmem q hq).1)
    (fun q hq => by rw [(hmem q hq).2]; exact (heval _ (hmem q hq).1).1) (by rw [hX]; exact hnd)]
  have hinj : Set.InjOn (fun p : Point => Elt.ofNat F p.X)
      (keys.map (fun x => (⟨x, F.gf.Evaluate (c0 :: rest) x⟩ : Point))).toFinset := by
    intro p hp q hq hpq
    have hp2 := hmem p (List.mem_toFinset.mp hp)
    have hq2 := hmem q (List.mem_toFinset.mp hq)
    have hx : p.X = q.X := Elt.ofNat_inj hp2.1 hq2.1 hpq
    cases p; cases q
    simp only at hx hp2 hq2
    subst hx
    rw [hp2.2, hq2.2]
  have hcard : (keys.map (fun x => (⟨x, F.gf.Evaluate (c0 :: rest) x⟩ : Point))).toFinset.card =
      keys.length := by
    rw [List.toFinset_card_of_nodup (List.Nodup.of_map Point.X (by rw [hX]; exact hnd)),
      List.length_map]
  have hfe := Lagrange.eq_interpolate_of_eval_eq (f := f)
    (r := fun p : Point => Elt.ofNat F p.Y) hinj
    (by
      rw [hcard]
      refine lt_of_lt_of_le hdeg ?_
      simp only [List.length_cons]
      exact_mod_cast hlen)
    (by
      intro p hp
      have hp2 := hmem p (List.mem_toFinset.mp hp)
      show f.eval (Elt.ofNat F p.X) = Elt.ofNat F p.Y
      rw [hp2.2, (heval _ hp2.1).2])
  rw [← hfe]
  have h0 : f.eval (Elt.ofNat F 0) = Elt.ofNat F c0 := by
    have := hcoeff 0
    rw [Polynomial.coeff_zero_eq_eval_zero] at this
    exact this
  rw [h0, Elt.toNat_ofNat _ hc0]

/-! ## Combining shares of a split -/

theorem lookup_of_mem {β : Type} (T : List (Nat × β)) (hnd : (T.map Prod.fst).Nodup) (x : Nat)
    (v : β) (h : (x, v) ∈ T) : List.lookup x T = some v := by
  induction T with
  | nil => cases h
  | cons e T ih =>
    obtain ⟨x', v'⟩ := e
    simp only [List.map_cons, List.nodup_cons] at hnd
    rcases List.mem_cons.mp h with h1 | h1
    · simp only [Prod.mk.injEq] at h1
      rw [h1.1, h1.2]
      simp [List.lookup_cons]
    · have hne : x ≠ x' := by
        intro hx
        apply hnd.1
        rw [← hx]
        exact List.mem_map.mpr ⟨(x, v), h1, rfl⟩
      rw [List.lookup_cons, show (x == x') = false by simpa using hne]
      exact ih hnd.2 h1

theorem lookup_consistent (gf : GF256) (polys : List (List Nat)) (T : Shares)
    (hnd : (T.map Prod.fst).Nodup) (hT : ConsistentWith gf polys T) (x : Nat)
    (hx : x ∈ T.map Prod.fst) :
    List.lookup x T = some (polys.map (fun cs => gf.Evaluate cs x)) ∧ 0 < x ∧ x < 256 := by
  obtain ⟨e, he, rfl⟩ := List.mem_map.mp hx
  obtain ⟨h0, h1, h2⟩ := hT e he
  refine ⟨?_, h0, h1⟩
  rw [← h2]
  exact lookup_of_mem T hnd e.1 e.2 he

theorem collect_eq (T : Shares) (i : Nat) (g : Nat → Nat) (keys : List Nat)
    (h : ∀ x ∈ keys, Shares.index T x i = .ok (g x)) :
    collect T i keys = .ok (keys.map (fun x => (⟨x, g x⟩ : Point))) := by
  induction keys with
  | nil => rfl
  | cons x keys ih =>
    simp only [collect, h x (List.mem_cons_self _ _),
      ih (fun y hy => h y (List.mem_cons_of_mem _ hy)), List.map_cons]

theorem index_consistent (gf : GF256) (polys : List (List Nat)) (T : Shares)
    (hnd : (T.map Prod.fst).Nodup) (hT : ConsistentWith gf polys T) (x : Nat)
    (hx : x ∈ T.map Prod.fst) (j : Nat) (cs : List Nat) (hj : polys[j]? = some cs) :
    Shares.index T x j = .ok (gf.Evaluate cs x) := by
  unfold Shares.index
  rw [(lookup_consistent gf polys T hnd hT x hx).1]
  simp only [List.getElem?_map, hj, Option.map_some']

theorem unlock_eq (gf : GF256) (T : Shares) (off : Nat) (ord : Nat → List Nat) (bs : List Nat)
    (i : Nat)
    (h : ∀ j (hj : j < bs.length), interpolateAt gf T (i + j + off) (ord (i + j)) = .ok bs[j]) :
    unlock gf T off ord bs.length i = .ok bs := by
  induction bs generalizing i with
  | nil => rfl
  | cons b bs ih =>
    have h0 := h 0 (by simp)
    simp only [Nat.add_zero, List.getElem_cons_zero] at h0
    have ih2 := ih (i + 1) (by
      intro j hj
      have := h (j + 1) (by simpa using hj)
      simp only [List.getElem_cons_succ] at this
      rw [← this]
      congr 2 <;> omega)
    simp only [List.length_cons, unlock, h0, ih2]

theorem interpolateAt_consistent (F : VField) (degree : Nat) (bs : List Nat)
    (polys : List (List Nat)) (hbs : ∀ b ∈ bs, b < 256)
    (hpolys : List.Forall₂ (IsPoly degree) bs polys) (T : Shares)
    (hnd : (T.map Prod.fst).Nodup) (hT : ConsistentWith F.gf polys T)
    (hlen : degree + 1 ≤ T.length) (keys : List Nat) (hkeys : keys.Perm (T.map Prod.fst))
    (j : Nat) (hj : j < bs.length) :
    interpolateAt F.gf T j keys = .ok bs[j] := by
  have hjp : j < polys.length := by rw [← hpolys.length_eq]; exact hj
  obtain ⟨rest, hcs, hrl, hrb⟩ : IsPoly degree bs[j] polys[j] := by
    have := List.forall₂_iff_get.mp hpolys
    exact this.2 j hj hjp
  have hidx : ∀ x ∈ keys, Shares.index T x j = .ok (F.gf.Evaluate (bs[j] :: rest) x) := by
    intro x hx
    rw [← hcs]
    exact index_consistent F.gf polys T hnd hT x (hkeys.mem_iff.mp hx) j _
      (List.getElem?_eq_getElem hjp)
  unfold interpolateAt
  rw [collect_eq T j _ keys hidx]
  simp only []
  rw [Interpolate_poly F bs[j] rest (hbs _ (List.getElem_mem _)) hrb keys
    (fun x hx => (lookup_consistent F.gf polys T hnd hT x (hkeys.mem_iff.mp hx)).2.2)
    (hkeys.nodup_iff.mpr hnd)
    (by rw [hrl, hkeys.length_eq, List.length_map]; exact hlen)]

theorem probe_consistent (gf : GF256) (polys : List (List Nat)) (T : Shares)
    (hnd : (T.map Prod.fst).Nodup) (hT : ConsistentWith gf polys T) (hne : T ≠ [])
    (keys : List Nat) (hkeys : keys.Perm (T.map Prod.fst)) :
    probe T keys = some polys.length := by
  cases keys with
  | nil =>
    have := hkeys.length_eq
    simp only [List.length_nil, List.length_map] at this
    exact absurd (List.length_eq_zero.mp this.symm) hne
  | cons x keys =>
    have hx : x ∈ T.map Prod.fst := hkeys.mem_iff.mp (List.mem_cons_self _ _)
    simp only [probe, (lookup_consistent gf polys T hnd hT x hx).1, Option.getD_some,
      List.length_map]

/-- Combining at least `degree + 1` shares of a split gives back the intercepts. -/
theorem Combine_consistent (F : VField) (degree : Nat) (bs : List Nat)
    (polys : List (List Nat)) (hbs : ∀ b ∈ bs, b < 256)
    (hpolys : List.Forall₂ (IsPoly degree) bs polys) (T : Shares)
    (hnd : (T.map Prod.fst).Nodup) (hT : ConsistentWith F.gf polys T)
    (hlen : degree + 1 ≤ T.length) (ord : Nat → List Nat)
    (hord : ∀ k, (ord k).Perm (T.map Prod.fst)) :
    CombineWithField F.gf T ord = .ok bs := by
  have hne : T ≠ [] := by
    intro h
    rw [h] at hlen
    simp at hlen
  unfold CombineWithField
  rw [probe_consistent F.gf polys T hnd hT hne (ord 0) (hord 0), Option.getD_some,
    ← hpolys.length_eq]
  by_cases hb : bs.length = 0
  · simp only [hb, if_true]
    rw [List.length_eq_zero.mp hb]
  · simp only [hb, if_false]
    apply unlock_eq
    intro j hj
    simp only [Nat.zero_add, Nat.add_zero]
    exact interpolateAt_consistent F degree bs polys hbs hpolys T hnd hT hlen _ (hord (j + 1)) j hj

/-! ## The default field and concrete runs -/

set_option maxRecDepth 100000

theorem New256_aes : New256 PolyAES GenAES = some aesField := by
  unfold New256
  rw [if_pos (by decide)]
  rfl

/-! ## Round trips -/

/-- What a returned share map is: the split with `N ≤ 255` that returns has `N ≤ 254`, its
polynomials have `K` coefficients with the secret bytes as intercepts, and the map lists
their values at 1 to `N`. -/
theorem split_returns {σ : Type} (gf : GF256) (fuel : Nat) (rng : Reader σ) (s s' : σ)
    (S : List Nat) (hne : S ≠ []) (K N : Nat) (hK : 2 ≤ K) (hKN : K ≤ N) (hN : N ≤ 255)
    (shares : Shares)
    (hsplit : SplitWithField fuel rng (some gf) S K N s = some (.ok shares, s')) :
    N ≤ 254 ∧ ∃ polys, genPolys rng (K - 1) S s = (.ok polys, s') ∧
      List.Forall₂ (IsPoly (K - 1)) S polys ∧
      shares = (List.range' 1 N).map (fun x => (x, polys.map (fun cs => gf.Evaluate cs x))) := by
  have hN2 : N ≤ 254 := by
    by_contra h
    have : N = 255 := by omega
    subst this
    rw [SplitWithField_diverges fuel rng gf S K s hne hK (by omega)] at hsplit
    exact absurd hsplit (by simp)
  refine ⟨hN2, ?_⟩
  have hdeg : (K + 255) % 256 = K - 1 := by omega
  obtain ⟨h1, _⟩ := SplitWithField_spec fuel rng gf S K N s hne hK hKN hN2
  rw [hsplit, hdeg] at h1
  rcases h1 with h | h
  · exact absurd h (by simp)
  · rcases hg : genPolys rng (K - 1) S s with ⟨r, s1⟩
    rw [hg] at h
    cases r with
    | error e => simp [splitResult] at h
    | ok polys =>
      simp only [splitResult, Option.some.injEq, Prod.mk.injEq, Except.ok.injEq] at h
      refine ⟨polys, by rw [h.2], genPolys_ok rng (K - 1) (by omega) S s s1 polys hg, h.1⟩

theorem consistent_of_subset (gf : GF256) (polys : List (List Nat)) (N : Nat) (hN : N ≤ 254)
    (T : Shares)
    (hsub : ∀ e ∈ T, e ∈ (List.range' 1 N).map
      (fun x => (x, polys.map (fun cs => gf.Evaluate cs x)))) :
    ConsistentWith gf polys T := by
  intro e he
  obtain ⟨x, hx, rfl⟩ := List.mem_map.mp (hsub e he)
  rw [List.mem_range'_1] at hx
  exact ⟨by omega, by omega, rfl⟩

/-- C1 (untagged round trip). For a field built by `New256`, a non-empty secret `S` of
bytes and `2 ≤ K ≤ N ≤ 255`, whatever the entropy source delivers: when `SplitWithField`
returns a share map, `CombineWithField` returns exactly `S` on every sub-map `T` that keeps
at least `K` of its entries, whatever the order in which the map is enumerated. -/
theorem split_combine_roundtrip {σ : Type} (poly gen : Nat) (gf : GF256)
    (hgf : New256 poly gen = some gf) (fuel : Nat) (rng : Reader σ) (s s' : σ)
    (S : List Nat) (hS : ∀ b ∈ S, b < 256) (hne : S ≠ []) (K N : Nat) (hK : 2 ≤ K)
    (hKN : K ≤ N) (hN : N ≤ 255) (shares : Shares)
    (hsplit : SplitWithField fuel rng (some gf) S K N s = some (.ok shares, s'))
    (T : Shares) (hTnd : (T.map Prod.fst).Nodup) (hTsub : ∀ e ∈ T, e ∈ shares)
    (hTlen : K ≤ T.length) (ord : Nat → List Nat)
    (hord : ∀ k, (ord k).Perm (T.map Prod.fst)) :
    CombineWithField gf T ord = .ok S := by
  obtain ⟨hN2, polys, _, hpolys, hshares⟩ :=
    split_returns gf fuel rng s s' S hne K N hK hKN hN shares hsplit
  subst hshares
  exact Combine_consistent ⟨gf, New256_valid poly gen gf hgf⟩ (K - 1) S polys hS hpolys T hTnd
    (consistent_of_subset gf polys N hN2 T hTsub) (by omega) ord hord

/-- Witness of C1: the secret "HE" split 2-of-3 over the default field with the
coefficients 1 and 2, and combined from the shares 3 and 1. -/
theorem split_combine_roundtrip_witness :
    SplitWithField 4 listReader (some aesField) [72, 69] 2 3 [1, 2] =
        some (.ok [(1, [73, 71]), (2, [74, 65]), (3, [75, 67])], []) ∧
      CombineWithField aesField [(3, [75, 67]), (1, [73, 71])] (fun _ => [1, 3]) = .ok [72, 69] :=
  ⟨by decide,
    split_combine_roundtrip PolyAES GenAES aesField New256_aes 4 listReader [1, 2] [] [72, 69]
      (by decide) (by decide) 2 3 (by decide) (by decide) (by decide)
      [(1, [73, 71]), (2, [74, 65]), (3, [75, 67])] (by decide)
      [(3, [75, 67]), (1, [73, 71])] (by decide) (by decide) (by decide) (fun _ => [1, 3])
      (fun _ => (by decide : List.Perm [1, 3] [3, 1]))⟩

theorem verifyTag_pass (gf : GF256) (T : Shares) (ord : Nat → List Nat) (count i : Nat)
    (h : ∀ j, j < count → interpolateAt gf T (i + j) (ord (i + j)) = .ok 0) :
    verifyTag gf T ord count i = .ok true := by
  induction count generalizing i with
  | zero => rfl
  | succ count ih =>
    have h0 := h 0 (by omega)
    simp only [Nat.add_zero] at h0
    have ih2 := ih (i + 1) (by
      intro j hj
      have := h (j + 1) (by omega)
      rw [show i + 1 + j = i + (j + 1) by omega]
      exact this)
    simp only [verifyTag, h0, ih2, ne_eq, not_true_eq_false, if_false]

/-- Combining at least `degree + 1` tagged shares of a split gives back the secret. -/
theorem CombineTagged_consistent (F : VField) (degree : Nat) (S : List Nat)
    (polys : List (List Nat)) (hS : ∀ b ∈ S, b < 256) (hne : S ≠ [])
    (hpolys : List.Forall₂ (IsPoly degree) (List.replicate TagLength 0 ++ S) polys)
    (T : Shares) (hnd : (T.map Prod.fst).Nodup) (hT : ConsistentWith F.gf polys T)
    (hlen : degree + 1 ≤ T.length) (ord : Nat → List Nat)
    (hord : ∀ k, (ord k).Perm (T.map Prod.fst)) :
    CombineTaggedWithField F.gf T ord = .ok S := by
  have hTne : T ≠ [] := by
    intro h
    rw [h] at hlen
    simp at hlen
  have hbs : ∀ b ∈ List.replicate TagLength 0 ++ S, b < 256 := by
    intro b hb
    rcases List.mem_append.mp hb with h | h
    · rw [(List.mem_replicate.mp h).2]; omega
    · exact hS b h
  have hpl : polys.length = TagLength + S.length := by
    rw [← hpolys.length_eq, List.length_append, List.length_replicate]
  have hSl : S.length ≠ 0 := fun h => hne (List.length_eq_zero.mp h)
  have hat : ∀ j (hj : j < (List.replicate TagLength 0 ++ S).length) (keys : List Nat),
      keys.Perm (T.map Prod.fst) →
      interpolateAt F.gf T j keys = .ok (List.replicate TagLength 0 ++ S)[j] :=
    fun j hj keys hk =>
      interpolateAt_consistent F degree _ polys hbs hpolys T hnd hT hlen keys hk j hj
  unfold CombineTaggedWithField
  rw [probe_consistent F.gf polys T hnd hT hTne (ord 0) (hord 0), hpl]
  have hsl : ((TagLength + S.length : Nat) : Int) - (TagLength : Int) = (S.length : Int) := by
    push_cast
    omega
  simp only [hsl]
  rw [if_neg (by exact_mod_cast hSl)]
  rw [verifyTag_pass F.gf T (fun i => ord (1 + i)) TagLength 0 (by
    intro j hj
    have hj2 : j < (List.replicate TagLength 0 ++ S).length := by
      rw [List.length_append, List.length_replicate]; omega
    have := hat j hj2 (ord (1 + j)) (hord _)
    rw [List.getElem_append_left (by simpa using hj), List.getElem_replicate] at this
    simpa using this)]
  simp only []
  rw [if_neg (by omega), Int.toNat_ofNat]
  apply unlock_eq
  intro j hj
  have hj2 : j + TagLength < (List.replicate TagLength 0 ++ S).length := by
    rw [List.length_append, List.length_replicate]; omega
  have := hat (j + TagLength) hj2 (ord (1 + TagLength + j)) (hord _)
  rw [List.getElem_append_right (by simp)] at this
  simpa using this

/-- C2 (tagged round trip). For a field built by `New256`, a non-empty secret `S` of bytes
and `2 ≤ K ≤ N ≤ 255`, whatever the entropy source delivers: when `SplitTaggedWithField`
returns a share map, `CombineTaggedWithField` returns `S` with no error (so no tag
mismatch) on every sub-map `T` that keeps at least `K` of its entries unmodified, whatever
the order in which the map is enumerated. -/
theorem tagged_roundtrip {σ : Type} (poly gen : Nat) (gf : GF256)
    (hgf : New256 poly gen = some gf) (fuel : Nat) (rng : Reader σ) (s s' : σ)
    (S : List Nat) (hS : ∀ b ∈ S, b < 256) (hne : S ≠ []) (K N : Nat) (hK : 2 ≤ K)
    (hKN : K ≤ N) (hN : N ≤ 255) (shares : Shares)
    (hsplit : SplitTaggedWithField fuel rng (some gf) S K N s = some (.ok shares, s'))
    (T : Shares) (hTnd : (T.map Prod.fst).Nodup) (hTsub : ∀ e ∈ T, e ∈ shares)
    (hTlen : K ≤ T.length) (ord : Nat → List Nat)
    (hord : ∀ k, (ord k).Perm (T.map Prod.fst)) :
    CombineTaggedWithField gf T ord = .ok S := by
  rw [SplitTagged_eq_Split fuel rng (some gf) S K N s hne] at hsplit
  obtain ⟨hN2, polys, _, hpolys, hshares⟩ :=
    split_returns gf fuel rng s s' (List.replicate TagLength 0 ++ S) (by simp [TagLength])
      K N hK hKN hN shares hsplit
  subst hshares
  exact CombineTagged_consistent ⟨gf, New256_valid poly gen gf hgf⟩ (K - 1) S polys hS hne
    hpolys T hTnd (consistent_of_subset gf polys N hN2 T hTsub) (by omega) ord hord

/-- Witness of C2: the byte 72 split 2-of-3 with a tag over the default field, the source
delivering 1, 2, ..., 9, and combined from the shares 3 and 2. -/
theorem tagged_roundtrip_witness :
    SplitTaggedWithField 4 listReader (some aesField) [72] 2 3 [1, 2, 3, 4, 5, 6, 7, 8, 9] =
        some (.ok [(1, [1, 2, 3, 4, 5, 6, 7, 8, 65]), (2, [2, 4, 6, 8, 10, 12, 14, 16, 90]),
          (3, [3, 6, 5, 12, 15, 10, 9, 24, 83])], []) ∧
      CombineTaggedWithField aesField [(3, [3, 6, 5, 12, 15, 10, 9, 24, 83]),
        (2, [2, 4, 6, 8, 10, 12, 14, 16, 90])] (fun _ => [2, 3]) = .ok [72] :=
  ⟨by decide,
    tagged_roundtrip PolyAES GenAES aesField New256_aes 4 listReader
      [1, 2, 3, 4, 5, 6, 7, 8, 9] [] [72] (by decide) (by decide) 2 3 (by decide) (by decide)
      (by decide)
      [(1, [1, 2, 3, 4, 5, 6, 7, 8, 65]), (2, [2, 4, 6, 8, 10, 12, 14, 16, 90]),
        (3, [3, 6, 5, 12, 15, 10, 9, 24, 83])] (by decide)
      [(3, [3, 6, 5, 12, 15, 10, 9, 24, 83]), (2, [2, 4, 6, 8, 10, 12, 14, 16, 90])]
      (by decide) (by decide) (by decide) (fun _ => [2, 3])
      (fun _ => (by decide : List.Perm [2, 3] [3, 2]))⟩

/-! ## Fewer than `K` shares -/

theorem nodes_injOn (F : VField) (xs : List Nat) (hx : ∀ x ∈ xs, 0 < x ∧ x < 256) :
    Set.InjOn (fun x : Nat => Elt.ofNat F x) ((0 :: xs).toFinset : Finset Nat) := by
  have hb : ∀ x ∈ (0 :: xs).toFinset, x < 256 := by
    intro x hxm
    rcases List.mem_cons.mp (List.mem_toFinset.mp hxm) with h | h
    · omega
    · exact (hx x h).2
  intro a ha b hb2 hab
  exact Elt.ofNat_inj (hb a ha) (hb b hb2) hab

theorem nodes_card (xs : List Nat) (hnd : xs.Nodup) (hx : ∀ x ∈ xs, 0 < x ∧ x < 256) :
    ((0 :: xs).toFinset : Finset Nat).card = xs.length + 1 := by
  have h0 : (0 : Nat) ∉ xs := fun h => absurd (hx 0 h).1 (by omega)
  rw [List.toFinset_card_of_nodup (List.nodup_cons.mpr ⟨h0, hnd⟩), List.length_cons]

/-- Two polynomials with the same intercept and the same values at as many distinct nonzero
abscissas as they have further coefficients are the same. -/
theorem coeffs_unique (F : VField) (c0 : Nat) (hc0 : c0 < 256) (cs cs2 : List Nat)
    (hcs : ∀ c ∈ cs, c < 256) (hcs2 : ∀ c ∈ cs2, c < 256) (hl : cs.length = cs2.length)
    (xs : List Nat) (hnd : xs.Nodup) (hx : ∀ x ∈ xs, 0 < x ∧ x < 256)
    (hxl : cs.length ≤ xs.length)
    (heq : ∀ x ∈ xs, F.gf.Evaluate (c0 :: cs) x = F.gf.Evaluate (c0 :: cs2) x) : cs = cs2 := by
  have hb : ∀ l : List Nat, (∀ c ∈ l, c < 256) → ∀ c ∈ c0 :: l, c < 256 := by
    intro l hlb c hc
    rcases List.mem_cons.mp hc with h | h
    · rw [h]; exact hc0
    · exact hlb c h
  obtain ⟨f, hdeg, hcoeff, heval⟩ := Evaluate_poly F (c0 :: cs) (hb cs hcs)
  obtain ⟨f2, hdeg2, hcoeff2, heval2⟩ := Evaluate_poly F (c0 :: cs2) (hb cs2 hcs2)
  have hcard := nodes_card xs hnd hx
  have hff : f = f2 := by
    refine Polynomial.eq_of_degrees_lt_of_eval_index_eq (0 :: xs).toFinset (nodes_injOn F xs hx)
      ?_ ?_ ?_
    · rw [hcard]
      refine lt_of_lt_of_le hdeg ?_
      simp only [List.length_cons]
      exact_mod_cast Nat.succ_le_succ hxl
    · rw [hcard]
      refine lt_of_lt_of_le hdeg2 ?_
      simp only [List.length_cons]
      exact_mod_cast Nat.succ_le_succ (hl ▸ hxl)
    · intro x hxm
      rcases List.mem_cons.mp (List.mem_toFinset.mp hxm) with h | h
      · subst h
        show f.eval (Elt.ofNat F 0) = f2.eval (Elt.ofNat F 0)
        have e1 := hcoeff 0
        have e2 := hcoeff2 0
        rw [Polynomial.coeff_zero_eq_eval_zero] at e1 e2
        rw [show Elt.ofNat F 0 = 0 from rfl, e1, e2]
        rfl
      · show f.eval (Elt.ofNat F x) = f2.eval (Elt.ofNat F x)
        rw [← (heval x (hx x h).2).2, ← (heval2 x (hx x h).2).2, heq x h]
  apply List.ext_getElem hl
  intro k h1 h2
  have e1 := hcoeff (k + 1)
  have e2 := hcoeff2 (k + 1)
  rw [hff, e2, List.getD_cons_succ, List.getD_cons_succ, List.getD_eq_getElem _ _ h1,
    List.getD_eq_getElem _ _ h2] at e1
  exact (Elt.ofNat_inj (hcs2 _ (List.getElem_mem _)) (hcs _ (List.getElem_mem _)) e1).symm

/-- For every intercept and every choice of values at distinct nonzero abscissas there are
coefficients whose polynomial takes these values. -/
theorem coeffs_exist (F : VField) (c0 : Nat) (hc0 : c0 < 256) (xs ys : List Nat)
    (hnd : xs.Nodup) (hx : ∀ x ∈ xs, 0 < x ∧ x < 256) (hyl : ys.length = xs.length)
    (hy : ∀ y ∈ ys, y < 256) :
    ∃ cs : List Nat, cs.length = xs.length ∧ (∀ c ∈ cs, c < 256) ∧
      xs.map (fun x => F.gf.Evaluate (c0 :: cs) x) = ys := by
  have hinj := nodes_injOn F xs hx
  have hcard := nodes_card xs hnd hx
  have hg : ∃ g : Polynomial (Elt F), g.degree < ((xs.length + 1 : Nat) : WithBot ℕ) ∧
      g.eval (Elt.ofNat F 0) = Elt.ofNat F c0 ∧
      ∀ j (h1 : j < xs.length) (h2 : j < ys.length),
        g.eval (Elt.ofNat F xs[j]) = Elt.ofNat F ys[j] := by
    refine ⟨Lagrange.interpolate (0 :: xs).toFinset (fun x : Nat => Elt.ofNat F x)
      (fun x => if x = 0 then Elt.ofNat F c0
        else Elt.ofNat F ((List.lookup x (xs.zip ys)).getD 0)), ?_, ?_, ?_⟩
    · rw [← hcard]
      exact Lagrange.degree_interpolate_lt _ hinj
    · have := Lagrange.eval_interpolate_at_node
        (fun x => if x = 0 then Elt.ofNat F c0
          else Elt.ofNat F ((List.lookup x (xs.zip ys)).getD 0)) hinj
        (show (0 : Nat) ∈ (0 :: xs).toFinset by simp)
      simpa using this
    · intro j h1 h2
      have hm : xs[j] ∈ (0 :: xs).toFinset := by
        simp only [List.toFinset_cons, Finset.mem_insert, List.mem_toFinset]
        exact Or.inr (List.getElem_mem _)
      have := Lagrange.eval_interpolate_at_node
        (fun x => if x = 0 then Elt.ofNat F c0
          else Elt.ofNat F ((List.lookup x (xs.zip ys)).getD 0)) hinj hm
      rw [this]
      have hne : xs[j] ≠ 0 := by
        have := (hx _ (List.getElem_mem h1)).1
        omega
      have hz : (xs[j], ys[j]) ∈ xs.zip ys := by
        have hlen : j < (xs.zip ys).length := by simp [h1, h2]
        have := List.getElem_mem hlen
        rwa [List.getElem_zip] at this
      have hl := lookup_of_mem (xs.zip ys)
        (by rw [List.map_fst_zip _ _ (by omega)]; exact hnd) _ _ hz
      simp only [hne, if_false, hl, Option.getD_some]
  obtain ⟨g, hgdeg, hg0, hgx⟩ := hg
  refine ⟨(List.range xs.length).map (fun k => (g.coeff (k + 1)).toNat), by simp, ?_, ?_⟩
  · intro c hc
    obtain ⟨k, _, rfl⟩ := List.mem_map.mp hc
    exact Elt.toNat_lt _
  · have hcsb : ∀ c ∈ c0 :: (List.range xs.length).map (fun k => (g.coeff (k + 1)).toNat),
        c < 256 := by
      intro c hc
      rcases List.mem_cons.mp hc with h | h
      · rw [h]; exact hc0
      · obtain ⟨k, _, rfl⟩ := List.mem_map.mp h
        exact Elt.toNat_lt _
    obtain ⟨f, _, hcoeff, heval⟩ := Evaluate_poly F _ hcsb
    have hfg : f = g := by
      ext k
      rw [hcoeff k]
      cases k with
      | zero =>
        rw [List.getD_cons_zero, Polynomial.coeff_zero_eq_eval_zero]
        exact hg0.symm
      | succ k =>
        rw [List.getD_cons_succ]
        by_cases hk : k < xs.length
        · rw [List.getD_eq_getElem _ _ (by simpa using hk)]
          simp only [List.getElem_map, List.getElem_range]
          exact Elt.ofNat_toNat _
        · rw [List.getD_eq_default _ _ (by simpa using hk)]
          rw [Polynomial.coeff_eq_zero_of_degree_lt (lt_of_lt_of_le hgdeg (by
            exact_mod_cast (by omega : xs.length + 1 ≤ k + 1)))]
          rfl
    apply List.ext_getElem (by simp [hyl])
    intro j h1 h2
    have hj : j < xs.length := by simpa using h1
    have hxb := (hx _ (List.getElem_mem hj)).2
    have e := (heval xs[j] hxb).2
    rw [hfg, hgx j hj h2] at e
    simp only [List.getElem_map]
    exact Elt.ofNat_inj (heval xs[j] hxb).1 (hy _ (List.getElem_mem _)) e

theorem makePolynomial_listReader (cs : List Nat) (s K : Nat) (hK : 2 ≤ K) (hK2 : K ≤ 255)
    (hl : cs.length = K - 1) (hcs : ∀ c ∈ cs, c < 256) :
    makePolynomial listReader cs s (K - 1) = (.ok (s :: cs), []) := by
  have hlen : (K - 1 + 1) % 256 = K := by omega
  have hfill : fillBuffer (K - 1) (cs.take (K - 1)) = cs := by
    unfold fillBuffer
    rw [← hl, List.take_length, List.take_length, Nat.sub_self, List.replicate_zero,
      List.append_nil]
    have hm : cs.map (· % 256) = cs.map id :=
      List.map_congr_left (fun c hc => Nat.mod_eq_of_lt (hcs c hc))
    rw [hm, List.map_id]
  unfold makePolynomial
  simp only [hlen, listReader, show K ≠ 0 by omega, if_false, hfill]
  rw [← hl, List.drop_length]
  rfl

/-- C3 (fewer than `K` shares reveal nothing). For a field built by `New256`, `2 ≤ K ≤ 255`,
`K - 1` pairwise distinct share indices in 1..255 and a secret byte `s`: every
`(K-1)`-tuple `ys` of bytes is produced by exactly one choice `cs` of the `K - 1` random
coefficients, where the polynomial is the one `makePolynomial` builds from `cs` and the
bytes are its values at the indices; and these are the bytes `SplitWithField` stores at the
indices whenever the split has them (`N ≤ 254`, enough fuel). -/
theorem fewer_than_K_bijection (poly gen : Nat) (gf : GF256) (hgf : New256 poly gen = some gf)
    (K : Nat) (hK : 2 ≤ K) (hK2 : K ≤ 255) (xs : List Nat) (hnd : xs.Nodup)
    (hx : ∀ x ∈ xs, 1 ≤ x ∧ x ≤ 255) (hxl : xs.length = K - 1) (s : Nat) (hs : s < 256)
    (ys : List Nat) (hyl : ys.length = K - 1) (hy : ∀ y ∈ ys, y < 256) :
    ∃! cs : List Nat, cs.length = K - 1 ∧ (∀ c ∈ cs, c < 256) ∧
      ∃ coefficients, makePolynomial listReader cs s (K - 1) = (.ok coefficients, []) ∧
        xs.map (fun x => gf.Evaluate coefficients x) = ys ∧
        ∀ N fuel, K ≤ N → N ≤ 254 → N < fuel → (∀ x ∈ xs, x ≤ N) →
          ∃ shares, SplitWithField fuel listReader (some gf) [s] K N cs =
              some (.ok shares, []) ∧
            ∀ x ∈ xs, List.lookup x shares = some [gf.Evaluate coefficients x] := by
  have hx2 : ∀ x ∈ xs, 0 < x ∧ x < 256 := fun x h => ⟨by have := hx x h; omega,
    by have := hx x h; omega⟩
  obtain ⟨cs, hcl, hcb, hcv⟩ := coeffs_exist ⟨gf, New256_valid poly gen gf hgf⟩ s hs xs ys hnd hx2
    (by omega) hy
  refine ⟨cs, ⟨by omega, hcb, s :: cs,
    makePolynomial_listReader cs s K hK hK2 (by omega) hcb, hcv, ?_⟩, ?_⟩
  · intro N fuel hKN hN hfuel hxN
    have hsp := (SplitWithField_spec fuel listReader gf [s] K N cs (by simp) hK hKN hN).2 hfuel
    have hdeg : (K + 255) % 256 = K - 1 := by omega
    rw [hdeg] at hsp
    simp only [genPolys, makePolynomial_listReader cs s K hK hK2 (by omega) hcb,
      splitResult, List.map_cons, List.map_nil] at hsp
    refine ⟨_, hsp, ?_⟩
    intro x hxm
    have hmem : x ∈ List.range' 1 N := by
      rw [List.mem_range'_1]
      have := hx x hxm
      have := hxN x hxm
      omega
    exact lookup_keyed (List.range' 1 N) (fun x => [gf.Evaluate (s :: cs) x]) x hmem
  · rintro cs2 ⟨hl2, hb2, co, hmk, hv2, _⟩
    rw [makePolynomial_listReader cs2 s K hK hK2 hl2 hb2] at hmk
    simp only [Prod.mk.injEq, Except.ok.injEq, and_true] at hmk
    subst hmk
    refine coeffs_unique ⟨gf, New256_valid poly gen gf hgf⟩ s hs cs2 cs hb2 hcb (by omega) xs
      hnd hx2 (by omega) ?_
    intro x hxm
    have e1 := congrArg (fun l => l[xs.indexOf x]?) hv2
    have e2 := congrArg (fun l => l[xs.indexOf x]?) hcv
    have hi : xs.indexOf x < xs.length := List.indexOf_lt_length.mpr hxm
    simp only [List.getElem?_map, List.getElem?_eq_getElem hi, Option.map_some',
      List.getElem_indexOf hi] at e1 e2
    have := e1.trans e2.symm
    simpa using this

/-- Witness of C3: threshold 2, the share index 3, the secret byte 72 and the share byte
75 (produced by the coefficient 1 alone). -/
theorem fewer_than_K_bijection_witness :
    ∃! cs : List Nat, cs.length = 2 - 1 ∧ (∀ c ∈ cs, c < 256) ∧
      ∃ coefficients, makePolynomial listReader cs 72 (2 - 1) = (.ok coefficients, []) ∧
        [3].map (fun x => aesField.Evaluate coefficients x) = [75] ∧
        ∀ N fuel, 2 ≤ N → N ≤ 254 → N < fuel → (∀ x ∈ [3], x ≤ N) →
          ∃ shares, SplitWithField fuel listReader (some aesField) [72] 2 N cs =
              some (.ok shares, []) ∧
            ∀ x ∈ [3], List.lookup x shares = some [aesField.Evaluate coefficients x] :=
  fewer_than_K_bijection PolyAES GenAES aesField New256_aes 2 (by decide) (by decide) [3]
    (by decide) (by decide) (by decide) 72 (by decide) [75] (by decide) (by decide)

/-! ## Termination and validation of the split -/

theorem genPolys_total {σ : Type} (rng : Reader σ) (hrng : ∀ s len, (rng.Read s len).1.err = false)
    (degree : Nat) (hd : degree < 255) (bs : List Nat) (s : σ) :
    ∃ polys s', genPolys rng degree bs s = (.ok polys, s') := by
  induction bs generalizing s with
  | nil => exact ⟨[], s, rfl⟩
  | cons b bs ih =>
    have hlen : (degree + 1) % 256 ≠ 0 := by omega
    have hmp : makePolynomial rng s b degree =
        (.ok (b :: fillBuffer ((degree + 1) % 256 - 1) (rng.Read s ((degree + 1) % 256 - 1)).1.data),
          (rng.Read s ((degree + 1) % 256 - 1)).2) := by
      unfold makePolynomial
      simp only [hlen, if_false, hrng, Bool.false_eq_true]
    obtain ⟨ps, s2, hps⟩ := ih (rng.Read s ((degree + 1) % 256 - 1)).2
    refine ⟨(b :: fillBuffer ((degree + 1) % 256 - 1)
      (rng.Read s ((degree + 1) % 256 - 1)).1.data) :: ps, s2, ?_⟩
    simp only [genPolys, hmp, hps]

/-- The split returns a share map on the range `2 ≤ K ≤ N ≤ 254`, given a source that
reports no error and fuel for the `N` rounds of its loops. -/
theorem split_succeeds_below_255 {σ : Type} (fuel : Nat) (rng : Reader σ)
    (hrng : ∀ s len, (rng.Read s len).1.err = false) (gf : GF256) (secret : List Nat)
    (K N : Nat) (s : σ) (hs : secret ≠ []) (hK : 2 ≤ K) (hKN : K ≤ N) (hN : N ≤ 254)
    (hfuel : N < fuel) :
    (∃ shares s', SplitWithField fuel rng (some gf) secret K N s = some (.ok shares, s')) ∧
    ∃ shares s', SplitTaggedWithField fuel rng (some gf) secret K N s = some (.ok shares, s') := by
  have hdeg : (K + 255) % 256 < 255 := by omega
  constructor
  · obtain ⟨polys, s', hg⟩ := genPolys_total rng hrng _ hdeg secret s
    have := (SplitWithField_spec fuel rng gf secret K N s hs hK hKN hN).2 hfuel
    rw [hg] at this
    exact ⟨_, s', this⟩
  · obtain ⟨polys, s', hg⟩ := genPolys_total rng hrng _ hdeg (List.replicate TagLength 0 ++ secret) s
    have := (SplitWithField_spec fuel rng gf (List.replicate TagLength 0 ++ secret) K N s
      (by simp [TagLength]) hK hKN hN).2 hfuel
    rw [hg] at this
    rw [SplitTagged_eq_Split fuel rng (some gf) secret K N s hs]
    exact ⟨_, s', this⟩

/-- C4 at its failing input: with `N = 255` (here `K = N = 255`, the default field, the
one-byte secret 72) neither `SplitWithField` nor `SplitTaggedWithField` returns, however
much fuel the run is given: the loop `for i := byte(1); i <= n; i++` never exits. -/
theorem split_255_never_returns (fuel : Nat) :
    SplitWithField fuel listReader ShamirGaloisField [72] 255 255 [] = none ∧
    SplitTaggedWithField fuel listReader ShamirGaloisField [72] 255 255 [] = none := by
  have hgf : ShamirGaloisField = some aesField := New256_aes
  rw [hgf, SplitTagged_eq_Split fuel listReader (some aesField) [72] 255 255 [] (by simp)]
  exact ⟨SplitWithField_diverges fuel listReader aesField [72] 255 [] (by simp) (by omega)
      (by omega),
    SplitWithField_diverges fuel listReader aesField _ 255 [] (by simp [TagLength]) (by omega)
      (by omega)⟩

theorem byteLoop_error {α : Type} (n : Nat) (body : Nat → α → Except Failure α)
    (fuel i : Nat) (acc : α) (e : Failure) (h : byteLoop n body fuel i acc = some (.error e)) :
    ∃ x a, body x a = .error e := by
  induction fuel generalizing i acc with
  | zero => simp [byteLoop] at h
  | succ fuel ih =>
    unfold byteLoop at h
    split at h
    · cases hb : body i acc with
      | error e2 =>
        rw [hb] at h
        simp only [Option.some.injEq, Except.error.injEq] at h
        exact ⟨i, acc, h ▸ hb⟩
      | ok a =>
        rw [hb] at h
        exact ih _ _ h
    · simp at h

theorem makePolynomial_error {σ : Type} (rng : Reader σ) (s s' : σ) (b degree : Nat)
    (e : Failure) (h : makePolynomial rng s b degree = (.error e, s')) :
    e = .entropy ∨ e = .indexOutOfRange := by
  unfold makePolynomial at h
  simp only at h
  split at h
  · simp only [Prod.mk.injEq, Except.error.injEq] at h
    exact Or.inr h.1.symm
  · split at h
    · simp only [Prod.mk.injEq, Except.error.injEq] at h
      exact Or.inl h.1.symm
    · simp at h

theorem setByte_error (m : Shares) (x i y : Nat) (e : Failure)
    (h : Shares.setByte m x i y = .error e) : e = .indexOutOfRange := by
  unfold Shares.setByte at h
  split at h
  · simp only [Except.error.injEq] at h
    exact h.symm
  · split at h
    · simp at h
    · simp only [Except.error.injEq] at h
      exact h.symm

theorem encode_error {σ : Type} (fuel : Nat) (rng : Reader σ) (gf : GF256) (n degree : Nat)
    (bs : List Nat) (i : Nat) (sh : Shares) (s s' : σ) (e : Failure)
    (h : encode fuel rng gf n degree bs i sh s = some (.error e, s')) :
    e = .entropy ∨ e = .indexOutOfRange := by
  induction bs generalizing i sh s with
  | nil => simp [encode] at h
  | cons b bs ih =>
    unfold encode at h
    rcases hb : encodeByte fuel rng gf n degree b i sh s with _ | ⟨r, s1⟩
    · rw [hb] at h; simp at h
    · rw [hb] at h
      cases r with
      | ok sh1 => exact ih _ _ _ h
      | error e1 =>
        simp only [Option.some.injEq, Prod.mk.injEq, Except.error.injEq] at h
        rw [← h.1]
        unfold encodeByte at hb
        rcases hmp : makePolynomial rng s b degree with ⟨r2, s2⟩
        rw [hmp] at hb
        cases r2 with
        | error e2 =>
          simp only [Option.some.injEq, Prod.mk.injEq, Except.error.injEq] at hb
          rw [← hb.1]
          exact makePolynomial_error rng s s2 b degree e2 hmp
        | ok cs =>
          simp only at hb
          rcases hl : byteLoop n (fun x sh => Shares.setByte sh x i (gf.Evaluate cs x)) fuel 1 sh
            with _ | r3
          · rw [hl] at hb; simp at hb
          · rw [hl] at hb
            cases r3 with
            | ok sh3 => simp at hb
            | error e3 =>
              simp only [Option.some.injEq, Prod.mk.injEq, Except.error.injEq] at hb
              obtain ⟨x, a, hxa⟩ := byteLoop_error _ _ _ _ _ _ hl
              rw [← hb.1]
              exact Or.inr (setByte_error _ _ _ _ _ hxa)

theorem allocate_valid {σ : Type} (fuel : Nat) (g : GF256) (secret : List Nat) (k n len : Nat)
    (s : σ) (hs : secret ≠ []) (hk : 2 ≤ k) (hkn : k ≤ n) :
    allocate fuel (some g) secret k n len s = none ∨
      ∃ shares, allocate fuel (some g) secret k n len s = some (.ok (g, shares), s) := by
  have hlen : secret.length ≠ 0 := fun h => hs (List.length_eq_zero.mp h)
  unfold allocate
  simp only [hlen, if_false, show ¬ k < 2 by omega, show ¬ n < k by omega]
  rcases hl : byteLoop n (fun i sh => Except.ok (Shares.insert sh i (List.replicate len 0)))
    fuel 1 [] with _ | r
  · left; rfl
  · cases r with
    | ok sh => right; exact ⟨sh, rfl⟩
    | error e =>
      obtain ⟨x, a, hxa⟩ := byteLoop_error _ _ _ _ _ _ hl
      simp at hxa

theorem split_error_not_validation {σ : Type} (fuel : Nat) (rng : Reader σ) (g : GF256)
    (secret : List Nat) (k n : Nat) (s s' : σ) (e : Failure) (hs : secret ≠ []) (hk : 2 ≤ k)
    (hkn : k ≤ n) (h : SplitWithField fuel rng (some g) secret k n s = some (.error e, s')) :
    e = .entropy ∨ e = .indexOutOfRange := by
  unfold SplitWithField at h
  rcases allocate_valid fuel g secret k n secret.length s hs hk hkn with ha | ⟨sh, ha⟩
  · rw [ha] at h; simp at h
  · rw [ha] at h
    exact encode_error _ _ _ _ _ _ _ _ _ _ _ h

/-- C5 (fail-fast validation). For `SplitWithField` and `SplitTaggedWithField` alike: a nil
field gives the error "galois field is nil"; a non-nil field and an empty secret give the
error "secret is empty" whatever `k` and `n`; a non-nil field, a non-empty secret and
`k < 2` give the panic "k must be at least 2", and `2 ≤ k` with `n < k` the panic "n must
not be less than k". In each case the call stops there with the entropy source left in
its initial state `s` (nothing was read), whatever the fuel. Conversely with a non-nil
field, a non-empty secret and `2 ≤ k ≤ n` the call never ends in one of these four
failures. -/
theorem validation_fail_fast {σ : Type} (fuel : Nat) (rng : Reader σ) (gf : Option GF256)
    (secret : List Nat) (k n : Nat) (s : σ) :
    (gf = none →
      SplitWithField fuel rng gf secret k n s = some (.error .fieldNil, s) ∧
      SplitTaggedWithField fuel rng gf secret k n s = some (.error .fieldNil, s)) ∧
    (gf ≠ none → secret = [] →
      SplitWithField fuel rng gf secret k n s = some (.error .secretEmpty, s) ∧
      SplitTaggedWithField fuel rng gf secret k n s = some (.error .secretEmpty, s)) ∧
    (gf ≠ none → secret ≠ [] → k < 2 →
      SplitWithField fuel rng gf secret k n s = some (.error .panicK, s) ∧
      SplitTaggedWithField fuel rng gf secret k n s = some (.error .panicK, s) ∧
      Failure.panicK.isPanic = true) ∧
    (gf ≠ none → secret ≠ [] → 2 ≤ k → n < k →
      SplitWithField fuel rng gf secret k n s = some (.error .panicN, s) ∧
      SplitTaggedWithField fuel rng gf secret k n s = some (.error .panicN, s) ∧
      Failure.panicN.isPanic = true) ∧
    (gf ≠ none → secret ≠ [] → 2 ≤ k → k ≤ n → ∀ e s',
      (SplitWithField fuel rng gf secret k n s = some (.error e, s') ∨
        SplitTaggedWithField fuel rng gf secret k n s = some (.error e, s')) →
      e ≠ .fieldNil ∧ e ≠ .secretEmpty ∧ e ≠ .panicK ∧ e ≠ .panicN) := by
  refine ⟨?_, ?_, ?_, ?_, ?_⟩
  · intro h
    subst h
    exact ⟨rfl, rfl⟩
  · intro hg hs
    subst hs
    cases gf with
    | none => exact absurd rfl hg
    | some g => exact ⟨rfl, rfl⟩
  · intro hg hs hk
    have hlen : secret.length ≠ 0 := fun h => hs (List.length_eq_zero.mp h)
    cases gf with
    | none => exact absurd rfl hg
    | some g =>
      refine ⟨?_, ?_, rfl⟩
      · simp only [SplitWithField, allocate, hlen, hk, if_true, if_false]
      · simp only [SplitTaggedWithField, allocate, hlen, hk, if_true, if_false]
  · intro hg hs hk hn
    have hlen : secret.length ≠ 0 := fun h => hs (List.length_eq_zero.mp h)
    have hk2 : ¬ k < 2 := by omega
    cases gf with
    | none => exact absurd rfl hg
    | some g =>
      refine ⟨?_, ?_, rfl⟩
      · simp only [SplitWithField, allocate, hlen, hk2, hn, if_true, if_false]
      · simp only [SplitTaggedWithField, allocate, hlen, hk2, hn, if_true, if_false]
  · intro hg hs hk hkn e s' h
    cases gf with
    | none => exact absurd rfl hg
    | some g =>
      rw [SplitTagged_eq_Split fuel rng (some g) secret k n s hs] at h
      have he : e = .entropy ∨ e = .indexOutOfRange := by
        rcases h with h | h
        · exact split_error_not_validation fuel rng g secret k n s s' e hs hk hkn h
        · exact split_error_not_validation fuel rng g _ k n s s' e (by simp [TagLength]) hk hkn h
      rcases he with he | he <;> subst he <;> simp

/-- Concrete runs for C5 with the default field: a nil field, an empty secret with
`k = n = 0`, `k = 1`, and `n = 2 < k = 3`; the five bytes of the source stay unread. -/
theorem validation_fail_fast_witness :
    SplitWithField 9 listReader none [72] 2 3 [1, 2, 3, 4, 5] =
        some (.error .fieldNil, [1, 2, 3, 4, 5]) ∧
      SplitTaggedWithField 9 listReader (some aesField) [] 0 0 [1, 2, 3, 4, 5] =
        some (.error .secretEmpty, [1, 2, 3, 4, 5]) ∧
      SplitWithField 9 listReader (some aesField) [72] 1 3 [1, 2, 3, 4, 5] =
        some (.error .panicK, [1, 2, 3, 4, 5]) ∧
      SplitTaggedWithField 9 listReader (some aesField) [72] 3 2 [1, 2, 3, 4, 5] =
        some (.error .panicN, [1, 2, 3, 4, 5]) :=
  ⟨((validation_fail_fast 9 listReader none [72] 2 3 [1, 2, 3, 4, 5]).1 rfl).1,
    ((validation_fail_fast 9 listReader (some aesField) [] 0 0 [1, 2, 3, 4, 5]).2.1
      (by simp) rfl).2,
    ((validation_fail_fast 9 listReader (some aesField) [72] 1 3 [1, 2, 3, 4, 5]).2.2.1
      (by simp) (by simp) (by decide)).1,
    ((validation_fail_fast 9 listReader (some aesField) [72] 3 2 [1, 2, 3, 4, 5]).2.2.2.1
      (by simp) (by simp) (by decide) (by decide)).2.1⟩

/-! ## Interpolation of a share map, by keys -/

/-- `Interpolate_eq` with the samples listed by their abscissas: the sample at `k` has
ordinate `g k`. -/
theorem Interpolate_keys (F : VField) (keys : List Nat) (g : Nat → Nat) (x : Nat)
    (hx : x < 256) (hk : ∀ k ∈ keys, k < 256) (hg : ∀ k ∈ keys, g k < 256) (hnd : keys.Nodup) :
    F.gf.Interpolate (keys.map (fun k => (⟨k, g k⟩ : Point))) x = some (Elt.toNat
      ((Lagrange.interpolate keys.toFinset (fun k : Nat => Elt.ofNat F k)
        (fun k => Elt.ofNat F (g k))).eval (Elt.ofNat F x))) := by
  have hX : (keys.map (fun k => (⟨k, g k⟩ : Point))).map Point.X = keys := by
    rw [List.map_map]
    exact List.map_id'' (fun _ => rfl) keys
  have hmem : ∀ q ∈ keys.map (fun k => (⟨k, g k⟩ : Point)),
      q.X ∈ keys ∧ q.Y = g q.X := by
    intro q hq
    obtain ⟨k, hkm, rfl⟩ := List.mem_map.mp hq
    exact ⟨hkm, rfl⟩
  rw [Interpolate_eq F _ x hx (fun q hq => hk _ (hmem q hq).1)
    (fun q hq => by rw [(hmem q hq).2]; exact hg _ (hmem q hq).1) (by rw [hX]; exact hnd)]
  have hinjk : Set.InjOn (fun k : Nat => Elt.ofNat F k) (keys.toFinset : Finset Nat) := by
    intro a ha b hb hab
    exact Elt.ofNat_inj (hk a (List.mem_toFinset.mp ha)) (hk b (List.mem_toFinset.mp hb)) hab
  have hinj : Set.InjOn (fun p : Point => Elt.ofNat F p.X)
      (keys.map (fun k => (⟨k, g k⟩ : Point))).toFinset := by
    intro p hp q hq hpq
    have hp2 := hmem p (List.mem_toFinset.mp hp)
    have hq2 := hmem q (List.mem_toFinset.mp hq)
    have hxe : p.X = q.X := Elt.ofNat_inj (hk _ hp2.1) (hk _ hq2.1) hpq
    cases p; cases q
    simp only at hxe hp2 hq2
    subst hxe
    rw [hp2.2, hq2.2]
  have hcard : (keys.map (fun k => (⟨k, g k⟩ : Point))).toFinset.card = keys.toFinset.card := by
    rw [List.toFinset_card_of_nodup (List.Nodup.of_map Point.X (by rw [hX]; exact hnd)),
      List.length_map, List.toFinset_card_of_nodup hnd]
  have hfe := Lagrange.eq_interpolate_of_eval_eq
    (f := Lagrange.interpolate keys.toFinset (fun k : Nat => Elt.ofNat F k)
      (fun k => Elt.ofNat F (g k)))
    (r := fun p : Point => Elt.ofNat F p.Y) hinj
    (by rw [hcard]; exact Lagrange.degree_interpolate_lt _ hinjk)
    (by
      intro p hp
      have hp2 := hmem p (List.mem_toFinset.mp hp)
      have := Lagrange.eval_interpolate_at_node (fun k => Elt.ofNat F (g k)) hinjk
        (List.mem_toFinset.mpr hp2.1)
      rw [this]
      show Elt.ofNat F (g p.X) = Elt.ofNat F p.Y
      rw [hp2.2])
  rw [← hfe]

/-- The value interpolated from the samples does not depend on their order. -/
theorem Interpolate_perm (F : VField) (keys keys2 : List Nat) (g : Nat → Nat) (x : Nat)
    (hx : x < 256) (hk : ∀ k ∈ keys, k < 256) (hg : ∀ k ∈ keys, g k < 256) (hnd : keys.Nodup)
    (hp : keys2.Perm keys) :
    F.gf.Interpolate (keys2.map (fun k => (⟨k, g k⟩ : Point))) x =
      F.gf.Interpolate (keys.map (fun k => (⟨k, g k⟩ : Point))) x := by
  rw [Interpolate_keys F keys g x hx hk hg hnd,
    Interpolate_keys F keys2 g x hx (fun k h => hk k (hp.mem_iff.mp h))
      (fun k h => hg k (hp.mem_iff.mp h)) (hp.nodup_iff.mpr hnd),
    List.toFinset_eq_of_perm _ _ hp]

theorem Interpolate_lt (F : VField) (keys : List Nat) (g : Nat → Nat) (x : Nat)
    (hx : x < 256) (hk : ∀ k ∈ keys, k < 256) (hg : ∀ k ∈ keys, g k < 256) (hnd : keys.Nodup) :
    ∃ b, b < 256 ∧ F.gf.Interpolate (keys.map (fun k => (⟨k, g k⟩ : Point))) x = some b :=
  ⟨_, Elt.toNat_lt _, Interpolate_keys F keys g x hx hk hg hnd⟩

theorem samplesAt_eq (T : Shares) (hnd : (T.map Prod.fst).Nodup) (i : Nat) :
    samplesAt T i = (T.map Prod.fst).map (fun x => (⟨x, col T i x⟩ : Point)) := by
  unfold samplesAt
  rw [List.map_map]
  apply List.map_congr_left
  intro e he
  simp only [Function.comp, col, lookup_of_mem T hnd e.1 e.2 he, Option.getD_some]

theorem col_lt (T : Shares) (L : Nat) (hwf : WellFormed T L) (i x : Nat) : col T i x < 256 := by
  unfold col
  cases hl : List.lookup x T with
  | none => simp
  | some v =>
    simp only [Option.getD_some]
    have hmem : (x, v) ∈ T := by
      clear hwf
      induction T with
      | nil => simp at hl
      | cons e T ih =>
        rw [List.lookup_cons] at hl
        by_cases hx : x = e.1
        · have : (x == e.1) = true := by simpa using hx
          rw [this] at hl
          simp only [Option.some.injEq] at hl
          rw [← hl, hx]
          exact List.mem_cons_self _ _
        · have : (x == e.1) = false := by simpa using hx
          rw [this] at hl
          exact List.mem_cons_of_mem _ (ih hl)
    by_cases hi : i < v.length
    · rw [List.getD_eq_getElem _ _ hi]
      exact (hwf.2 _ hmem).2.2 _ (List.getElem_mem _)
    · rw [List.getD_eq_default _ _ (by omega)]
      omega

theorem index_wf (T : Shares) (L : Nat) (hwf : WellFormed T L) (x : Nat)
    (hx : x ∈ T.map Prod.fst) (i : Nat) (hi : i < L) :
    Shares.index T x i = .ok (col T i x) := by
  obtain ⟨e, he, rfl⟩ := List.mem_map.mp hx
  have hl := lookup_of_mem T hwf.1 e.1 e.2 he
  have hlen : i < e.2.length := by rw [(hwf.2 e he).2.1]; exact hi
  unfold Shares.index col
  rw [hl]
  simp only [Option.getD_some, List.getElem?_eq_getElem hlen, List.getD_eq_getElem _ _ hlen]

/-- On a well-formed map the interpolation of a byte position succeeds, and gives the
value interpolated from the points taken in the order of the entries. -/
theorem interpolateAt_wf (F : VField) (T : Shares) (L : Nat) (hwf : WellFormed T L)
    (keys : List Nat) (hkeys : keys.Perm (T.map Prod.fst)) (i : Nat) (hi : i < L) :
    ∃ b, b < 256 ∧ F.gf.Interpolate (samplesAt T i) 0 = some b ∧
      interpolateAt F.gf T i keys = .ok b := by
  have hkb : ∀ k ∈ T.map Prod.fst, k < 256 := by
    intro k hk
    obtain ⟨e, he, rfl⟩ := List.mem_map.mp hk
    exact (hwf.2 e he).1
  obtain ⟨b, hb, hI⟩ := Interpolate_lt F (T.map Prod.fst) (col T i) 0 (by omega) hkb
    (fun k _ => col_lt T L hwf i k) hwf.1
  refine ⟨b, hb, by rw [samplesAt_eq T hwf.1 i]; exact hI, ?_⟩
  unfold interpolateAt
  rw [collect_eq T i (col T i) keys
    (fun x hx => index_wf T L hwf x (hkeys.mem_iff.mp hx) i hi)]
  simp only []
  rw [Interpolate_perm F (T.map Prod.fst) keys (col T i) 0 (by omega) hkb
    (fun k _ => col_lt T L hwf i k) hwf.1 hkeys, hI]

theorem probe_wf (T : Shares) (L : Nat) (hwf : WellFormed T L) (hne : T ≠ [])
    (keys : List Nat) (hkeys : keys.Perm (T.map Prod.fst)) : probe T keys = some L := by
  cases keys with
  | nil =>
    have := hkeys.length_eq
    simp only [List.length_nil, List.length_map] at this
    exact absurd (List.length_eq_zero.mp this.symm) hne
  | cons x keys =>
    have hx : x ∈ T.map Prod.fst := hkeys.mem_iff.mp (List.mem_cons_self _ _)
    obtain ⟨e, he, rfl⟩ := List.mem_map.mp hx
    simp only [probe, lookup_of_mem T hwf.1 e.1 e.2 he, Option.getD_some, (hwf.2 e he).2.1]

theorem probe_empty (keys : List Nat) (hkeys : keys.Perm (([] : Shares).map Prod.fst)) :
    probe [] keys = none := by
  have : keys = [] := List.length_eq_zero.mp (by simpa using hkeys.length_eq)
  rw [this]
  rfl

/-- The secret loop on a well-formed map: it succeeds and byte `j` of its result is the
value interpolated at position `j + off`. -/
theorem unlock_wf (F : VField) (T : Shares) (L : Nat) (hwf : WellFormed T L) (off : Nat)
    (ord : Nat → List Nat) (hord : ∀ k, (ord k).Perm (T.map Prod.fst)) (count : Nat)
    (hc : count + off ≤ L) :
    ∃ out, unlock F.gf T off ord count 0 = .ok out ∧ out.length = count ∧
      ∀ j (hj : j < out.length), F.gf.Interpolate (samplesAt T (j + off)) 0 = some out[j] := by
  have hch : ∀ j, j < count → ∃ b, b < 256 ∧
      F.gf.Interpolate (samplesAt T (j + off)) 0 = some b ∧
      interpolateAt F.gf T (j + off) (ord j) = .ok b :=
    fun j hj => interpolateAt_wf F T L hwf (ord j) (hord j) (j + off) (by omega)
  refine ⟨(List.range count).map (fun j => (F.gf.Interpolate (samplesAt T (j + off)) 0).getD 0),
    ?_, by simp, ?_⟩
  · have := unlock_eq F.gf T off ord
      ((List.range count).map (fun j => (F.gf.Interpolate (samplesAt T (j + off)) 0).getD 0)) 0
      (by
        intro j hj
        have hj2 : j < count := by simpa using hj
        obtain ⟨b, _, h1, h2⟩ := hch j hj2
        simp only [Nat.zero_add, List.getElem_map, List.getElem_range, h1, Option.getD_some]
        exact h2)
    simpa using this
  · intro j hj
    have hj2 : j < count := by simpa using hj
    obtain ⟨b, _, h1, _⟩ := hch j hj2
    simp only [List.getElem_map, List.getElem_range, h1, Option.getD_some]

/-- C10 (no failure path of `CombineWithField`). For a field built by `New256` and a share
map whose keys are distinct bytes and whose values are byte sequences of one length `L`,
whatever the orders in which the map is enumerated: the call returns (no index out of
range, no division by zero in the interpolation), its result has the common length `L`
(and is empty for the empty map and for shares of length 0), and byte `i` of the result
is the value interpolated at 0 from the points `(x, shares[x][i])`. -/
theorem combine_never_fails (poly gen : Nat) (gf : GF256) (hgf : New256 poly gen = some gf)
    (T : Shares) (L : Nat) (hwf : WellFormed T L) (ord : Nat → List Nat)
    (hord : ∀ k, (ord k).Perm (T.map Prod.fst)) :
    ∃ out, CombineWithField gf T ord = .ok out ∧
      out.length = (if T = [] then 0 else L) ∧
      ∀ i (hi : i < out.length), gf.Interpolate (samplesAt T i) 0 = some out[i] := by
  unfold CombineWithField
  by_cases hne : T = []
  · subst hne
    rw [probe_empty (ord 0) (hord 0)]
    exact ⟨[], by simp, by simp, by simp⟩
  · rw [probe_wf T L hwf hne (ord 0) (hord 0), Option.getD_some, if_neg hne]
    by_cases hL : L = 0
    · subst hL
      exact ⟨[], by simp, by simp, by simp⟩
    · rw [if_neg hL]
      obtain ⟨out, h1, h2, h3⟩ := unlock_wf ⟨gf, New256_valid poly gen gf hgf⟩ T L hwf 0
        (fun i => ord (i + 1)) (fun k => hord (k + 1)) L (by omega)
      exact ⟨out, h1, h2, fun i hi => by simpa using h3 i hi⟩

/-- Witness of C10: the shares 1 and 3 of the secret "HE", combined in the orders 3, 1. -/
theorem combine_never_fails_witness :
    ∃ out, CombineWithField aesField [(1, [73, 71]), (3, [75, 67])] (fun _ => [3, 1]) = .ok out ∧
      out.length = (if [(1, [73, 71]), (3, [75, 67])] = ([] : Shares) then 0 else 2) ∧
      ∀ i (hi : i < out.length),
        aesField.Interpolate (samplesAt [(1, [73, 71]), (3, [75, 67])] i) 0 = some out[i] :=
  combine_never_fails PolyAES GenAES aesField New256_aes [(1, [73, 71]), (3, [75, 67])] 2
    (by decide) (fun _ => [3, 1]) (fun _ => (by decide : List.Perm [3, 1] [1, 3]))

/-! ## The tag check -/

/-- The tag loop on a well-formed map never fails; it passes exactly when every position
it visits interpolates to 0. -/
theorem verifyTag_wf (F : VField) (T : Shares) (L : Nat) (hwf : WellFormed T L)
    (ord : Nat → List Nat) (hord : ∀ k, (ord k).Perm (T.map Prod.fst)) (count i : Nat)
    (hc : i + count ≤ L) :
    (verifyTag F.gf T ord count i = .ok true ∧
      ∀ j, j < count → F.gf.Interpolate (samplesAt T (i + j)) 0 = some 0) ∨
    (verifyTag F.gf T ord count i = .ok false ∧
      ∃ j, j < count ∧ F.gf.Interpolate (samplesAt T (i + j)) 0 ≠ some 0) := by
  induction count generalizing i with
  | zero => exact Or.inl ⟨rfl, fun j hj => absurd hj (by omega)⟩
  | succ count ih =>
    obtain ⟨b, _, h1, h2⟩ := interpolateAt_wf F T L hwf (ord i) (hord i) i (by omega)
    unfold verifyTag
    rw [h2]
    simp only []
    by_cases hb : b = 0
    · subst hb
      simp only [ne_eq, not_true_eq_false, if_false]
      rcases ih (i + 1) (by omega) with ⟨g1, g2⟩ | ⟨g1, j, hj, g2⟩
      · refine Or.inl ⟨g1, ?_⟩
        intro j hj
        cases j with
        | zero => exact h1
        | succ j =>
          have := g2 j (by omega)
          rw [show i + (j + 1) = i + 1 + j by omega]
          exact this
      · refine Or.inr ⟨g1, j + 1, by omega, ?_⟩
        rw [show i + (j + 1) = i + 1 + j by omega]
        exact g2
    · rw [if_pos hb]
      refine Or.inr ⟨rfl, 0, by omega, ?_⟩
      rw [Nat.add_zero, h1]
      simpa using hb

/-- On a non-empty well-formed map with a payload (`L > TagLength`) the tagged combine
returns the error "tag mismatch" exactly when some tag position does not interpolate to
0, and otherwise a secret of `L - TagLength` bytes, the values interpolated at the payload
positions. -/
theorem tag_mismatch_iff_payload (F : VField) (T : Shares) (L : Nat) (hwf : WellFormed T L)
    (hne : T ≠ []) (hL : TagLength < L) (ord : Nat → List Nat)
    (hord : ∀ k, (ord k).Perm (T.map Prod.fst)) :
    (CombineTaggedWithField F.gf T ord = .error .tagMismatch ↔
      ∃ i, i < TagLength ∧ F.gf.Interpolate (samplesAt T i) 0 ≠ some 0) ∧
    (CombineTaggedWithField F.gf T ord ≠ .error .tagMismatch →
      ∃ out, CombineTaggedWithField F.gf T ord = .ok out ∧ out.length = L - TagLength ∧
        ∀ j (hj : j < out.length),
          F.gf.Interpolate (samplesAt T (j + TagLength)) 0 = some out[j]) := by
  have hsl : ((L : Int) - (TagLength : Int)) ≠ 0 := by omega
  have hsl2 : ¬ ((L : Int) - (TagLength : Int)) < 0 := by omega
  have hto : ((L : Int) - (TagLength : Int)).toNat = L - TagLength := by omega
  have hC : CombineTaggedWithField F.gf T ord =
      match verifyTag F.gf T (fun i => ord (1 + i)) TagLength 0 with
      | .error e => .error e
      | .ok false => .error .tagMismatch
      | .ok true => unlock F.gf T TagLength (fun i => ord (1 + TagLength + i)) (L - TagLength) 0 := by
    unfold CombineTaggedWithField
    rw [probe_wf T L hwf hne (ord 0) (hord 0)]
    simp only [hsl, hsl2, if_false, hto]
  obtain ⟨out, u1, u2, u3⟩ := unlock_wf F T L hwf TagLength
    (fun i => ord (1 + TagLength + i)) (fun k => hord _) (L - TagLength) (by omega)
  rcases verifyTag_wf F T L hwf (fun i => ord (1 + i)) (fun k => hord _) TagLength 0
    (by omega) with ⟨g1, g2⟩ | ⟨g1, j, hj, g2⟩
  · rw [hC, g1]
    simp only [u1]
    refine ⟨⟨fun h => absurd h (by simp), ?_⟩, fun _ => ⟨out, rfl, u2, u3⟩⟩
    rintro ⟨i, hi, hi2⟩
    have := g2 i hi
    rw [Nat.zero_add] at this
    exact absurd this hi2
  · have hC2 : CombineTaggedWithField F.gf T ord = .error .tagMismatch := by
      rw [hC, g1]
    rw [Nat.zero_add] at g2
    exact ⟨⟨fun _ => ⟨j, hj, g2⟩, fun _ => hC2⟩, fun h => absurd hC2 h⟩

/-- C7 at its failing input: one share of exactly `TagLength` bytes whose first byte is 1.
Interpolating the single point (1, 1) of tag position 0 at 0 gives the non-zero byte 1,
yet `CombineTaggedWithField` returns no error (and the empty secret): the test
`secretLength == 0` returns before the tag is verified. -/
theorem tag_only_share_unchecked :
    aesField.Interpolate (samplesAt [(1, [1, 0, 0, 0, 0, 0, 0, 0])] 0) 0 = some 1 ∧
    CombineTaggedWithField aesField [(1, [1, 0, 0, 0, 0, 0, 0, 0])] (fun _ => [1]) = .ok [] := by
  decide

/-! ## The shape of the split result -/

theorem split_ok_valid {σ : Type} (fuel : Nat) (rng : Reader σ) (gf : Option GF256)
    (S : List Nat) (K N : Nat) (s s' : σ) (shares : Shares)
    (h : SplitWithField fuel rng gf S K N s = some (.ok shares, s')) :
    ∃ g, gf = some g ∧ S ≠ [] ∧ 2 ≤ K ∧ K ≤ N := by
  unfold SplitWithField allocate at h
  cases gf with
  | none => simp at h
  | some g =>
    refine ⟨g, rfl, ?_⟩
    simp only at h
    by_cases hS : S.length = 0
    · simp [hS] at h
    · by_cases hK : K < 2
      · simp [hS, hK] at h
      · by_cases hN : N < K
        · simp [hS, hK, hN] at h
        · exact ⟨fun h0 => hS (by rw [h0]; rfl), by omega, by omega⟩

theorem splitTagged_ok_valid {σ : Type} (fuel : Nat) (rng : Reader σ) (gf : Option GF256)
    (S : List Nat) (K N : Nat) (s s' : σ) (shares : Shares)
    (h : SplitTaggedWithField fuel rng gf S K N s = some (.ok shares, s')) :
    ∃ g, gf = some g ∧ S ≠ [] ∧ 2 ≤ K ∧ K ≤ N := by
  unfold SplitTaggedWithField allocate at h
  cases gf with
  | none => simp at h
  | some g =>
    refine ⟨g, rfl, ?_⟩
    simp only at h
    by_cases hS : S.length = 0
    · simp [hS] at h
    · by_cases hK : K < 2
      · simp [hS, hK] at h
      · by_cases hN : N < K
        · simp [hS, hK, hN] at h
        · exact ⟨fun h0 => hS (by rw [h0]; rfl), by omega, by omega⟩

theorem split_shape {σ : Type} (fuel : Nat) (rng : Reader σ) (gf : Option GF256)
    (S : List Nat) (K N : Nat) (hN : N ≤ 255) (s s' : σ) (shares : Shares)
    (h : SplitWithField fuel rng gf S K N s = some (.ok shares, s')) :
    shares.map Prod.fst = List.range' 1 N ∧ ∀ e ∈ shares, e.2.length = S.length := by
  obtain ⟨g, rfl, hne, hK, hKN⟩ := split_ok_valid fuel rng gf S K N s s' shares h
  obtain ⟨_, polys, hg, _, hshares⟩ := split_returns g fuel rng s s' S hne K N hK hKN hN shares h
  subst hshares
  refine ⟨?_, ?_⟩
  · rw [List.map_map]
    exact List.map_id'' (fun _ => rfl) _
  · intro e he
    obtain ⟨x, _, rfl⟩ := List.mem_map.mp he
    simp only [List.length_map]
    exact genPolys_length rng _ S s s' polys hg

/-- C8 (shape of the split result). Whenever `SplitWithField(gf, S, K, N)` returns a share
map, its keys are exactly 1, ..., `N` (each once, so `N` entries, and 0 is no key) and
every value has `len(S)` bytes; whenever `SplitTaggedWithField` returns a share map, its
keys are exactly 1, ..., `N` and every value has `TagLength + len(S) = 8 + len(S)` bytes.
In both cases all the shares have the same length. -/
theorem split_result_shape {σ : Type} (fuel : Nat) (rng : Reader σ) (gf : Option GF256)
    (S : List Nat) (K N : Nat) (hN : N ≤ 255) (s s' : σ) (shares : Shares) :
    (SplitWithField fuel rng gf S K N s = some (.ok shares, s') →
      shares.map Prod.fst = List.range' 1 N ∧ shares.length = N ∧
      (∀ x, x ∈ shares.map Prod.fst ↔ 1 ≤ x ∧ x ≤ N) ∧
      ∀ e ∈ shares, e.2.length = S.length) ∧
    (SplitTaggedWithField fuel rng gf S K N s = some (.ok shares, s') →
      shares.map Prod.fst = List.range' 1 N ∧ shares.length = N ∧
      (∀ x, x ∈ shares.map Prod.fst ↔ 1 ≤ x ∧ x ≤ N) ∧
      ∀ e ∈ shares, e.2.length = TagLength + S.length ∧ e.2.length = 8 + S.length) := by
  have hkeys : ∀ sh : Shares, sh.map Prod.fst = List.range' 1 N →
      sh.length = N ∧ ∀ x, x ∈ sh.map Prod.fst ↔ 1 ≤ x ∧ x ≤ N := by
    intro sh hsh
    refine ⟨?_, ?_⟩
    · have := congrArg List.length hsh
      simpa using this
    · intro x
      rw [hsh, List.mem_range'_1]
      omega
  constructor
  · intro h
    obtain ⟨h1, h2⟩ := split_shape fuel rng gf S K N hN s s' shares h
    exact ⟨h1, (hkeys shares h1).1, (hkeys shares h1).2, h2⟩
  · intro h
    obtain ⟨g, rfl, hne, hK, hKN⟩ := splitTagged_ok_valid fuel rng gf S K N s s' shares h
    rw [SplitTagged_eq_Split fuel rng (some g) S K N s hne] at h
    obtain ⟨h1, h2⟩ := split_shape fuel rng (some g) _ K N hN s s' shares h
    refine ⟨h1, (hkeys shares h1).1, (hkeys shares h1).2, ?_⟩
    intro e he
    have := h2 e he
    simp only [List.length_append, List.length_replicate] at this
    exact ⟨this, this⟩

/-- Witness of C8: the 2-of-3 split of "HE" and the tagged 2-of-3 split of the byte 72. -/
theorem split_result_shape_witness :
    (([(1, [73, 71]), (2, [74, 65]), (3, [75, 67])] : Shares).map Prod.fst = List.range' 1 3 ∧
      ([(1, [73, 71]), (2, [74, 65]), (3, [75, 67])] : Shares).length = 3 ∧
      (∀ x, x ∈ ([(1, [73, 71]), (2, [74, 65]), (3, [75, 67])] : Shares).map Prod.fst ↔
        1 ≤ x ∧ x ≤ 3) ∧
      ∀ e ∈ ([(1, [73, 71]), (2, [74, 65]), (3, [75, 67])] : Shares),
        e.2.length = [72, 69].length) ∧
    ∀ e ∈ ([(1, [1, 2, 3, 4, 5, 6, 7, 8, 65]), (2, [2, 4, 6, 8, 10, 12, 14, 16, 90]),
        (3, [3, 6, 5, 12, 15, 10, 9, 24, 83])] : Shares),
      e.2.length = TagLength + [72].length ∧ e.2.length = 8 + [72].length :=
  ⟨(split_result_shape 4 listReader (some aesField) [72, 69] 2 3 (by decide) [1, 2] []
      [(1, [73, 71]), (2, [74, 65]), (3, [75, 67])]).1 (by decide),
    ((split_result_shape 4 listReader (some aesField) [72] 2 3 (by decide)
      [1, 2, 3, 4, 5, 6, 7, 8, 9] []
      [(1, [1, 2, 3, 4, 5, 6, 7, 8, 65]), (2, [2, 4, 6, 8, 10, 12, 14, 16, 90]),
        (3, [3, 6, 5, 12, 15, 10, 9, 24, 83])]).2 (by decide)).2.2.2⟩

/-! ## A corrupted share byte -/

theorem add_self_elt (F : VField) (a : Elt F) : a + a = 0 :=
  Elt.toNat_inj (by rw [Elt.toNat_add, Nat.xor_self]; rfl)

/-- The Lagrange weight at 0 of a node is not zero when all the nodes are nonzero. -/
theorem basis_eval_zero_ne (F : VField) (keys : List Nat) (hk : ∀ x ∈ keys, 0 < x ∧ x < 256)
    (x0 : Nat) (hx0 : x0 ∈ keys) :
    (Lagrange.basis keys.toFinset (fun k : Nat => Elt.ofNat F k) x0).eval 0 ≠ 0 := by
  rw [Lagrange.basis, Polynomial.eval_prod, Finset.prod_ne_zero_iff]
  intro j hj
  obtain ⟨hjne, hjm⟩ := Finset.mem_erase.mp hj
  have hjk := hk j (List.mem_toFinset.mp hjm)
  have h0k := hk x0 hx0
  simp only [Lagrange.basisDivisor, Polynomial.eval_mul, Polynomial.eval_C,
    Polynomial.eval_sub, Polynomial.eval_X]
  refine mul_ne_zero (inv_ne_zero (sub_ne_zero.mpr ?_)) (sub_ne_zero.mpr ?_)
  · intro h
    exact hjne (Elt.ofNat_inj hjk.2 h0k.2 h.symm)
  · intro h
    have := Elt.ofNat_inj (show (0 : Nat) < 256 by omega) hjk.2 h
    omega

/-- Interpolating the values of a polynomial, one of which was replaced by another byte,
does not give back the constant coefficient. -/
theorem Interpolate_perturbed (F : VField) (c0 : Nat) (rest : List Nat) (hc0 : c0 < 256)
    (hrest : ∀ c ∈ rest, c < 256) (keys : List Nat) (hk : ∀ x ∈ keys, 0 < x ∧ x < 256)
    (hnd : keys.Nodup) (hlen : rest.length + 1 ≤ keys.length) (x0 : Nat) (hx0 : x0 ∈ keys)
    (b' : Nat) (hb' : b' < 256) (hne : b' ≠ F.gf.Evaluate (c0 :: rest) x0) :
    ∃ b, b < 256 ∧ b ≠ c0 ∧ F.gf.Interpolate (keys.map (fun k =>
      (⟨k, if k = x0 then b' else F.gf.Evaluate (c0 :: rest) k⟩ : Point))) 0 = some b := by
  have hcs : ∀ c ∈ c0 :: rest, c < 256 := by
    intro c hc
    rcases List.mem_cons.mp hc with h | h
    · rw [h]; exact hc0
    · exact hrest c h
  obtain ⟨f, hdeg, hcoeff, heval⟩ := Evaluate_poly F (c0 :: rest) hcs
  have hkb : ∀ k ∈ keys, k < 256 := fun k h => (hk k h).2
  have hgb : ∀ k ∈ keys, (if k = x0 then b' else F.gf.Evaluate (c0 :: rest) k) < 256 := by
    intro k hkm
    split
    · exact hb'
    · exact (heval k (hkb k hkm)).1
  refine ⟨_, Elt.toNat_lt _, ?_, Interpolate_keys F keys _ 0 (by omega) hkb hgb hnd⟩
  have hinj : Set.InjOn (fun k : Nat => Elt.ofNat F k) (keys.toFinset : Finset Nat) := by
    intro a ha b hb hab
    exact Elt.ofNat_inj (hkb a (List.mem_toFinset.mp ha)) (hkb b (List.mem_toFinset.mp hb)) hab
  have hcard : (keys.toFinset : Finset Nat).card = keys.length :=
    List.toFinset_card_of_nodup hnd
  have hx0b := hkb x0 hx0
  have hf : Lagrange.interpolate keys.toFinset (fun k : Nat => Elt.ofNat F k)
      (fun k : Nat => f.eval (Elt.ofNat F k)) = f :=
    (Lagrange.eq_interpolate hinj (by
      rw [hcard]
      refine lt_of_lt_of_le hdeg ?_
      simp only [List.length_cons]
      exact_mod_cast hlen)).symm
  -- the replaced values are the values of the polynomial plus a bump at `x0`
  have hsum : Lagrange.interpolate keys.toFinset (fun k : Nat => Elt.ofNat F k)
        (fun k : Nat => Elt.ofNat F (if k = x0 then b' else F.gf.Evaluate (c0 :: rest) k)) =
      Lagrange.interpolate keys.toFinset (fun k : Nat => Elt.ofNat F k)
        (fun k : Nat => f.eval (Elt.ofNat F k)) +
      Lagrange.interpolate keys.toFinset (fun k : Nat => Elt.ofNat F k)
        (fun k : Nat => if k = x0 then Elt.ofNat F b' + f.eval (Elt.ofNat F x0) else 0) := by
    rw [← map_add]
    apply Lagrange.interpolate_eq_of_values_eq_on
    intro k hkm
    have hkm2 := hkb k (List.mem_toFinset.mp hkm)
    simp only [Pi.add_apply]
    by_cases hkx : k = x0
    · subst hkx
      rw [if_pos rfl, if_pos rfl, add_comm (Elt.ofNat F b'), ← add_assoc, add_self_elt, zero_add]
    · rw [if_neg hkx, if_neg hkx, add_zero, (heval k hkm2).2]
  rw [hf] at hsum
  have hbump : (Lagrange.interpolate keys.toFinset (fun k : Nat => Elt.ofNat F k)
        (fun k : Nat => if k = x0 then Elt.ofNat F b' + f.eval (Elt.ofNat F x0) else 0)).eval 0 =
      (Elt.ofNat F b' + f.eval (Elt.ofNat F x0)) *
        (Lagrange.basis keys.toFinset (fun k : Nat => Elt.ofNat F k) x0).eval 0 := by
    rw [Lagrange.interpolate_apply, Polynomial.eval_finset_sum,
      Finset.sum_eq_single x0]
    · simp
    · intro k _ hkx
      simp [hkx]
    · intro h
      exact absurd (List.mem_toFinset.mpr hx0) h
  have hdelta : Elt.ofNat F b' + f.eval (Elt.ofNat F x0) ≠ 0 := by
    intro h
    apply hne
    have h2 : Elt.ofNat F b' = f.eval (Elt.ofNat F x0) := by
      have := congrArg (fun e => e + f.eval (Elt.ofNat F x0)) h
      simp only [add_assoc, add_self_elt, add_zero, zero_add] at this
      exact this
    rw [← (heval x0 hx0b).2] at h2
    exact Elt.ofNat_inj hb' (heval x0 hx0b).1 h2
  have hf0 : f.eval 0 = Elt.ofNat F c0 := by
    have := hcoeff 0
    rw [Polynomial.coeff_zero_eq_eval_zero] at this
    exact this
  intro hres
  have hres2 := congrArg (Elt.ofNat F) hres
  rw [Elt.ofNat_toNat, show Elt.ofNat F 0 = 0 from rfl, hsum, Polynomial.eval_add, hbump,
    hf0] at hres2
  have hz : (Elt.ofNat F b' + f.eval (Elt.ofNat F x0)) *
      (Lagrange.basis keys.toFinset (fun k : Nat => Elt.ofNat F k) x0).eval 0 = 0 := by
    have := congrArg (fun e => Elt.ofNat F c0 + e) hres2
    simp only [← add_assoc, add_self_elt, zero_add] at this
    exact this
  rcases mul_eq_zero.mp hz with h | h
  · exact hdelta h
  · exact basis_eval_zero_ne F keys hk x0 hx0 h

theorem corrupt_keys (T : Shares) (x0 p b' : Nat) :
    (corrupt T x0 p b').map Prod.fst = T.map Prod.fst := by
  unfold corrupt
  rw [List.map_map]
  apply List.map_congr_left
  intro e _
  simp only [Function.comp]
  split <;> rfl

theorem corrupt_wf (T : Shares) (L : Nat) (hwf : WellFormed T L) (x0 p b' : Nat)
    (hb' : b' < 256) : WellFormed (corrupt T x0 p b') L := by
  refine ⟨by rw [corrupt_keys]; exact hwf.1, ?_⟩
  intro e he
  obtain ⟨e0, he0, rfl⟩ := List.mem_map.mp he
  obtain ⟨h1, h2, h3⟩ := hwf.2 e0 he0
  split
  · refine ⟨h1, by simp only [List.length_set]; exact h2, ?_⟩
    intro b hb
    rcases List.mem_or_eq_of_mem_set hb with h | h
    · exact h3 b h
    · rw [h]; exact hb'
  · exact ⟨h1, h2, h3⟩

theorem polys_bytes (degree : Nat) (bs : List Nat) (polys : List (List Nat))
    (hbs : ∀ b ∈ bs, b < 256) (hpolys : List.Forall₂ (IsPoly degree) bs polys) :
    ∀ cs ∈ polys, ∀ c ∈ cs, c < 256 := by
  intro cs hcs c hc
  obtain ⟨j, hj, rfl⟩ := List.mem_iff_getElem.mp hcs
  have hjb : j < bs.length := by rw [hpolys.length_eq]; exact hj
  obtain ⟨rest, hr1, _, hr3⟩ : IsPoly degree bs[j] polys[j] :=
    (List.forall₂_iff_get.mp hpolys).2 j hjb hj
  rw [hr1] at hc
  rcases List.mem_cons.mp hc with h | h
  · rw [h]; exact hbs _ (List.getElem_mem _)
  · exact hr3 c h

theorem consistent_wf (F : VField) (polys : List (List Nat))
    (hpb : ∀ cs ∈ polys, ∀ c ∈ cs, c < 256) (T : Shares) (hnd : (T.map Prod.fst).Nodup)
    (hT : ConsistentWith F.gf polys T) : WellFormed T polys.length := by
  refine ⟨hnd, ?_⟩
  intro e he
  obtain ⟨_, h1, h2⟩ := hT e he
  refine ⟨h1, by rw [h2, List.length_map], ?_⟩
  intro b hb
  rw [h2] at hb
  obtain ⟨cs, hcs, rfl⟩ := List.mem_map.mp hb
  obtain ⟨f, _, _, heval⟩ := Evaluate_poly F cs (hpb cs hcs)
  exact (heval e.1 h1).1

theorem samplesAt_corrupt (gf : GF256) (polys : List (List Nat)) (T : Shares)
    (hT : ConsistentWith gf polys T) (x0 p b' : Nat) (cs : List Nat)
    (hp : polys[p]? = some cs) :
    samplesAt (corrupt T x0 p b') p = (T.map Prod.fst).map (fun k =>
      (⟨k, if k = x0 then b' else gf.Evaluate cs k⟩ : Point)) := by
  have hpl : p < polys.length := (List.getElem?_eq_some_iff.mp hp).1
  unfold samplesAt corrupt
  rw [List.map_map, List.map_map]
  apply List.map_congr_left
  intro e he
  obtain ⟨_, _, h2⟩ := hT e he
  simp only [Function.comp]
  by_cases hx : e.1 = x0
  · rw [if_pos hx, if_pos hx]
    simp only [Point.mk.injEq, true_and]
    rw [List.getD_eq_getElem _ _ (by rw [List.length_set, h2, List.length_map]; exact hpl)]
    simp
  · rw [if_neg hx, if_neg hx]
    simp only [Point.mk.injEq, true_and]
    rw [h2, List.getD_eq_getElem?_getD, List.getElem?_map, hp]
    rfl

theorem col_consistent (gf : GF256) (polys : List (List Nat)) (T : Shares)
    (hnd : (T.map Prod.fst).Nodup) (hT : ConsistentWith gf polys T) (x p : Nat)
    (hx : x ∈ T.map Prod.fst) (cs : List Nat) (hp : polys[p]? = some cs) :
    col T p x = gf.Evaluate cs x := by
  unfold col
  rw [(lookup_consistent gf polys T hnd hT x hx).1, Option.getD_some,
    List.getD_eq_getElem?_getD, List.getElem?_map, hp]
  rfl

/-- C6 as amended (a corrupted tag byte is reported). For a field built by `New256`, a
non-empty secret of bytes, `2 ≤ K ≤ N ≤ 255`, whatever the entropy source delivers: when
`SplitTaggedWithField` returns a share map and `T` keeps at least `K` of its entries,
replacing the byte at a tag position `p < TagLength` of one share of `T` by a different
byte makes `CombineTaggedWithField` return the error "tag mismatch", whatever the orders
of enumeration. -/
theorem tag_corruption_detected {σ : Type} (poly gen : Nat) (gf : GF256)
    (hgf : New256 poly gen = some gf) (fuel : Nat) (rng : Reader σ) (s s' : σ)
    (S : List Nat) (hS : ∀ b ∈ S, b < 256) (hne : S ≠ []) (K N : Nat) (hK : 2 ≤ K)
    (hKN : K ≤ N) (hN : N ≤ 255) (shares : Shares)
    (hsplit : SplitTaggedWithField fuel rng (some gf) S K N s = some (.ok shares, s'))
    (T : Shares) (hTnd : (T.map Prod.fst).Nodup) (hTsub : ∀ e ∈ T, e ∈ shares)
    (hTlen : K ≤ T.length) (x0 : Nat) (hx0 : x0 ∈ T.map Prod.fst) (p : Nat)
    (hp : p < TagLength) (b' : Nat) (hb' : b' < 256) (hdiff : b' ≠ col T p x0)
    (ord : Nat → List Nat) (hord : ∀ k, (ord k).Perm ((corrupt T x0 p b').map Prod.fst)) :
    CombineTaggedWithField gf (corrupt T x0 p b') ord = .error .tagMismatch := by
  rw [SplitTagged_eq_Split fuel rng (some gf) S K N s hne] at hsplit
  obtain ⟨hN2, polys, _, hpolys, hshares⟩ :=
    split_returns gf fuel rng s s' (List.replicate TagLength 0 ++ S) (by simp [TagLength])
      K N hK hKN hN shares hsplit
  subst hshares
  have hT := consistent_of_subset gf polys N hN2 T hTsub
  have hbs : ∀ b ∈ List.replicate TagLength 0 ++ S, b < 256 := by
    intro b hb
    rcases List.mem_append.mp hb with h | h
    · rw [(List.mem_replicate.mp h).2]; omega
    · exact hS b h
  have hpl : polys.length = TagLength + S.length := by
    rw [← hpolys.length_eq, List.length_append, List.length_replicate]
  have hSl : S.length ≠ 0 := fun h => hne (List.length_eq_zero.mp h)
  have hwf := consistent_wf ⟨gf, New256_valid poly gen gf hgf⟩ polys
    (polys_bytes (K - 1) _ polys hbs hpolys) T hTnd hT
  have hTne : corrupt T x0 p b' ≠ [] := by
    intro h
    have := congrArg List.length h
    simp only [corrupt, List.length_map, List.length_nil] at this
    omega
  have hiff := (tag_mismatch_iff_payload ⟨gf, New256_valid poly gen gf hgf⟩ (corrupt T x0 p b')
    polys.length (corrupt_wf T _ hwf x0 p b' hb') hTne (by omega) ord hord).1
  apply hiff.mpr
  refine ⟨p, hp, ?_⟩
  -- the polynomial of tag position `p` has the intercept 0
  have hpp : p < polys.length := by omega
  have hpz : p < (List.replicate TagLength 0 ++ S).length := by rw [hpolys.length_eq]; exact hpp
  obtain ⟨rest, hcs, hrl, hrb⟩ : IsPoly (K - 1) (List.replicate TagLength 0 ++ S)[p] polys[p] :=
    (List.forall₂_iff_get.mp hpolys).2 p hpz hpp
  have hz : (List.replicate TagLength 0 ++ S)[p] = 0 := by
    rw [List.getElem_append_left (by simpa using hp), List.getElem_replicate]
  rw [hz] at hcs
  have hget : polys[p]? = some (0 :: rest) := by rw [List.getElem?_eq_getElem hpp, hcs]
  rw [samplesAt_corrupt gf polys T hT x0 p b' (0 :: rest) hget]
  rw [col_consistent gf polys T hTnd hT x0 p hx0 (0 :: rest) hget] at hdiff
  obtain ⟨b, _, hb0, hI⟩ := Interpolate_perturbed ⟨gf, New256_valid poly gen gf hgf⟩ 0 rest
    (by omega) hrb (T.map Prod.fst)
    (fun x hx => ⟨(lookup_consistent gf polys T hTnd hT x hx).2.1,
      (lookup_consistent gf polys T hTnd hT x hx).2.2⟩)
    hTnd (by rw [hrl, List.length_map]; omega) x0 hx0 b' hb' hdiff
  rw [hI]
  simpa using hb0

/-- Counterexample to C6 as stated: in the tagged 2-of-3 split of the byte 72 (the source
delivering 1, ..., 9), replacing the payload byte 90 at position 8 of share 2 by 91 and
combining the shares 2 and 3 gives no tag mismatch: the call returns the byte 75 as the
secret. -/
theorem payload_corruption_undetected :
    SplitTaggedWithField 4 listReader (some aesField) [72] 2 3 [1, 2, 3, 4, 5, 6, 7, 8, 9] =
        some (.ok [(1, [1, 2, 3, 4, 5, 6, 7, 8, 65]), (2, [2, 4, 6, 8, 10, 12, 14, 16, 90]),
          (3, [3, 6, 5, 12, 15, 10, 9, 24, 83])], []) ∧
      corrupt [(2, [2, 4, 6, 8, 10, 12, 14, 16, 90]), (3, [3, 6, 5, 12, 15, 10, 9, 24, 83])]
          2 8 91 =
        [(2, [2, 4, 6, 8, 10, 12, 14, 16, 91]), (3, [3, 6, 5, 12, 15, 10, 9, 24, 83])] ∧
      CombineTaggedWithField aesField
          (corrupt [(2, [2, 4, 6, 8, 10, 12, 14, 16, 90]),
            (3, [3, 6, 5, 12, 15, 10, 9, 24, 83])] 2 8 91) (fun _ => [2, 3]) = .ok [75] ∧
      CombineTaggedWithField aesField
          (corrupt [(2, [2, 4, 6, 8, 10, 12, 14, 16, 90]),
            (3, [3, 6, 5, 12, 15, 10, 9, 24, 83])] 2 8 91) (fun _ => [2, 3]) ≠
        .error .tagMismatch := by
  decide

/-- Witness of the amended C6: in the same split, the tag byte 10 at position 5 of share 3
is replaced by 11; combining the shares 2 and 3 reports the tag mismatch. -/
theorem tag_corruption_detected_witness :
    CombineTaggedWithField aesField
        (corrupt [(2, [2, 4, 6, 8, 10, 12, 14, 16, 90]), (3, [3, 6, 5, 12, 15, 10, 9, 24, 83])]
          3 5 11) (fun _ => [2, 3]) = .error .tagMismatch :=
  tag_corruption_detected PolyAES GenAES aesField New256_aes 4 listReader
    [1, 2, 3, 4, 5, 6, 7, 8, 9] [] [72] (by decide) (by decide) 2 3 (by decide) (by decide)
    (by decide)
    [(1, [1, 2, 3, 4, 5, 6, 7, 8, 65]), (2, [2, 4, 6, 8, 10, 12, 14, 16, 90]),
      (3, [3, 6, 5, 12, 15, 10, 9, 24, 83])] (by decide)
    [(2, [2, 4, 6, 8, 10, 12, 14, 16, 90]), (3, [3, 6, 5, 12, 15, 10, 9, 24, 83])]
    (by decide) (by decide) (by decide) 3 (by decide) 5 (by decide) 11 (by decide) (by decide)
    (fun _ => [2, 3]) (fun _ => (by decide : List.Perm [2, 3] [2, 3]))

/-! ## One share too few -/

/-- Interpolating at 0 the values of a polynomial at one abscissa fewer than it has
coefficients gives back the constant coefficient exactly when the leading coefficient
is 0. -/
theorem Interpolate_short (F : VField) (c0 : Nat) (rest : List Nat) (hc0 : c0 < 256)
    (hrest : ∀ c ∈ rest, c < 256) (keys : List Nat) (hk : ∀ x ∈ keys, 0 < x ∧ x < 256)
    (hnd : keys.Nodup) (hlen : keys.length = rest.length) :
    ∃ b, b < 256 ∧
      F.gf.Interpolate (keys.map (fun k => (⟨k, F.gf.Evaluate (c0 :: rest) k⟩ : Point))) 0 =
        some b ∧
      (b ≠ c0 ↔ (c0 :: rest).getD rest.length 0 ≠ 0) := by
  have hcs : ∀ c ∈ c0 :: rest, c < 256 := by
    intro c hc
    rcases List.mem_cons.mp hc with h | h
    · rw [h]; exact hc0
    · exact hrest c h
  obtain ⟨f, hdeg, hcoeff, heval⟩ := Evaluate_poly F (c0 :: rest) hcs
  have hkb : ∀ k ∈ keys, k < 256 := fun k h => (hk k h).2
  refine ⟨_, Elt.toNat_lt _, Interpolate_keys F keys _ 0 (by omega) hkb
    (fun k hkm => (heval k (hkb k hkm)).1) hnd, ?_⟩
  have hinj : Set.InjOn (fun k : Nat => Elt.ofNat F k) (keys.toFinset : Finset Nat) := by
    intro a ha b hb hab
    exact Elt.ofNat_inj (hkb a (List.mem_toFinset.mp ha)) (hkb b (List.mem_toFinset.mp hb)) hab
  have hcard : (keys.toFinset : Finset Nat).card = rest.length := by
    rw [List.toFinset_card_of_nodup hnd, hlen]
  have hq : Lagrange.interpolate keys.toFinset (fun k : Nat => Elt.ofNat F k)
        (fun k : Nat => Elt.ofNat F (F.gf.Evaluate (c0 :: rest) k)) =
      Lagrange.interpolate keys.toFinset (fun k : Nat => Elt.ofNat F k)
        (fun k : Nat => f.eval (Elt.ofNat F k)) :=
    Lagrange.interpolate_eq_of_values_eq_on _ _
      (fun k hkm => (heval k (hkb k (List.mem_toFinset.mp hkm))).2)
  rw [hq]
  -- the difference with the interpolant is the leading coefficient times the nodal polynomial
  have hdecomp : f - Lagrange.interpolate keys.toFinset (fun k : Nat => Elt.ofNat F k)
        (fun k : Nat => f.eval (Elt.ofNat F k)) -
      C (f.coeff rest.length) * Lagrange.nodal keys.toFinset (fun k : Nat => Elt.ofNat F k) = 0 := by
    apply Polynomial.eq_zero_of_degree_lt_of_eval_index_eq_zero keys.toFinset hinj
    · rw [hcard, Polynomial.degree_lt_iff_coeff_zero]
      intro m hm
      have hqm : (Lagrange.interpolate keys.toFinset (fun k : Nat => Elt.ofNat F k)
          (fun k : Nat => f.eval (Elt.ofNat F k))).coeff m = 0 := by
        apply Polynomial.coeff_eq_zero_of_degree_lt
        refine lt_of_lt_of_le (Lagrange.degree_interpolate_lt _ hinj) ?_
        rw [hcard]
        exact_mod_cast hm
      rw [Polynomial.coeff_sub, Polynomial.coeff_sub, hqm, Polynomial.coeff_C_mul, sub_zero]
      rcases Nat.eq_or_lt_of_le hm with h | h
      · subst h
        have := (Lagrange.nodal_monic (s := keys.toFinset)
          (v := fun k : Nat => Elt.ofNat F k)).coeff_natDegree
        rw [Lagrange.natDegree_nodal, hcard] at this
        rw [this, mul_one, sub_self]
      · have h1 : f.coeff m = 0 := by
          apply Polynomial.coeff_eq_zero_of_degree_lt
          refine lt_of_lt_of_le hdeg ?_
          simp only [List.length_cons]
          exact_mod_cast h
        have h2 : (Lagrange.nodal keys.toFinset (fun k : Nat => Elt.ofNat F k)).coeff m = 0 := by
          apply Polynomial.coeff_eq_zero_of_natDegree_lt
          rw [Lagrange.natDegree_nodal, hcard]
          exact h
        rw [h1, h2, mul_zero, sub_zero]
    · intro k hkm
      rw [Polynomial.eval_sub, Polynomial.eval_sub, Polynomial.eval_mul,
        Lagrange.eval_nodal_at_node hkm,
        Lagrange.eval_interpolate_at_node (fun k : Nat => f.eval (Elt.ofNat F k)) hinj hkm,
        sub_self, mul_zero, sub_zero]
  have hev := congrArg (Polynomial.eval (0 : Elt F)) hdecomp
  rw [Polynomial.eval_sub, Polynomial.eval_sub, Polynomial.eval_mul, Polynomial.eval_C,
    Polynomial.eval_zero] at hev
  have hf0 : f.eval 0 = Elt.ofNat F c0 := by
    have := hcoeff 0
    rw [Polynomial.coeff_zero_eq_eval_zero] at this
    exact this
  have hnod : (Lagrange.nodal keys.toFinset (fun k : Nat => Elt.ofNat F k)).eval 0 ≠ 0 := by
    rw [Lagrange.eval_nodal, Finset.prod_ne_zero_iff]
    intro k hkm
    have hkk := hk k (List.mem_toFinset.mp hkm)
    intro h
    have h2 : Elt.ofNat F 0 = Elt.ofNat F k := sub_eq_zero.mp h
    have := Elt.ofNat_inj (show (0 : Nat) < 256 by omega) hkk.2 h2
    omega
  have hlc : f.coeff rest.length = Elt.ofNat F ((c0 :: rest).getD rest.length 0) :=
    hcoeff rest.length
  have hgb : (c0 :: rest).getD rest.length 0 < 256 := by
    by_cases h : rest.length < (c0 :: rest).length
    · rw [List.getD_eq_getElem _ _ h]
      exact hcs _ (List.getElem_mem _)
    · simp at h
  rw [show Elt.ofNat F 0 = 0 from rfl]
  constructor
  · intro hb hz
    apply hb
    rw [hlc, hz, show Elt.ofNat F 0 = 0 from rfl, zero_mul, sub_zero, hf0] at hev
    have h3 : Elt.ofNat F c0 = Polynomial.eval 0 (Lagrange.interpolate keys.toFinset
        (fun k : Nat => Elt.ofNat F k) (fun k : Nat => f.eval (Elt.ofNat F k))) :=
      sub_eq_zero.mp hev
    rw [← h3, Elt.toNat_ofNat _ hc0]
  · intro hz hb
    have h4 : Polynomial.eval 0 (Lagrange.interpolate keys.toFinset
        (fun k : Nat => Elt.ofNat F k) (fun k : Nat => f.eval (Elt.ofNat F k))) =
        Elt.ofNat F c0 := by
      rw [← hb, Elt.ofNat_toNat]
    rw [h4, hf0, sub_self, zero_sub, neg_eq_zero] at hev
    rcases mul_eq_zero.mp hev with h | h
    · rw [hlc] at h
      exact hz (Elt.ofNat_inj hgb (by omega) h)
    · exact hnod h

theorem samplesAt_consistent (gf : GF256) (polys : List (List Nat)) (T : Shares)
    (hT : ConsistentWith gf polys T) (i : Nat) (cs : List Nat) (hi : polys[i]? = some cs) :
    samplesAt T i = (T.map Prod.fst).map (fun k => (⟨k, gf.Evaluate cs k⟩ : Point)) := by
  unfold samplesAt
  rw [List.map_map]
  apply List.map_congr_left
  intro e he
  obtain ⟨_, _, h2⟩ := hT e he
  simp only [Function.comp, Point.mk.injEq, true_and]
  rw [h2, List.getD_eq_getElem?_getD, List.getElem?_map, hi]
  rfl

/-- The untagged combine on a non-empty well-formed map: it returns the values
interpolated at each position. -/
theorem Combine_wf (F : VField) (T : Shares) (L : Nat) (hwf : WellFormed T L) (hne : T ≠ [])
    (ord : Nat → List Nat) (hord : ∀ k, (ord k).Perm (T.map Prod.fst)) :
    ∃ out, CombineWithField F.gf T ord = .ok out ∧ out.length = L ∧
      ∀ i (hi : i < out.length), F.gf.Interpolate (samplesAt T i) 0 = some out[i] := by
  unfold CombineWithField
  rw [probe_wf T L hwf hne (ord 0) (hord 0), Option.getD_some]
  by_cases hL : L = 0
  · subst hL
    exact ⟨[], by simp, by simp, by simp⟩
  · rw [if_neg hL]
    obtain ⟨out, h1, h2, h3⟩ := unlock_wf F T L hwf 0
      (fun i => ord (i + 1)) (fun k => hord (k + 1)) L (by omega)
    exact ⟨out, h1, h2, fun i hi => by simpa using h3 i hi⟩

/-- C9 (insufficiency is silent, and wrong exactly in the non-degenerate case). For a field
built by `New256`, a non-empty secret `S` of bytes, `3 ≤ K ≤ N ≤ 255`, whatever the entropy
source delivers: when `SplitWithField` returns a share map built from the polynomials
`polys`, `CombineWithField` on any `K - 1` of its entries raises no error and returns
`len(S)` bytes, of which byte `i` differs from `S[i]` exactly when the leading coefficient
(index `K - 1`) of the `i`-th polynomial is not 0; so the result differs from `S` as soon
as one leading coefficient is not 0. -/
theorem insufficient_shares_silent {σ : Type} (poly gen : Nat) (gf : GF256)
    (hgf : New256 poly gen = some gf) (fuel : Nat) (rng : Reader σ) (s s' : σ)
    (S : List Nat) (hS : ∀ b ∈ S, b < 256) (hne : S ≠ []) (K N : Nat) (hK : 3 ≤ K)
    (hKN : K ≤ N) (hN : N ≤ 255) (shares : Shares)
    (hsplit : SplitWithField fuel rng (some gf) S K N s = some (.ok shares, s'))
    (polys : List (List Nat)) (hgen : genPolys rng (K - 1) S s = (.ok polys, s'))
    (T : Shares) (hTnd : (T.map Prod.fst).Nodup) (hTsub : ∀ e ∈ T, e ∈ shares)
    (hTlen : T.length = K - 1) (ord : Nat → List Nat)
    (hord : ∀ k, (ord k).Perm (T.map Prod.fst)) :
    ∃ out, CombineWithField gf T ord = .ok out ∧ out.length = S.length ∧
      (∀ i (h1 : i < out.length) (h2 : i < S.length) (h3 : i < polys.length),
        (out[i] ≠ S[i] ↔ polys[i].getD (K - 1) 0 ≠ 0)) ∧
      ((∃ i, ∃ h3 : i < polys.length, polys[i].getD (K - 1) 0 ≠ 0) → out ≠ S) := by
  obtain ⟨hN2, polys2, hgen2, hpolys, hshares⟩ :=
    split_returns gf fuel rng s s' S hne K N (by omega) hKN hN shares hsplit
  rw [hgen] at hgen2
  simp only [Prod.mk.injEq, Except.ok.injEq, and_true] at hgen2
  subst hgen2
  subst hshares
  have hT := consistent_of_subset gf polys N hN2 T hTsub
  have hpl : polys.length = S.length := hpolys.length_eq.symm
  have hwf := consistent_wf ⟨gf, New256_valid poly gen gf hgf⟩ polys
    (polys_bytes (K - 1) S polys hS hpolys) T hTnd hT
  have hTne : T ≠ [] := by
    intro h
    rw [h] at hTlen
    simp only [List.length_nil] at hTlen
    omega
  obtain ⟨out, hout, holen, hoval⟩ := Combine_wf ⟨gf, New256_valid poly gen gf hgf⟩ T
    polys.length hwf hTne ord hord
  have hkey : ∀ i (h1 : i < out.length) (h2 : i < S.length) (h3 : i < polys.length),
      (out[i] ≠ S[i] ↔ polys[i].getD (K - 1) 0 ≠ 0) := by
    intro i h1 h2 h3
    obtain ⟨rest, hcs, hrl, hrb⟩ : IsPoly (K - 1) S[i] polys[i] :=
      (List.forall₂_iff_get.mp hpolys).2 i h2 h3
    have hval := hoval i h1
    rw [samplesAt_consistent gf polys T hT i (S[i] :: rest)
      (by rw [List.getElem?_eq_getElem h3, hcs])] at hval
    obtain ⟨b, _, hI, hiff⟩ := Interpolate_short ⟨gf, New256_valid poly gen gf hgf⟩ S[i] rest
      (hS _ (List.getElem_mem _)) hrb (T.map Prod.fst)
      (fun x hx => ⟨(lookup_consistent gf polys T hTnd hT x hx).2.1,
        (lookup_consistent gf polys T hTnd hT x hx).2.2⟩)
      hTnd (by rw [List.length_map, hTlen, hrl])
    have hb : out[i] = b := by
      have := hval.symm.trans hI
      simpa using this
    rw [hb, hcs, ← hrl]
    exact hiff
  refine ⟨out, hout, by rw [holen, hpl], hkey, ?_⟩
  rintro ⟨i, h3, hlead⟩ heq
  have h1 : i < out.length := by rw [holen]; exact h3
  have h2 : i < S.length := by rw [← hpl]; exact h3
  have := (hkey i h1 h2 h3).mpr hlead
  apply this
  subst heq
  rfl

/-- Witness of C9: the byte 72 split 3-of-3 with the coefficients 1 and 2 (leading
coefficient 2), combined from the two shares 1 and 3. -/
theorem insufficient_shares_silent_witness :
    ∃ out, CombineWithField aesField [(1, [75]), (3, [65])] (fun _ => [3, 1]) = .ok out ∧
      out.length = [72].length ∧
      (∀ i (h1 : i < out.length) (h2 : i < [72].length) (h3 : i < [[72, 1, 2]].length),
        (out[i] ≠ [72][i] ↔ [[72, 1, 2]][i].getD (3 - 1) 0 ≠ 0)) ∧
      ((∃ i, ∃ h3 : i < [[72, 1, 2]].length, [[72, 1, 2]][i].getD (3 - 1) 0 ≠ 0) →
        out ≠ [72]) :=
  insufficient_shares_silent PolyAES GenAES aesField New256_aes 4 listReader [1, 2] [] [72]
    (by decide) (by decide) 3 3 (by decide) (by decide) (by decide)
    [(1, [75]), (2, [66]), (3, [65])] (by decide) [[72, 1, 2]] (by decide)
    [(1, [75]), (3, [65])] (by decide) (by decide) (by decide) (fun _ => [3, 1])
    (fun _ => (by decide : List.Perm [3, 1] [1, 3]))

/-- Concrete run for `split_succeeds_below_255`: the 2-of-3 splits of "HE" over the default
field from a source that reports no error. -/
theorem split_succeeds_below_255_witness :
    (∃ shares s', SplitWithField 4 listReader (some aesField) [72, 69] 2 3 [1, 2] =
        some (.ok shares, s')) ∧
    ∃ shares s', SplitTaggedWithField 4 listReader (some aesField) [72, 69] 2 3 [1, 2] =
        some (.ok shares, s') :=
  split_succeeds_below_255 4 listReader (fun _ _ => rfl) aesField [72, 69] 2 3 [1, 2]
    (by decide) (by decide) (by decide) (by decide) (by decide)

/-! ## The polynomial generator -/

theorem fillBuffer_full (len : Nat) (data : List Nat) (hl : data.length = len)
    (hb : ∀ b ∈ data, b < 256) : fillBuffer len data = data := by
  unfold fillBuffer
  rw [← hl, List.take_length, Nat.sub_self, List.replicate_zero, List.append_nil]
  have hm : data.map (· % 256) = data.map id :=
    List.map_congr_left (fun c hc => Nat.mod_eq_of_lt (hb c hc))
  rw [hm, List.map_id]

/-- C19 (shape of a generated polynomial). For every intercept, every degree `d ≤ 254` and
every entropy source whose `Read` of `d` bytes reports no error and fills the buffer with
`d` bytes: `makePolynomial` returns exactly `d + 1` coefficients, the intercept first and
then the `d` bytes delivered by the source, in order, and leaves the source in the state
after this one `Read`. -/
theorem makePolynomial_shape {σ : Type} (rng : Reader σ) (s : σ) (intercept d : Nat)
    (hd : d ≤ 254) (herr : (rng.Read s d).1.err = false)
    (hlen : (rng.Read s d).1.data.length = d) (hb : ∀ b ∈ (rng.Read s d).1.data, b < 256) :
    makePolynomial rng s intercept d = (.ok (intercept :: (rng.Read s d).1.data), (rng.Read s d).2) ∧
      (intercept :: (rng.Read s d).1.data).length = d + 1 ∧
      (intercept :: (rng.Read s d).1.data)[0]? = some intercept ∧
      ∀ j, j < d → (intercept :: (rng.Read s d).1.data)[j + 1]? = (rng.Read s d).1.data[j]? := by
  have hl : (d + 1) % 256 = d + 1 := Nat.mod_eq_of_lt (by omega)
  refine ⟨?_, by rw [List.length_cons, hlen], List.getElem?_cons_zero,
    fun j _ => List.getElem?_cons_succ⟩
  unfold makePolynomial
  simp only [hl, Nat.add_sub_cancel, Nat.succ_ne_zero, if_false, herr, Bool.false_eq_true,
    fillBuffer_full d _ hlen hb]

/-- Witness of C19: the intercept 72, degree 2, and a source that delivers 1, 2, 3, .... -/
theorem makePolynomial_shape_witness :
    makePolynomial listReader [1, 2, 3] 72 2 = (.ok [72, 1, 2], [3]) :=
  (makePolynomial_shape listReader [1, 2, 3] 72 2 (by decide) (by decide) (by decide)
    (by decide)).1

/-! ## The reads of the entropy source during a split -/

theorem makePolynomial_read {σ : Type} (rng : Reader σ) (s : σ) (b degree : Nat)
    (hd : degree < 255) :
    makePolynomial rng s b degree =
      if (rng.Read s degree).1.err then (.error .entropy, (rng.Read s degree).2)
      else (.ok (b :: fillBuffer degree (rng.Read s degree).1.data), (rng.Read s degree).2) := by
  have hl : (degree + 1) % 256 = degree + 1 := Nat.mod_eq_of_lt (by omega)
  unfold makePolynomial
  simp only [hl, Nat.add_sub_cancel, Nat.succ_ne_zero, if_false]

theorem genPolys_reads {σ : Type} (rng : Reader σ) (degree : Nat) (hd : degree < 255)
    (bs : List Nat) (s s' : σ) (polys : List (List Nat))
    (h : genPolys rng degree bs s = (.ok polys, s')) :
    s' = readState rng degree bs.length s ∧
    ∀ i, i < bs.length → (nthRead rng degree i s).err = false ∧
      polys[i]? = some (bs.getD i 0 :: fillBuffer degree (nthRead rng degree i s).data) := by
  induction bs generalizing s s' polys with
  | nil =>
    simp only [genPolys, Prod.mk.injEq, Except.ok.injEq] at h
    exact ⟨h.2.symm, fun i hi => absurd hi (by simp)⟩
  | cons b bs ih =>
    simp only [genPolys, makePolynomial_read rng s b degree hd] at h
    by_cases herr : (rng.Read s degree).1.err = true
    · simp [herr] at h
    · simp only [herr, Bool.false_eq_true, if_false] at h
      rcases hg : genPolys rng degree bs (rng.Read s degree).2 with ⟨r, s1⟩
      rw [hg] at h
      cases r with
      | error e => simp at h
      | ok ps =>
        simp only [Prod.mk.injEq, Except.ok.injEq] at h
        obtain ⟨i1, i2⟩ := ih _ _ _ hg
        refine ⟨by rw [← h.2, i1]; rfl, ?_⟩
        intro i hi
        cases i with
        | zero =>
          refine ⟨by simpa [nthRead, readState] using herr, ?_⟩
          rw [← h.1, List.getElem?_cons_zero]
          rfl
        | succ i =>
          have hi2 : i < bs.length := by simpa using hi
          obtain ⟨j1, j2⟩ := i2 i hi2
          refine ⟨j1, ?_⟩
          rw [← h.1, List.getElem?_cons_succ, j2]
          rfl

theorem genPolys_read_error {σ : Type} (rng : Reader σ) (degree : Nat) (hd : degree < 255)
    (bs : List Nat) (s : σ) (j : Nat) (hj : j < bs.length)
    (hprev : ∀ i, i < j → (nthRead rng degree i s).err = false)
    (hfail : (nthRead rng degree j s).err = true) :
    genPolys rng degree bs s = (.error .entropy, readState rng degree (j + 1) s) := by
  induction bs generalizing s j with
  | nil => exact absurd hj (by simp)
  | cons b bs ih =>
    simp only [genPolys, makePolynomial_read rng s b degree hd]
    cases j with
    | zero =>
      have herr : (rng.Read s degree).1.err = true := hfail
      simp only [herr, if_true]
      rfl
    | succ j =>
      have herr : (rng.Read s degree).1.err = false := hprev 0 (by omega)
      simp only [herr, Bool.false_eq_true, if_false]
      rw [ih (rng.Read s degree).2 j (by simpa using hj)
        (fun i hi => hprev (i + 1) (by omega)) hfail]
      rfl

theorem nthRead_listReader (len i : Nat) (stream : List Nat) :
    readState listReader len i stream = stream.drop (i * len) ∧
    nthRead listReader len i stream = ⟨(stream.drop (i * len)).take len, false⟩ := by
  have h1 : ∀ (i : Nat) (st : List Nat),
      readState listReader len i st = st.drop (i * len) := by
    intro i
    induction i with
    | zero => intro st; simp [readState]
    | succ i ih =>
      intro st
      have hstep : readState listReader len (i + 1) st =
          readState listReader len i (st.drop len) := rfl
      rw [hstep, ih, List.drop_drop, Nat.succ_mul]
      congr 1
      omega
  refine ⟨h1 i stream, ?_⟩
  unfold nthRead
  rw [h1]
  rfl

theorem split_read_error {σ : Type} (fuel : Nat) (rng : Reader σ) (gf : GF256)
    (S : List Nat) (hne : S ≠ []) (K N : Nat) (hK : 2 ≤ K) (hKN : K ≤ N) (hN : N ≤ 255)
    (s : σ) (j : Nat) (hj : j < S.length)
    (hprev : ∀ i, i < j → (nthRead rng (K - 1) i s).err = false)
    (hfail : (nthRead rng (K - 1) j s).err = true) :
    (SplitWithField fuel rng (some gf) S K N s = none ∨
      SplitWithField fuel rng (some gf) S K N s =
        some (.error .entropy, readState rng (K - 1) (j + 1) s)) ∧
    (N ≤ 254 → N < fuel → SplitWithField fuel rng (some gf) S K N s =
        some (.error .entropy, readState rng (K - 1) (j + 1) s)) := by
  by_cases hN2 : N ≤ 254
  · have hdeg : (K + 255) % 256 = K - 1 := by omega
    obtain ⟨h1, h2⟩ := SplitWithField_spec fuel rng gf S K N s hne hK hKN hN2
    rw [hdeg, genPolys_read_error rng (K - 1) (by omega) S s j hj hprev hfail] at h1 h2
    exact ⟨h1, fun _ hf => h2 hf⟩
  · have hN3 : N = 255 := by omega
    subst hN3
    exact ⟨Or.inl (SplitWithField_diverges fuel rng gf S K s hne hK (by omega)),
      fun h => absurd h hN2⟩

/-- C17 (short read, refuted). For every intercept, every degree `d ≤ 254` and every
entropy source whose `Read` of `d` bytes delivers fewer than `d` bytes and reports no
error: `makePolynomial` returns no error but a polynomial, made of the intercept, the
bytes that were delivered, and the zero bytes that `make` left in the rest of the buffer
(the count returned by `Read` is discarded). -/
theorem short_read_accepted {σ : Type} (rng : Reader σ) (s : σ) (intercept d : Nat)
    (hd : d ≤ 254) (herr : (rng.Read s d).1.err = false)
    (hshort : (rng.Read s d).1.data.length < d) :
    makePolynomial rng s intercept d =
      (.ok (intercept :: ((rng.Read s d).1.data.map (· % 256) ++
        List.replicate (d - (rng.Read s d).1.data.length) 0)), (rng.Read s d).2) := by
  rw [makePolynomial_read rng s intercept d (by omega)]
  simp only [herr, Bool.false_eq_true, if_false, fillBuffer]
  rw [List.take_of_length_le (Nat.le_of_lt hshort)]

/-- Witness of C17: the intercept 72, degree 2, and a source that has the one byte 7 left
and delivers it with no error (a short read of 1 < 2 bytes): `makePolynomial` returns the
polynomial 72, 7, 0 and no error. -/
theorem short_read_accepted_witness :
    (listReader.Read [7] 2).1 = ⟨[7], false⟩ ∧
    makePolynomial listReader [7] 72 2 = (.ok [72, 7, 0], []) :=
  ⟨rfl, short_read_accepted listReader [7] 72 2 (by decide) (by decide) (by decide)⟩

/-- C12 (an entropy failure yields no shares). For every field, non-empty secret `S` and
`2 ≤ K ≤ N ≤ 255`: when the read number `j` of the entropy source (counted from 0, each
read asking for the `K - 1` coefficients of one polynomial) reports an error after the
reads before it succeeded, then `SplitWithField` (for `j < len(S)`) and
`SplitTaggedWithField` (for `j < TagLength + len(S)`, so for a tag or a secret position)
never return a share map: a run that returns gives the entropy error and the source state
after the failed read, and for `N ≤ 254` the run does return once it has more than `N`
rounds of fuel. (For `N = 255` the split never reaches a read.) -/
theorem entropy_error_aborts_split {σ : Type} (fuel : Nat) (rng : Reader σ) (gf : GF256)
    (S : List Nat) (hne : S ≠ []) (K N : Nat) (hK : 2 ≤ K) (hKN : K ≤ N) (hN : N ≤ 255)
    (s : σ) (j : Nat) (hprev : ∀ i, i < j → (nthRead rng (K - 1) i s).err = false)
    (hfail : (nthRead rng (K - 1) j s).err = true) :
    (j < S.length →
      (SplitWithField fuel rng (some gf) S K N s = none ∨
        SplitWithField fuel rng (some gf) S K N s =
          some (.error .entropy, readState rng (K - 1) (j + 1) s)) ∧
      (N ≤ 254 → N < fuel → SplitWithField fuel rng (some gf) S K N s =
          some (.error .entropy, readState rng (K - 1) (j + 1) s))) ∧
    (j < TagLength + S.length →
      (SplitTaggedWithField fuel rng (some gf) S K N s = none ∨
        SplitTaggedWithField fuel rng (some gf) S K N s =
          some (.error .entropy, readState rng (K - 1) (j + 1) s)) ∧
      (N ≤ 254 → N < fuel → SplitTaggedWithField fuel rng (some gf) S K N s =
          some (.error .entropy, readState rng (K - 1) (j + 1) s))) := by
  refine ⟨fun hj => split_read_error fuel rng gf S hne K N hK hKN hN s j hj hprev hfail, ?_⟩
  intro hj
  rw [SplitTagged_eq_Split fuel rng (some gf) S K N s hne]
  exact split_read_error fuel rng gf (List.replicate TagLength 0 ++ S) (by simp [TagLength])
    K N hK hKN hN s j (by simpa using hj) hprev hfail

/-- Witness of C12: a 2-of-3 split of the bytes 72, 69 on a source that serves one read
and fails on the second; the untagged split fails at the second secret byte and the
tagged split at the second tag byte, both with the entropy error. -/
theorem entropy_error_aborts_split_witness :
    SplitWithField 4 failAfter (some aesField) [72, 69] 2 3 1 = some (.error .entropy, 0) ∧
    SplitTaggedWithField 4 failAfter (some aesField) [72, 69] 2 3 1 =
      some (.error .entropy, 0) :=
  have h := entropy_error_aborts_split 4 failAfter aesField [72, 69] (by decide) 2 3
    (by decide) (by decide) (by decide) 1 1 (by decide) (by decide)
  ⟨(h.1 (by decide)).2 (by decide) (by decide), (h.2 (by decide)).2 (by decide) (by decide)⟩

/-- C13 (every share byte is the value of the polynomial of its position). Whenever
`SplitWithField(gf, S, K, N)` returns `shares`, then for every position `i < len(S)` and
every index `x` in `1..N`: the read number `i` of the entropy source (reads of `K - 1`
bytes, one after the other on the same source) reported no error, and `shares[x][i]` is
`gf.Evaluate` at `x` of the polynomial whose first coefficient is `S[i]` and whose other
`K - 1` coefficients are the buffer of that read; when the read filled the buffer these
are the `K - 1` bytes it delivered. -/
theorem share_byte_is_evaluation {σ : Type} (gf : GF256) (fuel : Nat) (rng : Reader σ)
    (s s' : σ) (S : List Nat) (hne : S ≠ []) (K N : Nat) (hK : 2 ≤ K) (hKN : K ≤ N)
    (hN : N ≤ 255) (shares : Shares)
    (hsplit : SplitWithField fuel rng (some gf) S K N s = some (.ok shares, s'))
    (i x : Nat) (hi : i < S.length) (hx1 : 1 ≤ x) (hxN : x ≤ N) :
    (nthRead rng (K - 1) i s).err = false ∧
    ∃ v, List.lookup x shares = some v ∧
      v[i]? = some (gf.Evaluate
        (S[i] :: fillBuffer (K - 1) (nthRead rng (K - 1) i s).data) x) ∧
      ((nthRead rng (K - 1) i s).data.length = K - 1 →
        (∀ b ∈ (nthRead rng (K - 1) i s).data, b < 256) →
        v[i]? = some (gf.Evaluate (S[i] :: (nthRead rng (K - 1) i s).data) x)) := by
  obtain ⟨hN2, polys, hg, _, hsh⟩ :=
    split_returns gf fuel rng s s' S hne K N hK hKN hN shares hsplit
  obtain ⟨_, hr⟩ := genPolys_reads rng (K - 1) (by omega) S s s' polys hg
  obtain ⟨r1, r2⟩ := hr i hi
  have hx : x ∈ List.range' 1 N := by
    rw [List.mem_range'_1]
    omega
  have hSi : S.getD i 0 = S[i] := List.getD_eq_getElem S 0 hi
  rw [hSi] at r2
  have hval : (polys.map (fun cs => gf.Evaluate cs x))[i]? = some (gf.Evaluate
      (S[i] :: fillBuffer (K - 1) (nthRead rng (K - 1) i s).data) x) := by
    rw [List.getElem?_map, r2]
    rfl
  refine ⟨r1, _, ?_, hval, ?_⟩
  · rw [hsh]
    exact lookup_keyed (List.range' 1 N) (fun x => polys.map (fun cs => gf.Evaluate cs x)) x hx
  · intro hl hb
    rw [hval, fillBuffer_full (K - 1) _ hl hb]

/-- Witness of C13: the 2-of-3 split of the bytes 72, 69 on the stream 1, 2; byte 1 of share
3 is the value at 3 of the polynomial 69 + 2 x, whose coefficient 2 is the second read. -/
theorem share_byte_is_evaluation_witness :
    nthRead listReader 1 1 [1, 2] = ⟨[2], false⟩ ∧
    ∃ v, List.lookup 3 [(1, [73, 71]), (2, [74, 65]), (3, [75, 67])] = some v ∧
      v[1]? = some (aesField.Evaluate [69, 2] 3) :=
  have h := share_byte_is_evaluation aesField 4 listReader [1, 2] [] [72, 69] (by decide) 2 3
    (by decide) (by decide) (by decide) [(1, [73, 71]), (2, [74, 65]), (3, [75, 67])]
    (by decide) 1 3 (by decide) (by decide) (by decide)
  ⟨rfl, h.2.imp (fun _ hv => ⟨hv.1, hv.2.2 (by decide) (by decide)⟩)⟩

/-! ## The tagged split as a split -/

/-- C14 (the tagged split is the untagged split of the zero-prefixed secret). For every
field (nil or not), every non-empty secret `S`, every `K` and `N`, every entropy source in
every state and every amount of fuel: `SplitTaggedWithField(gf, S, K, N)` gives the same
outcome as `SplitWithField(gf, Z ++ S, K, N)` with `Z` the `TagLength` zero bytes: the same
share map or the same failure, the same state of the entropy source afterwards, and no
return of the one exactly when the other does not return. -/
theorem tagged_split_is_split_of_prefixed {σ : Type} (fuel : Nat) (rng : Reader σ)
    (gf : Option GF256) (S : List Nat) (K N : Nat) (s : σ) (hne : S ≠ []) :
    SplitTaggedWithField fuel rng gf S K N s =
      SplitWithField fuel rng gf (List.replicate TagLength 0 ++ S) K N s :=
  SplitTagged_eq_Split fuel rng gf S K N s hne

/-- Witness of C14: the 2-of-3 tagged split of the byte 72 on the stream 1, ..., 9 and the
untagged split of eight zero bytes followed by 72 return the same three shares. -/
theorem tagged_split_is_split_of_prefixed_witness :
    SplitTaggedWithField 4 listReader (some aesField) [72] 2 3 [1, 2, 3, 4, 5, 6, 7, 8, 9] =
      SplitWithField 4 listReader (some aesField) [0, 0, 0, 0, 0, 0, 0, 0, 72] 2 3
        [1, 2, 3, 4, 5, 6, 7, 8, 9] ∧
    SplitWithField 4 listReader (some aesField) [0, 0, 0, 0, 0, 0, 0, 0, 72] 2 3
        [1, 2, 3, 4, 5, 6, 7, 8, 9] =
      some (.ok [(1, [1, 2, 3, 4, 5, 6, 7, 8, 65]), (2, [2, 4, 6, 8, 10, 12, 14, 16, 90]),
        (3, [3, 6, 5, 12, 15, 10, 9, 24, 83])], []) :=
  ⟨tagged_split_is_split_of_prefixed 4 listReader (some aesField) [72] 2 3
    [1, 2, 3, 4, 5, 6, 7, 8, 9] (by decide), by decide⟩

/-! ## The outcomes of the tagged combine -/

theorem index_oob (T : Shares) (L : Nat) (hwf : WellFormed T L) (x : Nat)
    (hx : x ∈ T.map Prod.fst) (i : Nat) (hi : L ≤ i) :
    Shares.index T x i = .error .indexOutOfRange := by
  obtain ⟨e, he, rfl⟩ := List.mem_map.mp hx
  have hl := lookup_of_mem T hwf.1 e.1 e.2 he
  have hlen : e.2.length ≤ i := by rw [(hwf.2 e he).2.1]; exact hi
  unfold Shares.index
  rw [hl]
  simp only [List.getElem?_eq_none hlen]

/-- On a non-empty well-formed map a byte position at or past the share length cannot be
read: the first `shares[x][i]` of the `range` panics. -/
theorem interpolateAt_oob (gf : GF256) (T : Shares) (L : Nat) (hwf : WellFormed T L)
    (hne : T ≠ []) (keys : List Nat) (hkeys : keys.Perm (T.map Prod.fst)) (i : Nat)
    (hi : L ≤ i) : interpolateAt gf T i keys = .error .indexOutOfRange := by
  cases keys with
  | nil =>
    have := hkeys.length_eq
    simp only [List.length_nil, List.length_map] at this
    exact absurd (List.length_eq_zero.mp this.symm) hne
  | cons x keys =>
    have hx : x ∈ T.map Prod.fst := hkeys.mem_iff.mp (List.mem_cons_self _ _)
    unfold interpolateAt
    simp only [collect, index_oob T L hwf x hx i hi]

/-- The tag loop on shares shorter than the positions it visits: it ends with a mismatch
at a position that exists, or panics at the first position that does not. -/
theorem verifyTag_short (F : VField) (T : Shares) (L : Nat) (hwf : WellFormed T L)
    (hne : T ≠ []) (ord : Nat → List Nat) (hord : ∀ k, (ord k).Perm (T.map Prod.fst))
    (count i : Nat) (hi : i ≤ L) (hc : L < i + count) :
    verifyTag F.gf T ord count i = .ok false ∨
      verifyTag F.gf T ord count i = .error .indexOutOfRange := by
  induction count generalizing i with
  | zero => exact absurd hc (by omega)
  | succ count ih =>
    unfold verifyTag
    by_cases hiL : i < L
    · obtain ⟨b, _, _, h2⟩ := interpolateAt_wf F T L hwf (ord i) (hord i) i hiL
      rw [h2]
      by_cases hb : b = 0
      · simp only [hb, ne_eq, not_true_eq_false, if_false]
        exact ih (i + 1) (by omega) (by omega)
      · simp only [ne_eq, hb, not_false_eq_true, if_true]
        exact Or.inl trivial
    · rw [interpolateAt_oob F.gf T L hwf hne (ord i) (hord i) i (by omega)]
      exact Or.inr rfl

theorem CombineTagged_empty (gf : GF256) (ord : Nat → List Nat)
    (hord : ∀ k, (ord k).Perm (([] : Shares).map Prod.fst)) :
    CombineTaggedWithField gf [] ord = .ok [] := by
  unfold CombineTaggedWithField
  rw [probe_empty (ord 0) (hord 0)]
  rfl

theorem CombineTagged_tag_only (gf : GF256) (T : Shares) (hwf : WellFormed T TagLength)
    (hne : T ≠ []) (ord : Nat → List Nat) (hord : ∀ k, (ord k).Perm (T.map Prod.fst)) :
    CombineTaggedWithField gf T ord = .ok [] := by
  unfold CombineTaggedWithField
  rw [probe_wf T TagLength hwf hne (ord 0) (hord 0)]
  simp

theorem CombineTagged_short (F : VField) (T : Shares) (L : Nat) (hwf : WellFormed T L)
    (hne : T ≠ []) (hL : L < TagLength) (ord : Nat → List Nat)
    (hord : ∀ k, (ord k).Perm (T.map Prod.fst)) :
    CombineTaggedWithField F.gf T ord = .error .tagMismatch ∨
      CombineTaggedWithField F.gf T ord = .error .indexOutOfRange := by
  have hsl : ((L : Int) - (TagLength : Int)) ≠ 0 := by omega
  unfold CombineTaggedWithField
  rw [probe_wf T L hwf hne (ord 0) (hord 0)]
  simp only [hsl, if_false]
  rcases verifyTag_short F T L hwf hne (fun i => ord (1 + i)) (fun k => hord (1 + k))
    TagLength 0 (by omega) (by omega) with h | h
  · rw [h]; exact Or.inl rfl
  · rw [h]; exact Or.inr rfl

/-- C11 (outcomes of the tagged combine, refuted below the tag length). For a field built
by `New256`, a share map with distinct byte keys and values of one length `L`, and every
enumeration order: the empty map gives the empty secret; a non-empty map with
`L ≥ TagLength` gives the tag-mismatch error or a secret of length `L - TagLength`; a
non-empty map with `L < TagLength` gives no secret at all but the tag-mismatch error or
the panic of an index out of range in the tag loop (never an allocation of negative
length, which the tag loop cannot reach). -/
theorem tagged_combine_outcomes (poly gen : Nat) (gf : GF256) (hgf : New256 poly gen = some gf)
    (T : Shares) (L : Nat) (hwf : WellFormed T L) (ord : Nat → List Nat)
    (hord : ∀ k, (ord k).Perm (T.map Prod.fst)) :
    (T = [] → CombineTaggedWithField gf T ord = .ok []) ∧
    (T ≠ [] → TagLength ≤ L →
      CombineTaggedWithField gf T ord = .error .tagMismatch ∨
        ∃ out, CombineTaggedWithField gf T ord = .ok out ∧ out.length = L - TagLength) ∧
    (T ≠ [] → L < TagLength →
      CombineTaggedWithField gf T ord = .error .tagMismatch ∨
        CombineTaggedWithField gf T ord = .error .indexOutOfRange) := by
  refine ⟨?_, ?_, ?_⟩
  · intro hT
    subst hT
    exact CombineTagged_empty gf ord hord
  · intro hne hL
    by_cases h8 : L = TagLength
    · subst h8
      exact Or.inr ⟨[], CombineTagged_tag_only gf T hwf hne ord hord, by simp⟩
    · obtain ⟨_, h2⟩ := tag_mismatch_iff_payload ⟨gf, New256_valid poly gen gf hgf⟩ T L hwf hne
        (by omega) ord hord
      by_cases hm : CombineTaggedWithField gf T ord = .error .tagMismatch
      · exact Or.inl hm
      · obtain ⟨out, h3, h4, _⟩ := h2 hm
        exact Or.inr ⟨out, h3, h4⟩
  · intro hne hL
    exact CombineTagged_short ⟨gf, New256_valid poly gen gf hgf⟩ T L hwf hne hL ord hord

/-- Witness of C11, at the failing input: one empty share under key 1 (a share cut down to
nothing). The length probe gives `secretLength = -8`, and the first tag position indexes
the empty share. -/
theorem tagged_combine_outcomes_witness :
    CombineTaggedWithField aesField [(1, [])] (fun _ => [1]) = .error .indexOutOfRange :=
  ((tagged_combine_outcomes PolyAES GenAES aesField New256_aes [(1, [])] 0 (by decide)
    (fun _ => [1]) (fun _ => (by decide : List.Perm [1] [1]))).2.2 (by decide)
    (by decide)).resolve_left (by decide)

/-! ## The order of enumeration of the share map -/

theorem interpolateAt_order (F : VField) (T : Shares) (L : Nat) (hwf : WellFormed T L)
    (k1 k2 : List Nat) (h1 : k1.Perm (T.map Prod.fst)) (h2 : k2.Perm (T.map Prod.fst))
    (i : Nat) : interpolateAt F.gf T i k1 = interpolateAt F.gf T i k2 := by
  by_cases hne : T = []
  · subst hne
    have e1 : k1 = [] := List.length_eq_zero.mp (by simpa using h1.length_eq)
    have e2 : k2 = [] := List.length_eq_zero.mp (by simpa using h2.length_eq)
    rw [e1, e2]
  · by_cases hi : i < L
    · obtain ⟨b1, _, a1, a2⟩ := interpolateAt_wf F T L hwf k1 h1 i hi
      obtain ⟨b2, _, c1, c2⟩ := interpolateAt_wf F T L hwf k2 h2 i hi
      rw [a1] at c1
      rw [a2, c2, Option.some.inj c1]
    · rw [interpolateAt_oob F.gf T L hwf hne k1 h1 i (by omega),
        interpolateAt_oob F.gf T L hwf hne k2 h2 i (by omega)]

theorem unlock_congr (gf : GF256) (T : Shares) (off : Nat) (ord1 ord2 : Nat → List Nat)
    (h : ∀ j p, interpolateAt gf T p (ord1 j) = interpolateAt gf T p (ord2 j))
    (count i : Nat) : unlock gf T off ord1 count i = unlock gf T off ord2 count i := by
  induction count generalizing i with
  | zero => rfl
  | succ count ih =>
    unfold unlock
    rw [h i (i + off), ih (i + 1)]

theorem verifyTag_congr (gf : GF256) (T : Shares) (ord1 ord2 : Nat → List Nat)
    (h : ∀ j p, interpolateAt gf T p (ord1 j) = interpolateAt gf T p (ord2 j))
    (count i : Nat) : verifyTag gf T ord1 count i = verifyTag gf T ord2 count i := by
  induction count generalizing i with
  | zero => rfl
  | succ count ih =>
    unfold verifyTag
    rw [h i i, ih (i + 1)]

theorem probe_order (T : Shares) (L : Nat) (hwf : WellFormed T L) (k1 k2 : List Nat)
    (h1 : k1.Perm (T.map Prod.fst)) (h2 : k2.Perm (T.map Prod.fst)) :
    probe T k1 = probe T k2 := by
  by_cases hne : T = []
  · subst hne
    rw [probe_empty k1 h1, probe_empty k2 h2]
  · rw [probe_wf T L hwf hne k1 h1, probe_wf T L hwf hne k2 h2]

/-- C16 (the enumeration order of the map does not matter). For a field built by `New256`,
a share map with distinct byte keys and values of one length `L` (any `L`), and any two
families of enumeration orders `ord1` and `ord2` (one order for the length probe and one
for each byte position, each a permutation of the keys, chosen freely): `CombineWithField`
returns the same bytes under both, and `CombineTaggedWithField` the same outcome (the
same secret, or the same failure). -/
theorem combine_order_independent (poly gen : Nat) (gf : GF256)
    (hgf : New256 poly gen = some gf) (T : Shares) (L : Nat) (hwf : WellFormed T L)
    (ord1 ord2 : Nat → List Nat) (h1 : ∀ k, (ord1 k).Perm (T.map Prod.fst))
    (h2 : ∀ k, (ord2 k).Perm (T.map Prod.fst)) :
    CombineWithField gf T ord1 = CombineWithField gf T ord2 ∧
    CombineTaggedWithField gf T ord1 = CombineTaggedWithField gf T ord2 := by
  have hI : ∀ a b p, interpolateAt gf T p (ord1 a) = interpolateAt gf T p (ord2 b) :=
    fun a b p => interpolateAt_order ⟨gf, New256_valid poly gen gf hgf⟩ T L hwf _ _
      (h1 a) (h2 b) p
  have hp := probe_order T L hwf (ord1 0) (ord2 0) (h1 0) (h2 0)
  have hu : ∀ c i, unlock gf T 0 (fun i => ord1 (i + 1)) c i =
      unlock gf T 0 (fun i => ord2 (i + 1)) c i :=
    unlock_congr gf T 0 _ _ (fun j p => hI _ _ p)
  have hv : ∀ c i, verifyTag gf T (fun i => ord1 (1 + i)) c i =
      verifyTag gf T (fun i => ord2 (1 + i)) c i :=
    verifyTag_congr gf T _ _ (fun j p => hI _ _ p)
  have hw : ∀ c i, unlock gf T TagLength (fun i => ord1 (1 + TagLength + i)) c i =
      unlock gf T TagLength (fun i => ord2 (1 + TagLength + i)) c i :=
    unlock_congr gf T TagLength _ _ (fun j p => hI _ _ p)
  constructor
  · unfold CombineWithField
    simp only [hp, hu]
  · unfold CombineTaggedWithField
    simp only [hp, hv, hw]

/-- Witness of C16: the shares 1 and 3 of the tagged split of the byte 72, enumerated
always as 1, 3 on one side, and as 3, 1 at every odd step on the other side. -/
theorem combine_order_independent_witness :
    CombineWithField aesField
        [(1, [1, 2, 3, 4, 5, 6, 7, 8, 65]), (3, [3, 6, 5, 12, 15, 10, 9, 24, 83])]
        (fun _ => [1, 3]) =
      CombineWithField aesField
        [(1, [1, 2, 3, 4, 5, 6, 7, 8, 65]), (3, [3, 6, 5, 12, 15, 10, 9, 24, 83])]
        (fun k => if k % 2 = 1 then [3, 1] else [1, 3]) ∧
    CombineTaggedWithField aesField
        [(1, [1, 2, 3, 4, 5, 6, 7, 8, 65]), (3, [3, 6, 5, 12, 15, 10, 9, 24, 83])]
        (fun _ => [1, 3]) =
      CombineTaggedWithField aesField
        [(1, [1, 2, 3, 4, 5, 6, 7, 8, 65]), (3, [3, 6, 5, 12, 15, 10, 9, 24, 83])]
        (fun k => if k % 2 = 1 then [3, 1] else [1, 3]) :=
  combine_order_independent PolyAES GenAES aesField New256_aes
    [(1, [1, 2, 3, 4, 5, 6, 7, 8, 65]), (3, [3, 6, 5, 12, 15, 10, 9, 24, 83])] 9 (by decide)
    (fun _ => [1, 3]) (fun k => if k % 2 = 1 then [3, 1] else [1, 3])
    (fun _ => (by decide : List.Perm [1, 3] [1, 3]))
    (fun k => by dsimp only; split <;> decide)

/-! ## The tagged combine and the payload -/

theorem payload_keys (T : Shares) : (payload T).map Prod.fst = T.map Prod.fst := by
  unfold payload
  rw [List.map_map]
  rfl

theorem payload_wf (T : Shares) (L : Nat) (hwf : WellFormed T L) :
    WellFormed (payload T) (L - TagLength) := by
  refine ⟨by rw [payload_keys]; exact hwf.1, ?_⟩
  intro e he
  obtain ⟨e0, he0, rfl⟩ := List.mem_map.mp he
  obtain ⟨a, b, c⟩ := hwf.2 e0 he0
  exact ⟨a, by simp only [List.length_drop, b], fun y hy => c y (List.mem_of_mem_drop hy)⟩

theorem samplesAt_payload (T : Shares) (j : Nat) :
    samplesAt (payload T) j = samplesAt T (j + TagLength) := by
  unfold samplesAt payload
  rw [List.map_map]
  apply List.map_congr_left
  intro e _
  simp only [Function.comp, List.getD_eq_getElem?_getD, List.getElem?_drop, Nat.add_comm]

/-- C15 (after a passed tag check the tagged combine is the combine of the payload). For a
field built by `New256`, a share map with distinct byte keys and values of one length
`L ≥ TagLength`, and any enumeration orders of the map and of its payload map (the same
keys, each share without its first `TagLength` bytes): when `CombineTaggedWithField`
returns a secret with no error, `CombineWithField` on the payload map returns the same
bytes. -/
theorem tagged_combine_is_combine_of_payload (poly gen : Nat) (gf : GF256)
    (hgf : New256 poly gen = some gf) (T : Shares) (L : Nat) (hwf : WellFormed T L)
    (hL : TagLength ≤ L) (ord ord' : Nat → List Nat)
    (hord : ∀ k, (ord k).Perm (T.map Prod.fst))
    (hord' : ∀ k, (ord' k).Perm ((payload T).map Prod.fst)) (out : List Nat)
    (h : CombineTaggedWithField gf T ord = .ok out) :
    CombineWithField gf (payload T) ord' = .ok out := by
  have hwf' := payload_wf T L hwf
  by_cases hne : T = []
  · subst hne
    rw [CombineTagged_empty gf ord hord] at h
    rw [← Except.ok.inj h]
    unfold CombineWithField
    rw [show payload [] = [] from rfl, probe_empty (ord' 0) (hord' 0)]
    rfl
  · have hne' : payload T ≠ [] := by
      unfold payload
      simpa using hne
    obtain ⟨out', c1, c2, c3⟩ := Combine_wf ⟨gf, New256_valid poly gen gf hgf⟩ (payload T)
      (L - TagLength) hwf' hne' ord' hord'
    rw [c1]
    by_cases h8 : L = TagLength
    · subst h8
      rw [CombineTagged_tag_only gf T hwf hne ord hord] at h
      have ho : out' = [] := List.length_eq_zero.mp (by simpa using c2)
      rw [← Except.ok.inj h, ho]
    · obtain ⟨_, t2⟩ := tag_mismatch_iff_payload ⟨gf, New256_valid poly gen gf hgf⟩ T L hwf hne
        (by omega) ord hord
      obtain ⟨out2, d1, d2, d3⟩ := t2 (by rw [h]; simp)
      rw [h] at d1
      have ho : out = out2 := Except.ok.inj d1
      subst ho
      congr 1
      apply List.ext_getElem (by rw [c2, d2])
      intro j hj1 hj2
      have e1 := c3 j hj1
      have e2 := d3 j hj2
      rw [samplesAt_payload, e2] at e1
      exact (Option.some.inj e1).symm

/-- Witness of C15: the shares 1 and 3 of the tagged split of the byte 72; the tagged
combine returns 72, and so does the combine of the payload map, read in another order. -/
theorem tagged_combine_is_combine_of_payload_witness :
    payload [(1, [1, 2, 3, 4, 5, 6, 7, 8, 65]), (3, [3, 6, 5, 12, 15, 10, 9, 24, 83])] =
      [(1, [65]), (3, [83])] ∧
    CombineWithField aesField
      (payload [(1, [1, 2, 3, 4, 5, 6, 7, 8, 65]), (3, [3, 6, 5, 12, 15, 10, 9, 24, 83])])
      (fun _ => [3, 1]) = .ok [72] :=
  ⟨rfl, tagged_combine_is_combine_of_payload PolyAES GenAES aesField New256_aes
    [(1, [1, 2, 3, 4, 5, 6, 7, 8, 65]), (3, [3, 6, 5, 12, 15, 10, 9, 24, 83])] 9 (by decide)
    (by decide) (fun _ => [1, 3]) (fun _ => [3, 1])
    (fun _ => (by decide : List.Perm [1, 3] [1, 3]))
    (fun _ => (by decide : List.Perm [3, 1] [1, 3])) [72] (by decide)⟩

/-! ## A corrupted byte is reported exactly in the tag -/

theorem samplesAt_corrupt_other (T : Shares) (x0 p b' i : Nat) (hi : i ≠ p) :
    samplesAt (corrupt T x0 p b') i = samplesAt T i := by
  unfold samplesAt corrupt
  rw [List.map_map]
  apply List.map_congr_left
  intro e _
  simp only [Function.comp]
  by_cases hx : e.1 = x0
  · rw [if_pos hx]
    simp only [Point.mk.injEq, true_and]
    rw [List.getD_eq_getElem?_getD, List.getD_eq_getElem?_getD,
      List.getElem?_set_ne (fun h => hi h.symm)]
  · rw [if_neg hx]

/-- C18 (a single corrupted byte is reported exactly when it lies in the tag). For a field
built by `New256`, a non-empty secret of bytes, `2 ≤ K ≤ N ≤ 255`, whatever the entropy
source delivers: when `SplitTaggedWithField` returns a share map and `T` keeps at least
`K` of its entries (so also exactly `K`), then after the byte at position `p` of one share
of `T` is replaced by a different byte, `CombineTaggedWithField` returns the error "tag
mismatch" if and only if `p < TagLength`, whatever the orders of enumeration. -/
theorem corruption_reported_iff_in_tag {σ : Type} (poly gen : Nat) (gf : GF256)
    (hgf : New256 poly gen = some gf) (fuel : Nat) (rng : Reader σ) (s s' : σ)
    (S : List Nat) (hS : ∀ b ∈ S, b < 256) (hne : S ≠ []) (K N : Nat) (hK : 2 ≤ K)
    (hKN : K ≤ N) (hN : N ≤ 255) (shares : Shares)
    (hsplit : SplitTaggedWithField fuel rng (some gf) S K N s = some (.ok shares, s'))
    (T : Shares) (hTnd : (T.map Prod.fst).Nodup) (hTsub : ∀ e ∈ T, e ∈ shares)
    (hTlen : K ≤ T.length) (x0 : Nat) (hx0 : x0 ∈ T.map Prod.fst) (p : Nat)
    (b' : Nat) (hb' : b' < 256) (hdiff : b' ≠ col T p x0)
    (ord : Nat → List Nat) (hord : ∀ k, (ord k).Perm ((corrupt T x0 p b').map Prod.fst)) :
    CombineTaggedWithField gf (corrupt T x0 p b') ord = .error .tagMismatch ↔
      p < TagLength := by
  rw [SplitTagged_eq_Split fuel rng (some gf) S K N s hne] at hsplit
  obtain ⟨hN2, polys, _, hpolys, hshares⟩ :=
    split_returns gf fuel rng s s' (List.replicate TagLength 0 ++ S) (by simp [TagLength])
      K N hK hKN hN shares hsplit
  subst hshares
  have hT := consistent_of_subset gf polys N hN2 T hTsub
  have hbs : ∀ b ∈ List.replicate TagLength 0 ++ S, b < 256 := by
    intro b hb
    rcases List.mem_append.mp hb with h | h
    · rw [(List.mem_replicate.mp h).2]; omega
    · exact hS b h
  have hpl : polys.length = TagLength + S.length := by
    rw [← hpolys.length_eq, List.length_append, List.length_replicate]
  have hSl : S.length ≠ 0 := fun h => hne (List.length_eq_zero.mp h)
  have hwf := consistent_wf ⟨gf, New256_valid poly gen gf hgf⟩ polys
    (polys_bytes (K - 1) _ polys hbs hpolys) T hTnd hT
  have hTne : corrupt T x0 p b' ≠ [] := by
    intro h
    have := congrArg List.length h
    simp only [corrupt, List.length_map, List.length_nil] at this
    omega
  have hkeys : ∀ x ∈ T.map Prod.fst, 0 < x ∧ x < 256 := fun x hx =>
    ⟨(lookup_consistent gf polys T hTnd hT x hx).2.1,
      (lookup_consistent gf polys T hTnd hT x hx).2.2⟩
  -- every tag position has a polynomial with the intercept 0
  have htag : ∀ i, i < TagLength → ∃ rest, polys[i]? = some (0 :: rest) ∧
      rest.length = K - 1 ∧ ∀ c ∈ rest, c < 256 := by
    intro i hi
    have hpp : i < polys.length := by omega
    have hpz : i < (List.replicate TagLength 0 ++ S).length := by
      rw [hpolys.length_eq]; exact hpp
    obtain ⟨rest, hcs, hrl, hrb⟩ :
        IsPoly (K - 1) (List.replicate TagLength 0 ++ S)[i] polys[i] :=
      (List.forall₂_iff_get.mp hpolys).2 i hpz hpp
    have hz : (List.replicate TagLength 0 ++ S)[i] = 0 := by
      rw [List.getElem_append_left (by simpa using hi), List.getElem_replicate]
    rw [hz] at hcs
    exact ⟨rest, by rw [List.getElem?_eq_getElem hpp, hcs], hrl, hrb⟩
  rw [(tag_mismatch_iff_payload ⟨gf, New256_valid poly gen gf hgf⟩ (corrupt T x0 p b')
    polys.length (corrupt_wf T _ hwf x0 p b' hb') hTne (by omega) ord hord).1]
  constructor
  · rintro ⟨i, hi, hI⟩
    by_contra hp
    apply hI
    obtain ⟨rest, hget, hrl, hrb⟩ := htag i hi
    rw [samplesAt_corrupt_other T x0 p b' i (by omega),
      samplesAt_consistent gf polys T hT i (0 :: rest) hget]
    exact Interpolate_poly ⟨gf, New256_valid poly gen gf hgf⟩ 0 rest (by omega) hrb
      (T.map Prod.fst) (fun x hx => (hkeys x hx).2) hTnd
      (by rw [hrl, List.length_map]; omega)
  · intro hp
    refine ⟨p, hp, ?_⟩
    obtain ⟨rest, hget, hrl, hrb⟩ := htag p hp
    rw [samplesAt_corrupt gf polys T hT x0 p b' (0 :: rest) hget]
    rw [col_consistent gf polys T hTnd hT x0 p hx0 (0 :: rest) hget] at hdiff
    obtain ⟨b, _, hb0, hI⟩ := Interpolate_perturbed ⟨gf, New256_valid poly gen gf hgf⟩ 0 rest
      (by omega) hrb (T.map Prod.fst) hkeys hTnd (by rw [hrl, List.length_map]; omega)
      x0 hx0 b' hb' hdiff
    rw [hI]
    simpa using hb0

/-- Witness of C18: in the tagged 2-of-3 split of the byte 72 on the stream 1, ..., 9 and
the shares 1 and 2, replacing the tag byte 3 at position 2 of share 1 by 200 is reported
as a tag mismatch. -/
theorem corruption_reported_iff_in_tag_witness :
    CombineTaggedWithField aesField
        (corrupt [(1, [1, 2, 3, 4, 5, 6, 7, 8, 65]), (2, [2, 4, 6, 8, 10, 12, 14, 16, 90])]
          1 2 200) (fun _ => [2, 1]) = .error .tagMismatch :=
  (corruption_reported_iff_in_tag PolyAES GenAES aesField New256_aes 4 listReader
    [1, 2, 3, 4, 5, 6, 7, 8, 9] [] [72] (by decide) (by decide) 2 3 (by decide) (by decide)
    (by decide)
    [(1, [1, 2, 3, 4, 5, 6, 7, 8, 65]), (2, [2, 4, 6, 8, 10, 12, 14, 16, 90]),
      (3, [3, 6, 5, 12, 15, 10, 9, 24, 83])] (by decide)
    [(1, [1, 2, 3, 4, 5, 6, 7, 8, 65]), (2, [2, 4, 6, 8, 10, 12, 14, 16, 90])]
    (by decide) (by decide) (by decide) 1 (by decide) 2 200 (by decide) (by decide)
    (fun _ => [2, 1]) (fun _ => (by decide : List.Perm [2, 1] [1, 2]))).mpr (by decide)

end Shamir
